import Mathlib

/-!
# filemon: a shallow embedding of `FileMonitor/FileMon.cpp` and `XmlStrBuilder.cpp`

Conventions of the embedding.

* A C `char` is a byte, written as a natural number; a `std::string` is the list of
  its bytes (`CStr`), without the terminating NUL.
* A `char *` argument is the byte array it points into (`List Nat`); the string it
  denotes runs up to the first NUL byte (`cstrAt`).  A read outside the array is a
  fault of the model, never a value.
* `stdout` is the list of the strings written by the successive `printf` calls.
* The statics `isDebug_s`, `monPathSet_s`, `monPathVec_s` and `eventCounter_s` are
  passed explicitly.
-/

namespace FileMon

/-! ## Strings and formatting -/

/-- A `std::string`: its bytes in order. -/
abbrev CStr := List Nat

/-- The bytes of a string literal of the source. -/
def bytes (s : String) : CStr := s.toList.map Char.toNat

/-- The path separator tested by `isMonitoredPath` and stripped by `processInputCmd`. -/
def slash : Nat := '/'.toNat

/-- Output of `printf` for a `%d`, `%ld` or `%lld` conversion of a signed value. -/
def fmtD (i : Int) : CStr := bytes (toString i)

/-- The C string that starts a byte sequence: the bytes before the first NUL; `none`
when the sequence holds no NUL. -/
def cstrOf : List Nat → Option CStr
  | [] => none
  | b :: rest => if b = 0 then some [] else (cstrOf rest).map (fun t => b :: t)

/-- The C string at offset `s` of the array `mem` (`std::string(mem + s)`, `%s`). -/
def cstrAt (mem : List Nat) (s : Nat) : Option CStr := cstrOf (mem.drop s)

/-- C `strlen(mem + s)`. -/
def strlen (mem : List Nat) (s : Nat) : Option Nat := (cstrAt mem s).map List.length

/-! ## The path filter: `isMonitoredPath` (FileMon.cpp 128-164) -/

/-- The lines printed under `if (isDebug_s)`; nothing otherwise. -/
def dbg (isDebug_s : Bool) (ls : List CStr) : List CStr := if isDebug_s then ls else []

/-- The test made on one entry `monPath` of `monPathVec_s` (lines 136-151): the debug line
of the `return true` taken, or `none` when the loop goes on to the next entry. -/
def matchEntry (monPath testPath : CStr) : Option CStr :=
  if monPath.length ≤ testPath.length then
    if testPath.take monPath.length = monPath then
      if monPath.length = testPath.length then
        some (bytes "DBG:   Matched exact: " ++ monPath ++ bytes "\n")
      else if testPath[monPath.length]? = some slash then
        some (bytes "DBG:   Matched parent dir: " ++ monPath ++ bytes "\n")
      else none
    else none
  else none

/-- The `for` loop of `isMonitoredPath` over the entries not yet visited; `n` is
`monPathVec_s.size()`.  Returns the result and the debug lines printed. -/
def isMonitoredPathLoop (isDebug_s : Bool) (n : Nat) (testPath : CStr) :
    List CStr → Bool × List CStr
  | [] =>
    (false, dbg isDebug_s [bytes "DBG:   No match against " ++ fmtD n ++ bytes " monitored paths\n"])
  | monPath :: rest =>
    match matchEntry monPath testPath with
    | some line => (true, dbg isDebug_s [line])
    | none =>
      let r := isMonitoredPathLoop isDebug_s n testPath rest
      (r.1, dbg isDebug_s [bytes "DBG:   No match against " ++ monPath ++ bytes "\n"] ++ r.2)

/-- `isMonitoredPath(testPath)`: the returned flag and the lines written to stdout. -/
def isMonitoredPath (isDebug_s : Bool) (monPathVec_s : List CStr) (testPath : CStr) :
    Bool × List CStr :=
  let r := isMonitoredPathLoop isDebug_s monPathVec_s.length testPath monPathVec_s
  (r.1, dbg isDebug_s [bytes "DBG: isMonitoredPath( " ++ testPath ++ bytes " )\n"] ++ r.2)

/-! ## The watched set: `std::set<std::string>` (FileMon.cpp 76-80) -/

/-- The order of `std::less<std::string>`: lexicographic on the bytes, a proper prefix
first. -/
def strLt : CStr → CStr → Bool
  | [], [] => false
  | [], _ :: _ => true
  | _ :: _, [] => false
  | a :: s, b :: t => if a < b then true else if b < a then false else strLt s t

/-- `std::set::insert`: the set is the ascending list of its members; a key equivalent to
a member is not inserted again. -/
def setInsert (x : CStr) : List CStr → List CStr
  | [] => [x]
  | y :: ys =>
    if strLt x y then x :: y :: ys
    else if strLt y x then y :: setInsert x ys
    else y :: ys

/-- `std::set::erase(key)`: removes every member equivalent to the key (neither is less
than the other). -/
def setErase (x : CStr) (ys : List CStr) : List CStr :=
  ys.filter (fun y => strLt x y || strLt y x)

/-- The statics of FileMon.cpp that the commands and the event passes share.  The counter
is an `int64_t`; the embedding lets it range over the integers, which is faithful as long
as it stays below `2^63 - 1`. -/
structure State where
  monPathSet_s : List CStr
  monPathVec_s : List CStr
  eventCounter_s : Int
deriving DecidableEq, Repr

/-- The state at program start: both containers empty, the counter zero. -/
def State.init : State := ⟨[], [], 0⟩

/-! ## The command processor (FileMon.cpp 348-407) -/

/-- The `for` loop of `eraseTrailingChar`, with `k = s + len` the absolute index one past
the byte under test, so that `s[len - 1]` is `mem[k - 1]`.  Each round that finds `c` stores
a NUL there and decrements `len`.  With `k = 0` the byte tested lies before the array. -/
def eraseTrailingCharLoop (c : Nat) : Nat → List Nat → Option (List Nat)
  | 0, _ => none
  | k + 1, mem =>
    match mem[k]? with
    | none => none
    | some b => if b = c then eraseTrailingCharLoop c k (mem.set k 0) else some mem

/-- `eraseTrailingChar(mem + s, c)`: the array after the call, `none` when a byte outside
the array is accessed. -/
def eraseTrailingChar (mem : List Nat) (s : Nat) (c : Nat) : Option (List Nat) :=
  match strlen mem s with
  | none => none
  | some len => eraseTrailingCharLoop c (s + len) mem

/-- How a call of `processInputCmd` ends. -/
inductive CmdResult where
  /-- The call returns, in the given state, having written the given lines. -/
  | returned (st : State) (out : List CStr)
  /-- The call ends the process through `exit(0)`. -/
  | exited (out : List CStr)
  /-- The call accesses a byte outside the array `line`. -/
  | fault
deriving DecidableEq, Repr

/-- Lines 387-407 of `processInputCmd`: the vector is rebuilt from the set, in the set's
iteration order, and both are dumped when debugging. -/
def regenerate (isDebug_s : Bool) (counter : Int) (set : List CStr) (out : List CStr) :
    CmdResult :=
  let vec := set
  let item := fun (p : CStr) => bytes "DBG:   - " ++ p ++ bytes "\n"
  CmdResult.returned ⟨set, vec, counter⟩
    (out ++ dbg isDebug_s ([bytes "DBG: MONITORED PATH SET:\n"] ++ set.map item
          ++ [bytes "DBG: MONITORED PATH VECTOR:\n"] ++ vec.map item)
        ++ dbg isDebug_s [bytes "DBG: processInputCmd: DONE\n"])

/-- `processInputCmd(line)`, `line` being the array that holds the command. -/
def processInputCmd (isDebug_s : Bool) (st : State) (line : List Nat) : CmdResult :=
  match cstrAt line 0 with
  | none => CmdResult.fault
  | some cmd =>
    let out := dbg isDebug_s [bytes "DBG: processInputCmd: " ++ cmd ++ bytes "\n"]
    if cmd.take 4 = bytes "add:" then
      match eraseTrailingChar line 4 slash with
      | none => CmdResult.fault
      | some line1 =>
        match cstrAt line1 4 with
        | none => CmdResult.fault
        | some path => regenerate isDebug_s st.eventCounter_s (setInsert path st.monPathSet_s) out
    else if cmd.take 4 = bytes "del:" then
      match eraseTrailingChar line 4 slash with
      | none => CmdResult.fault
      | some line1 =>
        match cstrAt line1 4 with
        | none => CmdResult.fault
        | some path => regenerate isDebug_s st.eventCounter_s (setErase path st.monPathSet_s) out
    else if cmd = bytes "clr" then
      regenerate isDebug_s st.eventCounter_s [] out
    else if cmd = bytes "die" then
      CmdResult.exited (out ++ dbg isDebug_s [bytes "DBG: Terminating\n"])
    else
      regenerate isDebug_s st.eventCounter_s st.monPathSet_s out

/-- The state in which a call returned, if it did. -/
def CmdResult.state? : CmdResult → Option State
  | CmdResult.returned st _ => some st
  | _ => none

/-! ## XML escaping: `strReplaceAll`, `strMakeXmlSafe` (FileMon.cpp 94-123) -/

/-- `std::string::find` on what is left of the string from index `pos` on. -/
def findFrom (old : CStr) : CStr → Nat → Option Nat
  | [], pos => if old = [] then some pos else none
  | b :: t, pos => if old <+: b :: t then some pos else findFrom old t (pos + 1)

/-- `s.find(old, pos)`: the least index at or after `pos` where `old` occurs in `s`;
`none` is `std::string::npos`. -/
def find (s old : CStr) (pos : Nat) : Option Nat :=
  if pos ≤ s.length then findFrom old (s.drop pos) pos else none

/-- The first loop of `strReplaceAll` (line 101), `cur` being the value of `pos` under
test and `positions` the stack, top first.  `none`: the loop is still running after
`fuel` rounds. -/
def collectPositions (s old : CStr) : Nat → Option Nat → List Nat → Option (List Nat)
  | 0, _, _ => none
  | _ + 1, none, positions => some positions
  | fuel + 1, some pos, positions =>
    collectPositions s old fuel (find s old (pos + old.length)) (pos :: positions)

/-- `s.replace(pos, n, str)`. -/
def replace (s : CStr) (pos n : Nat) (str : CStr) : CStr :=
  s.take pos ++ str ++ s.drop (pos + n)

/-- `strReplaceAll(in, oldSubStr, newSubStr)`, its first loop run for at most `fuel`
rounds; the second loop pops the stack, one `replace` per position. -/
def strReplaceAll (fuel : Nat) (inp oldSubStr newSubStr : CStr) : Option CStr :=
  (collectPositions inp oldSubStr fuel (find inp oldSubStr 0) []).map
    (fun positions => positions.foldl (fun s pos => replace s pos oldSubStr.length newSubStr) inp)

/-- `strMakeXmlSafe(str)`; each call of `strReplaceAll` is given one round more than its
input has bytes. -/
def strMakeXmlSafe (str : CStr) : Option CStr :=
  (strReplaceAll (str.length + 1) str (bytes "&") (bytes "&amp;")).bind fun s =>
  (strReplaceAll (s.length + 1) s (bytes "<") (bytes "&lt;")).bind fun s =>
  strReplaceAll (s.length + 1) s (bytes ">") (bytes "&gt;")


/-- The image of one byte under the escaping of `strMakeXmlSafe`. -/
def escapeByte (b : Nat) : CStr :=
  if b = '&'.toNat then bytes "&amp;"
  else if b = '<'.toNat then bytes "&lt;"
  else if b = '>'.toNat then bytes "&gt;"
  else [b]

/-- The indices, counted from `i`, at which the byte `c` occurs in a string. -/
def occ (c : Nat) : CStr → Nat → List Nat
  | [], _ => []
  | b :: t, i => if b = c then i :: occ c t (i + 1) else occ c t (i + 1)

/-! ## The header `fsevents.h` and the lookup services -/

/-- The constants of `fsevents.h` that FileMon.cpp uses.  The header is not among the
sources at hand, so their values are parameters of the embedding. -/
structure FsEventsH where
  FSE_INVALID : Int
  FSE_CREATE_FILE : Int
  FSE_DELETE : Int
  FSE_STAT_CHANGED : Int
  FSE_RENAME : Int
  FSE_CONTENT_MODIFIED : Int
  FSE_EXCHANGE : Int
  FSE_FINDER_INFO_CHANGED : Int
  FSE_CREATE_DIR : Int
  FSE_CHOWN : Int
  FSE_ARG_VNODE : Nat
  FSE_ARG_STRING : Nat
  FSE_ARG_PATH : Nat
  FSE_ARG_INT32 : Nat
  FSE_ARG_INT64 : Nat
  FSE_ARG_RAW : Nat
  FSE_ARG_INO : Nat
  FSE_ARG_UID : Nat
  FSE_ARG_DEV : Nat
  FSE_ARG_MODE : Nat
  FSE_ARG_GID : Nat
  FSE_ARG_DONE : Nat
deriving DecidableEq, Repr

/-- The case labels of the `switch (eventType)` of `processEventAsXml` (lines 552-584). -/
def FsEventsH.eventLabels (c : FsEventsH) : List Int :=
  [c.FSE_CREATE_FILE, c.FSE_DELETE, c.FSE_STAT_CHANGED, c.FSE_RENAME, c.FSE_CONTENT_MODIFIED,
   c.FSE_EXCHANGE, c.FSE_FINDER_INFO_CHANGED, c.FSE_CREATE_DIR, c.FSE_CHOWN, c.FSE_INVALID]

/-- The case labels of the `switch (argtype)` of `processEventAsXml` (lines 608-696). -/
def FsEventsH.argLabels (c : FsEventsH) : List Nat :=
  [c.FSE_ARG_VNODE, c.FSE_ARG_STRING, c.FSE_ARG_PATH, c.FSE_ARG_INT32, c.FSE_ARG_INT64,
   c.FSE_ARG_RAW, c.FSE_ARG_INO, c.FSE_ARG_UID, c.FSE_ARG_DEV, c.FSE_ARG_MODE, c.FSE_ARG_GID]

/-- What the source needs of the header to compile and to match its own comments: the
labels of each `switch` are pairwise distinct, and the end marker is a two-byte code (the
layout comment at lines 416-428). -/
def FsEventsH.Valid (c : FsEventsH) : Prop :=
  c.eventLabels.Nodup ∧ c.argLabels.Nodup ∧ c.FSE_ARG_DONE < 65536

instance (c : FsEventsH) : Decidable c.Valid := by
  unfold FsEventsH.Valid; infer_instance

/-- The values of these constants in the Darwin kernel header `bsd/sys/fsevents.h`; the end
marker `0xb33f` is also stated in the layout comment of the source.  Used for examples. -/
def darwin : FsEventsH where
  FSE_INVALID := -1
  FSE_CREATE_FILE := 0
  FSE_DELETE := 1
  FSE_STAT_CHANGED := 2
  FSE_RENAME := 3
  FSE_CONTENT_MODIFIED := 4
  FSE_EXCHANGE := 5
  FSE_FINDER_INFO_CHANGED := 6
  FSE_CREATE_DIR := 7
  FSE_CHOWN := 8
  FSE_ARG_VNODE := 1
  FSE_ARG_STRING := 2
  FSE_ARG_PATH := 3
  FSE_ARG_INT32 := 4
  FSE_ARG_INT64 := 5
  FSE_ARG_RAW := 6
  FSE_ARG_INO := 7
  FSE_ARG_UID := 8
  FSE_ARG_DEV := 9
  FSE_ARG_MODE := 10
  FSE_ARG_GID := 11
  FSE_ARG_DONE := 0xb33f

/-- The lookups `getProcessName`, `getUserName` and `getGroupName` (lines 237-274) ask the
operating system; each is an arbitrary function from the id to a name. -/
structure Env where
  getProcessName : Int → CStr
  getUserName : Nat → CStr
  getGroupName : Nat → CStr

/-! ## Reading the event buffer -/

/-- Why a pass over a buffer does not complete in the model. -/
inductive Fault where
  /-- A byte at an offset at or beyond the end of the array is read. -/
  | readPastEnd
  /-- A loop is still running after the rounds the model allots to it. -/
  | roundsExhausted
deriving DecidableEq, Repr

instance {ε α : Type} [DecidableEq ε] [DecidableEq α] : DecidableEq (Except ε α)
  | Except.ok a, Except.ok b =>
    if h : a = b then isTrue (by rw [h]) else isFalse (fun h1 => h (Except.ok.inj h1))
  | Except.error a, Except.error b =>
    if h : a = b then isTrue (by rw [h]) else isFalse (fun h1 => h (Except.error.inj h1))
  | Except.ok _, Except.error _ => isFalse (fun h => Except.noConfusion h)
  | Except.error _, Except.ok _ => isFalse (fun h => Except.noConfusion h)

/-- `*((u_int16_t *)(buf + pos))`, little-endian. -/
def readU16 (buf : List Nat) (pos : Nat) : Option Nat :=
  match buf.drop pos with
  | b0 :: b1 :: _ => some (b0 + 256 * b1)
  | _ => none

/-- The four bytes at `buf + pos` as an unsigned number, little-endian. -/
def readU32 (buf : List Nat) (pos : Nat) : Option Nat :=
  match buf.drop pos with
  | b0 :: b1 :: b2 :: b3 :: _ => some (b0 + 256 * b1 + 65536 * b2 + 16777216 * b3)
  | _ => none

/-- The eight bytes at `buf + pos` as an unsigned number, little-endian. -/
def readU64 (buf : List Nat) (pos : Nat) : Option Nat :=
  match readU32 buf pos, readU32 buf (pos + 4) with
  | some lo, some hi => some (lo + 4294967296 * hi)
  | _, _ => none

/-- The `int32_t` with the given 32 bits. -/
def toInt32 (n : Nat) : Int :=
  if n % 4294967296 < 2147483648 then (n % 4294967296 : Nat) else (n % 4294967296 : Nat) - 4294967296

/-- The `int64_t` with the given 64 bits. -/
def toInt64 (n : Nat) : Int :=
  if n % 18446744073709551616 < 9223372036854775808 then (n % 18446744073709551616 : Nat)
  else (n % 18446744073709551616 : Nat) - 18446744073709551616

/-- `*((int32_t *)(buf + pos))`; also `pid_t`. -/
def readI32 (buf : List Nat) (pos : Nat) : Option Int := (readU32 buf pos).map toInt32

/-- `*((int64_t *)(buf + pos))`. -/
def readI64 (buf : List Nat) (pos : Nat) : Option Int := (readU64 buf pos).map toInt64

/-! ## The terse formatter: `processEventTerse` (FileMon.cpp 412-517) -/

/-- The enumeration `EventType_t` (lines 48-54). -/
inductive EventType_t where
  | NONE
  | ADD
  | DELETE
  | CHANGE
deriving DecidableEq, Repr

/-- The structure `Event_t` (lines 56-67); `path_m` holds the string its pointer designates,
`none` for `NULL`. -/
structure Event_t where
  type_m : EventType_t
  path_m : Option CStr
  printRequired_m : Bool
deriving DecidableEq, Repr

/-- The constructor `Event_t()` followed by the assignment of `type_m`. -/
def Event_t.ofType (t : EventType_t) : Event_t := ⟨t, none, false⟩

/-- The `switch (eventType)` of lines 440-464 applied to the fresh array `events`. -/
def terseSwitch (c : FsEventsH) (eventType : Int) : List Event_t :=
  if eventType = c.FSE_CREATE_FILE ∨ eventType = c.FSE_CREATE_DIR then
    [Event_t.ofType EventType_t.ADD, Event_t.ofType EventType_t.NONE]
  else if eventType = c.FSE_DELETE then
    [Event_t.ofType EventType_t.DELETE, Event_t.ofType EventType_t.NONE]
  else if eventType = c.FSE_STAT_CHANGED ∨ eventType = c.FSE_FINDER_INFO_CHANGED
      ∨ eventType = c.FSE_CHOWN then
    [Event_t.ofType EventType_t.CHANGE, Event_t.ofType EventType_t.NONE]
  else if eventType = c.FSE_EXCHANGE then
    [Event_t.ofType EventType_t.CHANGE, Event_t.ofType EventType_t.CHANGE]
  else if eventType = c.FSE_RENAME then
    [Event_t.ofType EventType_t.DELETE, Event_t.ofType EventType_t.ADD]
  else
    [Event_t.ofType EventType_t.NONE, Event_t.ofType EventType_t.NONE]

/-- The assignments of lines 487-488 to `events[eventIndex]`. -/
def setPath (path : CStr) (printRequired : Bool) : Nat → List Event_t → List Event_t
  | _, [] => []
  | 0, e :: es => ⟨e.type_m, some path, printRequired⟩ :: es
  | i + 1, e :: es => e :: setPath path printRequired i es

/-- Whether `argtype` is one of the three labels of lines 483-485. -/
def isPathArg (c : FsEventsH) (argtype : Nat) : Bool :=
  decide (argtype = c.FSE_ARG_VNODE ∨ argtype = c.FSE_ARG_STRING ∨ argtype = c.FSE_ARG_PATH)

/-- The argument loop `while (true)` of lines 471-497, from offset `pos` on.  Returns the
offset after the end marker, the array `events` and stdout. -/
def terseArgs (c : FsEventsH) (isDebug_s : Bool) (monPathVec_s : List CStr) (buf : List Nat) :
    Nat → Nat → List Event_t → Nat → List CStr → Except Fault (Nat × List Event_t × List CStr)
  | 0, _, _, _, _ => Except.error Fault.roundsExhausted
  | fuel + 1, pos, events, eventIndex, out =>
    match readU16 buf pos with
    | none => Except.error Fault.readPastEnd
    | some argtype =>
      if argtype = c.FSE_ARG_DONE then Except.ok (pos + 2, events, out)
      else
        match readU16 buf (pos + 2) with
        | none => Except.error Fault.readPastEnd
        | some arglen =>
          if isPathArg c argtype = true ∧ eventIndex < 2 then
            match cstrAt buf (pos + 2 + 2) with
            | none => Except.error Fault.readPastEnd
            | some path =>
              let r := isMonitoredPath isDebug_s monPathVec_s path
              terseArgs c isDebug_s monPathVec_s buf fuel (pos + 2 + 2 + arglen)
                (setPath path r.1 eventIndex events) (eventIndex + 1) (out ++ r.2)
          else
            terseArgs c isDebug_s monPathVec_s buf fuel (pos + 2 + 2 + arglen)
              events eventIndex out

/-- The body of the printing loop of lines 499-515 for one element of `events`. -/
def terseLine (pid : Int) (processName : CStr) (e : Event_t) : List CStr :=
  let path := match e.path_m with
    | some p => p
    | none => bytes "(null)"
  let tail := path ++ bytes " - pid " ++ fmtD pid ++ bytes " (" ++ processName ++ bytes ")\n"
  if e.printRequired_m then
    match e.type_m with
    | EventType_t.ADD => [bytes "ADD:" ++ tail]
    | EventType_t.DELETE => [bytes "DEL:" ++ tail]
    | EventType_t.CHANGE => [bytes "CHG:" ++ tail]
    | EventType_t.NONE => []
  else []

/-- The loop `while (pos < size)` of `processEventTerse`, `size` being the length of `buf`.
Returns `eventCounter_s` and stdout. -/
def terseLoop (c : FsEventsH) (env : Env) (isDebug_s : Bool) (monPathVec_s : List CStr)
    (buf : List Nat) : Nat → Nat → Int → List CStr → Except Fault (Int × List CStr)
  | 0, _, _, _ => Except.error Fault.roundsExhausted
  | fuel + 1, pos, eventCounter, out =>
    if pos < buf.length then
      match readI32 buf pos with
      | none => Except.error Fault.readPastEnd
      | some eventType =>
        match readI32 buf (pos + 4) with
        | none => Except.error Fault.readPastEnd
        | some pid =>
          let processName := env.getProcessName pid
          match terseArgs c isDebug_s monPathVec_s buf (buf.length + 1) (pos + 4 + 4)
              (terseSwitch c eventType) 0 out with
          | Except.error f => Except.error f
          | Except.ok (pos1, events, out1) =>
            terseLoop c env isDebug_s monPathVec_s buf fuel pos1 (eventCounter + 1)
              (out1 ++ events.flatMap (terseLine pid processName))
    else Except.ok (eventCounter, out)

/-- `processEventTerse(buf, size)` with `size` the length of `buf`: the state after the
call and what it wrote to stdout.  Every round of either loop reads at least two bytes
further on, so `size + 1` rounds are allotted to each. -/
def processEventTerse (c : FsEventsH) (env : Env) (isDebug_s : Bool) (st : State)
    (buf : List Nat) : Except Fault (State × List CStr) :=
  match terseLoop c env isDebug_s st.monPathVec_s buf (buf.length + 1) 0 st.eventCounter_s [] with
  | Except.error f => Except.error f
  | Except.ok (counter, out) => Except.ok (⟨st.monPathSet_s, st.monPathVec_s, counter⟩, out)

/-! ## The XML builder: `XmlStrBuilder_t` (XmlStrBuilder.cpp) -/

/-- The members of `XmlStrBuilder_t`: the stream contents, the tag stack (its back is the
last element) and the indentation.  The scratch array `buf_am` has 160 bytes. -/
structure XmlStrBuilder_t where
  os_m : CStr
  tags_m : List CStr
  indent_m : Int
deriving DecidableEq, Repr

/-- The constructor (lines 25-27). -/
def XmlStrBuilder_t.new : XmlStrBuilder_t := ⟨[], [], 0⟩

/-- `clear()` (lines 31-36). -/
def XmlStrBuilder_t.clear (_x : XmlStrBuilder_t) : XmlStrBuilder_t := ⟨[], [], 0⟩

/-- The loop of `indent()` with `n` rounds left. -/
def indentLoop : Nat → CStr → CStr
  | 0, os => os
  | n + 1, os => indentLoop n (os ++ bytes "  ")

/-- `indent()` (lines 101-106). -/
def XmlStrBuilder_t.indent (x : XmlStrBuilder_t) : XmlStrBuilder_t :=
  ⟨indentLoop x.indent_m.toNat x.os_m, x.tags_m, x.indent_m⟩

/-- `pushTag(tag)` (lines 40-49). -/
def XmlStrBuilder_t.pushTag (x : XmlStrBuilder_t) (tag : CStr) : XmlStrBuilder_t :=
  let x1 : XmlStrBuilder_t := ⟨x.os_m, x.tags_m ++ [tag], x.indent_m⟩
  let x2 := x1.indent
  ⟨x2.os_m ++ bytes "<" ++ tag ++ bytes ">" ++ bytes "\n", x2.tags_m, x2.indent_m + 1⟩

/-- `popTag()` (lines 53-61). -/
def XmlStrBuilder_t.popTag (x : XmlStrBuilder_t) : XmlStrBuilder_t :=
  match x.tags_m.getLast? with
  | none => x
  | some back =>
    let x1 : XmlStrBuilder_t := ⟨x.os_m, x.tags_m, x.indent_m - 1⟩
    let x2 := x1.indent
    ⟨x2.os_m ++ bytes "</" ++ back ++ bytes ">" ++ bytes "\n", x2.tags_m.dropLast, x2.indent_m⟩

/-- `addTagAndValue(tag, str)` (lines 65-72). -/
def XmlStrBuilder_t.addTagAndValue (x : XmlStrBuilder_t) (tag str : CStr) : XmlStrBuilder_t :=
  let x1 := x.indent
  ⟨x1.os_m ++ bytes "<" ++ tag ++ bytes ">" ++ str ++ bytes "</" ++ tag ++ bytes ">" ++ bytes "\n",
    x1.tags_m, x1.indent_m⟩

/-- `addTagAndVararg(tag, format, ...)` (lines 76-90), `formatted` being the full expansion
of the format: `vsnprintf` keeps at most 159 bytes of it in `buf_am`. -/
def XmlStrBuilder_t.addTagAndVararg (x : XmlStrBuilder_t) (tag formatted : CStr) :
    XmlStrBuilder_t :=
  let x1 := x.indent
  ⟨x1.os_m ++ bytes "<" ++ tag ++ bytes ">" ++ formatted.take 159 ++ bytes "</" ++ tag
      ++ bytes ">" ++ bytes "\n",
    x1.tags_m, x1.indent_m⟩

/-- `str()` (lines 94-97). -/
def XmlStrBuilder_t.str (x : XmlStrBuilder_t) : CStr := x.os_m

/-! ## Modes: `getModeString`, `getVnodeTypeString` (FileMon.cpp 169-232) -/

/-- The file-type mask `S_IFMT` of `sys/stat.h`, on which the `S_IS*` tests rest. -/
def S_IFMT : Nat := 0xF000

/-- The first byte of the mode string (lines 181-201), from the 32 bits of `mode`. -/
def modeTypeChar (mode : Nat) : Nat :=
  if mode &&& S_IFMT = 0x1000 then 'p'.toNat
  else if mode &&& S_IFMT = 0x2000 then 'c'.toNat
  else if mode &&& S_IFMT = 0x4000 then 'd'.toNat
  else if mode &&& S_IFMT = 0x6000 then 'b'.toNat
  else if mode &&& S_IFMT = 0xA000 then 'l'.toNat
  else if mode &&& S_IFMT = 0xC000 then 's'.toNat
  else '-'.toNat

/-- One permission byte of the mode string: `mode & mask ? ch : '-'`. -/
def modeBit (mode mask : Nat) (ch : Char) : Nat :=
  if mode &&& mask ≠ 0 then ch.toNat else '-'.toNat

/-- `getModeString(mode, buf)`: the string left in `buf`, from the 32 bits of `mode`. -/
def getModeString (mode : Nat) : CStr :=
  [modeTypeChar mode,
   modeBit mode 0x100 'r', modeBit mode 0x80 'w', modeBit mode 0x40 'x',
   modeBit mode 0x20 'r', modeBit mode 0x10 'w', modeBit mode 0x08 'x',
   modeBit mode 0x04 'r', modeBit mode 0x02 'w', modeBit mode 0x01 'x']

/-- `getVnodeTypeString(mode)`, from the 32 bits of `mode`. -/
def getVnodeTypeString (mode : Nat) : CStr :=
  if mode &&& S_IFMT = 0x1000 then bytes "VFIFO"
  else if mode &&& S_IFMT = 0x2000 then bytes "VCHR"
  else if mode &&& S_IFMT = 0x4000 then bytes "VDIR"
  else if mode &&& S_IFMT = 0x6000 then bytes "VBLK"
  else if mode &&& S_IFMT = 0xA000 then bytes "VLNK"
  else if mode &&& S_IFMT = 0xC000 then bytes "VSOCK"
  else bytes "VREG"

/-! ## The XML formatter: `processEventAsXml` (FileMon.cpp 522-706) -/

/-- Output of `printf` for a `%x` conversion. -/
def fmtX (n : Nat) : CStr := (Nat.toDigits 16 n).map Char.toNat

/-- Output of `printf` for a `%08x` conversion. -/
def fmtX08 (n : Nat) : CStr :=
  List.replicate (8 - (fmtX n).length) '0'.toNat ++ fmtX n

/-- The tag pushed by the `switch (eventType)` of lines 552-584. -/
def xmlRootTag (c : FsEventsH) (eventType : Int) : CStr :=
  if eventType = c.FSE_CREATE_FILE then bytes "create-file"
  else if eventType = c.FSE_DELETE then bytes "delete"
  else if eventType = c.FSE_STAT_CHANGED then bytes "stat-changed"
  else if eventType = c.FSE_RENAME then bytes "rename"
  else if eventType = c.FSE_CONTENT_MODIFIED then bytes "content-modified"
  else if eventType = c.FSE_EXCHANGE then bytes "exchange"
  else if eventType = c.FSE_FINDER_INFO_CHANGED then bytes "finder-info-changed"
  else if eventType = c.FSE_CREATE_DIR then bytes "create-dir"
  else if eventType = c.FSE_CHOWN then bytes "chown"
  else bytes "invalid"

/-- A call of `strMakeXmlSafe` inside the formatter. -/
def xmlSafe (s : CStr) : Except Fault CStr :=
  match strMakeXmlSafe s with
  | some t => Except.ok t
  | none => Except.error Fault.roundsExhausted

/-- The three path cases of the argument switch (lines 609-629), which differ in the tag
only: the flag `shouldPrint`, the builder and what `isMonitoredPath` wrote. -/
def xmlPathArg (isDebug_s : Bool) (monPathVec_s : List CStr) (buf : List Nat) (pos : Nat)
    (tag : CStr) (shouldPrint : Bool) (xml : XmlStrBuilder_t) :
    Except Fault (Bool × XmlStrBuilder_t × List CStr) :=
  match cstrAt buf pos with
  | none => Except.error Fault.readPastEnd
  | some path =>
    let r := if shouldPrint then (true, []) else isMonitoredPath isDebug_s monPathVec_s path
    match xmlSafe path with
    | Except.error f => Except.error f
    | Except.ok safe => Except.ok (r.1, xml.addTagAndValue tag safe, r.2)

/-- The `uid` and `gid` cases (lines 651-659, 683-691), which differ in the tag and the
lookup only. -/
def xmlIdArg (buf : List Nat) (pos : Nat) (tag : CStr) (lookup : Nat → CStr)
    (xml : XmlStrBuilder_t) : Except Fault XmlStrBuilder_t :=
  match readU32 buf pos with
  | none => Except.error Fault.readPastEnd
  | some id =>
    match xmlSafe (lookup id) with
    | Except.error f => Except.error f
    | Except.ok safe =>
      Except.ok ((((xml.pushTag tag).addTagAndVararg (bytes "int") (fmtD (toInt32 id))).addTagAndValue
        (bytes "name") safe).popTag)

/-- The cases of the argument switch that do not touch `shouldPrint` (lines 630-695).
`ino_t` has eight bytes, of which `%d` prints the low four as an `int`; `dev_t` is an
`int32_t`, and `uid_t`, `gid_t` are `uint32_t`. -/
def xmlOtherArg (c : FsEventsH) (env : Env) (buf : List Nat) (pos argtype arglen : Nat)
    (xml : XmlStrBuilder_t) : Except Fault XmlStrBuilder_t :=
  if argtype = c.FSE_ARG_INT32 then
    match readI32 buf pos with
    | none => Except.error Fault.readPastEnd
    | some value => Except.ok (xml.addTagAndVararg (bytes "int32") (fmtD value))
  else if argtype = c.FSE_ARG_INT64 then
    match readI64 buf pos with
    | none => Except.error Fault.readPastEnd
    | some value => Except.ok (xml.addTagAndVararg (bytes "int64") (fmtD value))
  else if argtype = c.FSE_ARG_RAW then
    Except.ok (((xml.pushTag (bytes "raw")).addTagAndVararg (bytes "length") (fmtD arglen)).popTag)
  else if argtype = c.FSE_ARG_INO then
    match readU64 buf pos with
    | none => Except.error Fault.readPastEnd
    | some value => Except.ok (xml.addTagAndVararg (bytes "inode") (fmtD (toInt32 value)))
  else if argtype = c.FSE_ARG_UID then
    xmlIdArg buf pos (bytes "uid") env.getUserName xml
  else if argtype = c.FSE_ARG_DEV then
    match readU32 buf pos with
    | none => Except.error Fault.readPastEnd
    | some device =>
      Except.ok (((((xml.pushTag (bytes "device")).addTagAndVararg (bytes "value")
          (bytes "0x" ++ fmtX08 device)).addTagAndVararg (bytes "major")
          (fmtD ((device >>> 24) &&& 0xff : Nat))).addTagAndVararg (bytes "minor")
          (fmtD (device &&& 0xffffff : Nat))).popTag)
  else if argtype = c.FSE_ARG_MODE then
    match readU32 buf pos with
    | none => Except.error Fault.readPastEnd
    | some mode =>
      Except.ok (((((xml.pushTag (bytes "mode")).addTagAndVararg (bytes "int")
          (bytes "0x" ++ fmtX mode)).addTagAndVararg (bytes "vnode-type")
          (getVnodeTypeString mode)).addTagAndVararg (bytes "str") (getModeString mode)).popTag)
  else if argtype = c.FSE_ARG_GID then
    xmlIdArg buf pos (bytes "gid") env.getGroupName xml
  else
    Except.ok (xml.addTagAndVararg (bytes "unknown-arg") (fmtD arglen))

/-- The `switch (argtype)` of lines 608-696 for the argument whose payload starts at `pos`. -/
def xmlArg (c : FsEventsH) (env : Env) (isDebug_s : Bool) (monPathVec_s : List CStr)
    (buf : List Nat) (pos argtype arglen : Nat) (shouldPrint : Bool) (xml : XmlStrBuilder_t) :
    Except Fault (Bool × XmlStrBuilder_t × List CStr) :=
  if argtype = c.FSE_ARG_VNODE then
    xmlPathArg isDebug_s monPathVec_s buf pos (bytes "vnode") shouldPrint xml
  else if argtype = c.FSE_ARG_STRING then
    xmlPathArg isDebug_s monPathVec_s buf pos (bytes "string") shouldPrint xml
  else if argtype = c.FSE_ARG_PATH then
    xmlPathArg isDebug_s monPathVec_s buf pos (bytes "path") shouldPrint xml
  else
    match xmlOtherArg c env buf pos argtype arglen xml with
    | Except.error f => Except.error f
    | Except.ok xml1 => Except.ok (shouldPrint, xml1, [])

/-- The argument loop `while (true)` of lines 596-698, from offset `pos` on.  Returns the
offset after the end marker, `shouldPrint`, the builder and stdout. -/
def xmlArgs (c : FsEventsH) (env : Env) (isDebug_s : Bool) (monPathVec_s : List CStr)
    (buf : List Nat) : Nat → Nat → Bool → XmlStrBuilder_t → List CStr →
      Except Fault (Nat × Bool × XmlStrBuilder_t × List CStr)
  | 0, _, _, _, _ => Except.error Fault.roundsExhausted
  | fuel + 1, pos, shouldPrint, xml, out =>
    match readU16 buf pos with
    | none => Except.error Fault.readPastEnd
    | some argtype =>
      if argtype = c.FSE_ARG_DONE then
        Except.ok (pos + 2, shouldPrint,
          xml.addTagAndVararg (bytes "done") (bytes "0x" ++ fmtX argtype), out)
      else
        match readU16 buf (pos + 2) with
        | none => Except.error Fault.readPastEnd
        | some arglen =>
          match xmlArg c env isDebug_s monPathVec_s buf (pos + 2 + 2) argtype arglen
              shouldPrint xml with
          | Except.error f => Except.error f
          | Except.ok (shouldPrint1, xml1, out1) =>
            xmlArgs c env isDebug_s monPathVec_s buf fuel (pos + 2 + 2 + arglen)
              shouldPrint1 xml1 (out ++ out1)

/-- Lines 547-594: the builder is cleared, the root tag pushed, the event number and the
`process` element added. -/
def xmlHead (c : FsEventsH) (env : Env) (eventCounter : Int) (eventType pid : Int)
    (xml : XmlStrBuilder_t) : Except Fault XmlStrBuilder_t :=
  match xmlSafe (env.getProcessName pid) with
  | Except.error f => Except.error f
  | Except.ok name =>
    Except.ok ((((((xml.clear.pushTag (xmlRootTag c eventType)).addTagAndVararg
      (bytes "eventNumber") (fmtD eventCounter)).pushTag (bytes "process")).addTagAndVararg
      (bytes "id") (fmtD pid)).addTagAndValue (bytes "name") name).popTag)

/-- The loop `while (pos < size)` of `processEventAsXml`, `size` being the length of `buf`.
Returns `eventCounter_s` and stdout. -/
def xmlLoop (c : FsEventsH) (env : Env) (isDebug_s : Bool) (monPathVec_s : List CStr)
    (buf : List Nat) :
    Nat → Nat → Int → XmlStrBuilder_t → List CStr → Except Fault (Int × List CStr)
  | 0, _, _, _, _ => Except.error Fault.roundsExhausted
  | fuel + 1, pos, eventCounter, xml, out =>
    if pos < buf.length then
      match readI32 buf pos with
      | none => Except.error Fault.readPastEnd
      | some eventType =>
        match readI32 buf (pos + 4) with
        | none => Except.error Fault.readPastEnd
        | some pid =>
          match xmlHead c env (eventCounter + 1) eventType pid xml with
          | Except.error f => Except.error f
          | Except.ok xml1 =>
            match xmlArgs c env isDebug_s monPathVec_s buf (buf.length + 1) (pos + 4 + 4)
                false xml1 out with
            | Except.error f => Except.error f
            | Except.ok (pos1, shouldPrint, xml2, out1) =>
              let xml3 := xml2.popTag
              xmlLoop c env isDebug_s monPathVec_s buf fuel pos1 (eventCounter + 1) xml3
                (out1 ++ if shouldPrint then [xml3.str] else [])
    else Except.ok (eventCounter, out)

/-- `processEventAsXml(buf, size)` with `size` the length of `buf`: the state after the
call and what it wrote to stdout.  Rounds are allotted as in `processEventTerse`. -/
def processEventAsXml (c : FsEventsH) (env : Env) (isDebug_s : Bool) (st : State)
    (buf : List Nat) : Except Fault (State × List CStr) :=
  match xmlLoop c env isDebug_s st.monPathVec_s buf (buf.length + 1) 0 st.eventCounter_s
      XmlStrBuilder_t.new [] with
  | Except.error f => Except.error f
  | Except.ok (counter, out) => Except.ok (⟨st.monPathSet_s, st.monPathVec_s, counter⟩, out)

/-! ## Events as the kernel lays them out (layout comment, FileMon.cpp 416-428) -/

/-- One argument of an event: its type code and its payload bytes. -/
structure Arg where
  argtype : Nat
  payload : List Nat
deriving DecidableEq, Repr

/-- One event: its kind code, the process id and the arguments in arrival order. -/
structure RawEvent where
  kind : Int
  pid : Int
  args : List Arg
deriving DecidableEq, Repr

/-- The two bytes of a 16-bit number, little-endian. -/
def u16le (n : Nat) : List Nat := [n % 256, n / 256 % 256]

/-- The four bytes of a 32-bit number, little-endian. -/
def u32le (n : Nat) : List Nat := [n % 256, n / 256 % 256, n / 65536 % 256, n / 16777216 % 256]

/-- The four bytes of an `int32_t`, two's complement, little-endian. -/
def i32le (i : Int) : List Nat := u32le (i % 4294967296).toNat

/-- The bytes of an argument: type, length, payload. -/
def encodeArg (a : Arg) : List Nat := u16le a.argtype ++ u16le a.payload.length ++ a.payload

/-- The bytes of a sequence of arguments. -/
def encodeArgs (args : List Arg) : List Nat := args.flatMap encodeArg

/-- The bytes of an event: kind, pid, the arguments, the end marker. -/
def encodeEvent (c : FsEventsH) (e : RawEvent) : List Nat :=
  i32le e.kind ++ i32le e.pid ++ encodeArgs e.args ++ u16le c.FSE_ARG_DONE

/-- The text of a path-bearing argument (vnode, string or path): its payload up to the
NUL; `none` for the other arguments. -/
def Arg.path? (c : FsEventsH) (a : Arg) : Option CStr :=
  if isPathArg c a.argtype = true then cstrOf a.payload else none

/-- The texts of the path-bearing arguments of an event, in arrival order. -/
def RawEvent.paths (c : FsEventsH) (e : RawEvent) : List CStr := e.args.filterMap (Arg.path? c)

/-- An argument the decoder can frame: type and length are 16-bit, the type is not the end
marker, and the payload of a path-bearing argument holds its NUL. -/
def Arg.WellFormed (c : FsEventsH) (a : Arg) : Prop :=
  a.argtype < 65536 ∧ a.argtype ≠ c.FSE_ARG_DONE ∧ a.payload.length < 65536 ∧
    (isPathArg c a.argtype = true → 0 ∈ a.payload)

instance (c : FsEventsH) (a : Arg) : Decidable (a.WellFormed c) := by
  unfold Arg.WellFormed; infer_instance

/-- A well-formed event: kind and pid are 32-bit signed, every argument is well-formed. -/
def RawEvent.WellFormed (c : FsEventsH) (e : RawEvent) : Prop :=
  (-2147483648 ≤ e.kind ∧ e.kind < 2147483648) ∧ (-2147483648 ≤ e.pid ∧ e.pid < 2147483648) ∧
    ∀ a ∈ e.args, a.WellFormed c

instance (c : FsEventsH) (e : RawEvent) : Decidable (e.WellFormed c) := by
  unfold RawEvent.WellFormed; infer_instance

/-- The payload of a numeric argument holds the bytes that the XML formatter reads of it:
four for int32, uid, device, mode and gid, eight for int64 and inode. -/
def Arg.WidthOk (c : FsEventsH) (a : Arg) : Prop :=
  ((a.argtype = c.FSE_ARG_INT32 ∨ a.argtype = c.FSE_ARG_UID ∨ a.argtype = c.FSE_ARG_DEV
      ∨ a.argtype = c.FSE_ARG_MODE ∨ a.argtype = c.FSE_ARG_GID) → 4 ≤ a.payload.length) ∧
  ((a.argtype = c.FSE_ARG_INT64 ∨ a.argtype = c.FSE_ARG_INO) → 8 ≤ a.payload.length)

instance (c : FsEventsH) (a : Arg) : Decidable (a.WidthOk c) := by
  unfold Arg.WidthOk; infer_instance

/-- Every numeric argument of the event carries the bytes read of it. -/
def RawEvent.WidthsOk (c : FsEventsH) (e : RawEvent) : Prop :=
  ∀ a ∈ e.args, a.WidthOk c

instance (c : FsEventsH) (e : RawEvent) : Decidable (e.WidthsOk c) := by
  unfold RawEvent.WidthsOk; infer_instance

/-- What a path-bearing argument contributes to `shouldPrint`. -/
def Arg.watched (c : FsEventsH) (vec : List CStr) (a : Arg) : Bool :=
  match a.path? c with
  | some p => (isMonitoredPath false vec p).1
  | none => false

/-- Whether one of the given paths is watched according to `isMonitoredPath`, debug
printing off. -/
def anyWatched (monPathVec_s : List CStr) (paths : List CStr) : Bool :=
  paths.any (fun p => (isMonitoredPath false monPathVec_s p).1)

/-- The builder after the argument switch of `processEventAsXml` has handled the argument
`a`, read from the payload of `a` alone and with no path watched. -/
def renderArg (c : FsEventsH) (env : Env) (xml : XmlStrBuilder_t) (a : Arg) :
    Except Fault XmlStrBuilder_t :=
  match xmlArg c env false [] a.payload 0 a.argtype a.payload.length false xml with
  | Except.error f => Except.error f
  | Except.ok (_, xml1, _) => Except.ok xml1

/-- The builder after the arguments have been handled in arrival order. -/
def renderArgs (c : FsEventsH) (env : Env) : List Arg → XmlStrBuilder_t →
    Except Fault XmlStrBuilder_t
  | [], xml => Except.ok xml
  | a :: rest, xml =>
    match renderArg c env xml a with
    | Except.error f => Except.error f
    | Except.ok xml1 => renderArgs c env rest xml1

/-- The fragment of the event `e` numbered `eventNumber`: the contents of the builder after
the head, the arguments, the `done` element and the closing `popTag` of line 700.  It does
not depend on the watched paths. -/
def xmlFragment (c : FsEventsH) (env : Env) (eventNumber : Int) (e : RawEvent) :
    Except Fault CStr :=
  match xmlHead c env eventNumber e.kind e.pid XmlStrBuilder_t.new with
  | Except.error f => Except.error f
  | Except.ok xml1 =>
    match renderArgs c env e.args xml1 with
    | Except.error f => Except.error f
    | Except.ok xml2 =>
      Except.ok ((xml2.addTagAndVararg (bytes "done")
        (bytes "0x" ++ fmtX c.FSE_ARG_DONE)).popTag.str)

/-- The array `events` after the argument loop of `processEventTerse` has met path-bearing
arguments with the given texts, the first of them at `eventIndex`. -/
def fillPaths (monPathVec_s : List CStr) : List CStr → Nat → List Event_t → List Event_t
  | [], _, events => events
  | p :: ps, eventIndex, events =>
    if eventIndex < 2 then
      fillPaths monPathVec_s ps (eventIndex + 1)
        (setPath p (isMonitoredPath false monPathVec_s p).1 eventIndex events)
    else events

/-- What `processEventTerse` prints for an event, debug printing off: the lines of the
array `events` once filled with the texts of the path-bearing arguments. -/
def terseLines (c : FsEventsH) (env : Env) (vec : List CStr) (e : RawEvent) : List CStr :=
  (fillPaths vec (e.paths c) 0 (terseSwitch c e.kind)).flatMap
    (terseLine e.pid (env.getProcessName e.pid))

/-- The line of the terse format: the tag with its colon, the path, the pid in decimal and
the process name in parentheses, ended by a newline. -/
def terseFormat (tag : CStr) (path : CStr) (pid : Int) (name : CStr) : CStr :=
  tag ++ path ++ bytes " - pid " ++ fmtD pid ++ bytes " (" ++ name ++ bytes ")\n"

/-- The line with the given tag for the path `x` if `isMonitoredPath(x)` holds, debug
printing off; nothing otherwise. -/
def lineIfWatched (vec : List CStr) (tag : CStr) (x : CStr) (pid : Int) (name : CStr) :
    List CStr :=
  if (isMonitoredPath false vec x).1 = true then [terseFormat tag x pid name] else []

/-- The line with the given tag for the first of the given paths, if there is one and it is
watched. -/
def firstLineIfWatched (vec : List CStr) (tag : CStr) (paths : List CStr) (pid : Int)
    (name : CStr) : List CStr :=
  match paths with
  | [] => []
  | x :: _ => lineIfWatched vec tag x pid name

/-- The state after a pass over a buffer that holds one event: the counter has advanced
by one, the watched set and its snapshot are as before. -/
def State.counted (st : State) : State :=
  ⟨st.monPathSet_s, st.monPathVec_s, st.eventCounter_s + 1⟩

/-- Lookup services for the examples: every process is `mv`, every user `root`, every
group `wheel`. -/
def exampleEnv : Env := ⟨fun _ => bytes "mv", fun _ => bytes "root", fun _ => bytes "wheel"⟩

/-- A state for the examples: the single path `/tmp/x` is watched. -/
def exampleState : State := ⟨[bytes "/tmp/x"], [bytes "/tmp/x"], 0⟩

/-- A string argument (Darwin code 2) whose payload is the text and its NUL. -/
def stringArg (text : String) : Arg := ⟨2, bytes text ++ [0]⟩

/-- The builder `y` comes from `x` by balanced calls: the tag stack and the indentation
are those of `x`, and the output of `x` has only been appended to. -/
def XmlStrBuilder_t.Extends (x y : XmlStrBuilder_t) : Prop :=
  y.tags_m = x.tags_m ∧ y.indent_m = x.indent_m ∧ x.os_m <+: y.os_m

/-- The builder `y` stands inside the element `t` opened on `x`. -/
def XmlStrBuilder_t.Inside (x : XmlStrBuilder_t) (t : CStr) (y : XmlStrBuilder_t) : Prop :=
  y.tags_m = x.tags_m ++ [t] ∧ y.indent_m = x.indent_m + 1 ∧ x.os_m <+: y.os_m

/-- The builder `y` stands inside the root element `root`, whose opening tag starts the
output. -/
def XmlStrBuilder_t.Opened (root : CStr) (y : XmlStrBuilder_t) : Prop :=
  y.tags_m = [root] ∧ y.indent_m = 1 ∧ (bytes "<" ++ root ++ bytes ">" ++ bytes "\n") <+: y.os_m

/-! ## Sequences of commands and the invariants of the watched set -/

/-- Successive calls of `processInputCmd`, one per array in `lines`, as made by `main` for
the startup paths (lines 778-785) and for the lines of stdin (lines 810-814): the state
after the last call, `none` when a call does not return. -/
def processInputCmds (isDebug_s : Bool) : State → List (List Nat) → Option State
  | st, [] => some st
  | st, line :: rest =>
    match processInputCmd isDebug_s st line with
    | CmdResult.returned st1 _ => processInputCmds isDebug_s st1 rest
    | CmdResult.exited _ => none
    | CmdResult.fault => none

/-- Strictly ascending in the order of `std::less<std::string>`. -/
def StrictAsc (l : List CStr) : Prop := l.Pairwise (fun a b => strLt a b = true)

instance (l : List CStr) : Decidable (StrictAsc l) := by
  unfold StrictAsc; infer_instance

/-- The string does not end with the slash. -/
def NoTrailingSlash (s : CStr) : Prop := s.getLast? ≠ some slash

instance (s : CStr) : Decidable (NoTrailingSlash s) := by
  unfold NoTrailingSlash; infer_instance

/-- The path without its trailing slashes: what `eraseTrailingChar(path, '/')` leaves. -/
def stripSlashes (P : CStr) : CStr := P.rdropWhile (fun b => b == slash)

/-! ## Buffers of several events and the events met by the XML decode loop -/

/-- The bytes of a sequence of events, back to back with no padding. -/
def encodeEvents (c : FsEventsH) (es : List RawEvent) : List Nat := es.flatMap (encodeEvent c)

/-- The state after a pass over a buffer that holds `n` events: the counter has advanced by
`n`, the watched set and its snapshot are as before. -/
def State.countedBy (st : State) (n : Nat) : State :=
  ⟨st.monPathSet_s, st.monPathVec_s, st.eventCounter_s + n⟩

/-- The terse lines of a sequence of events, in arrival order. -/
def terseLinesAll (c : FsEventsH) (env : Env) (vec : List CStr) (es : List RawEvent) :
    List CStr :=
  es.flatMap (terseLines c env vec)

/-- The fragment of the event `e` numbered `eventNumber`, empty if it cannot be built. -/
def fragmentOf (c : FsEventsH) (env : Env) (eventNumber : Int) (e : RawEvent) : CStr :=
  match xmlFragment c env eventNumber e with
  | Except.ok frag => frag
  | Except.error _ => []

/-- What XML mode prints for a sequence of events when the counter stands at `n`: for each
event with a watched path its fragment, numbered `n + 1`, `n + 2`, ... in arrival order,
the numbers running on over the events that are not printed. -/
def xmlOut (c : FsEventsH) (env : Env) (vec : List CStr) : Int → List RawEvent → List CStr
  | _, [] => []
  | n, e :: es =>
    (if anyWatched vec (e.paths c) = true then [fragmentOf c env (n + 1) e] else []) ++
      xmlOut c env vec (n + 1) es

/-- The events of a sequence paired with the numbers `n + 1`, `n + 2`, ... -/
def numbered : Int → List RawEvent → List (Int × RawEvent)
  | _, [] => []
  | n, e :: es => (n + 1, e) :: numbered (n + 1) es

/-- The argument loop of `processEventAsXml` (`xmlArgs`) with a record of what it meets:
`seen` collects, for each argument, the type code read, and the bytes over which the cursor
then steps, as many as the length read says. -/
def xmlArgsTrace (c : FsEventsH) (env : Env) (isDebug_s : Bool) (monPathVec_s : List CStr)
    (buf : List Nat) : Nat → Nat → Bool → XmlStrBuilder_t → List CStr → List Arg →
      Except Fault (Nat × Bool × XmlStrBuilder_t × List CStr × List Arg)
  | 0, _, _, _, _, _ => Except.error Fault.roundsExhausted
  | fuel + 1, pos, shouldPrint, xml, out, seen =>
    match readU16 buf pos with
    | none => Except.error Fault.readPastEnd
    | some argtype =>
      if argtype = c.FSE_ARG_DONE then
        Except.ok (pos + 2, shouldPrint,
          xml.addTagAndVararg (bytes "done") (bytes "0x" ++ fmtX argtype), out, seen)
      else
        match readU16 buf (pos + 2) with
        | none => Except.error Fault.readPastEnd
        | some arglen =>
          match xmlArg c env isDebug_s monPathVec_s buf (pos + 2 + 2) argtype arglen
              shouldPrint xml with
          | Except.error f => Except.error f
          | Except.ok (shouldPrint1, xml1, out1) =>
            xmlArgsTrace c env isDebug_s monPathVec_s buf fuel (pos + 2 + 2 + arglen)
              shouldPrint1 xml1 (out ++ out1)
              (seen ++ [⟨argtype, (buf.drop (pos + 2 + 2)).take arglen⟩])

/-- The event loop of `processEventAsXml` (`xmlLoop`) with a record of what it meets:
`seen` collects, for each event, the value of `eventCounter_s` given to it, the kind and the
pid read, and the arguments met; the cursor `pos` at the exit of the loop is returned too. -/
def xmlLoopTrace (c : FsEventsH) (env : Env) (isDebug_s : Bool) (monPathVec_s : List CStr)
    (buf : List Nat) :
    Nat → Nat → Int → XmlStrBuilder_t → List CStr → List (Int × RawEvent) →
      Except Fault (Int × List CStr × List (Int × RawEvent) × Nat)
  | 0, _, _, _, _, _ => Except.error Fault.roundsExhausted
  | fuel + 1, pos, eventCounter, xml, out, seen =>
    if pos < buf.length then
      match readI32 buf pos with
      | none => Except.error Fault.readPastEnd
      | some eventType =>
        match readI32 buf (pos + 4) with
        | none => Except.error Fault.readPastEnd
        | some pid =>
          match xmlHead c env (eventCounter + 1) eventType pid xml with
          | Except.error f => Except.error f
          | Except.ok xml1 =>
            match xmlArgsTrace c env isDebug_s monPathVec_s buf (buf.length + 1) (pos + 4 + 4)
                false xml1 out [] with
            | Except.error f => Except.error f
            | Except.ok (pos1, shouldPrint, xml2, out1, args) =>
              let xml3 := xml2.popTag
              xmlLoopTrace c env isDebug_s monPathVec_s buf fuel pos1 (eventCounter + 1) xml3
                (out1 ++ if shouldPrint then [xml3.str] else [])
                (seen ++ [(eventCounter + 1, ⟨eventType, pid, args⟩)])
    else Except.ok (eventCounter, out, seen, pos)

/-- `processEventAsXml` with the record of the events met and the final cursor. -/
def processEventAsXmlTrace (c : FsEventsH) (env : Env) (isDebug_s : Bool) (st : State)
    (buf : List Nat) : Except Fault (State × List CStr × List (Int × RawEvent) × Nat) :=
  match xmlLoopTrace c env isDebug_s st.monPathVec_s buf (buf.length + 1) 0 st.eventCounter_s
      XmlStrBuilder_t.new [] [] with
  | Except.error f => Except.error f
  | Except.ok (counter, out, seen, pos) =>
    Except.ok (⟨st.monPathSet_s, st.monPathVec_s, counter⟩, out, seen, pos)

/-- The result of a traced pass without its record. -/
def untrace {α β γ : Type} : Except Fault (α × β × γ) → Except Fault (α × β)
  | Except.error f => Except.error f
  | Except.ok (a, b, _) => Except.ok (a, b)

/-! ## The text of a fragment -/

/-- The builder `y` moved behind the output `os` and onto the stack `tags`. -/
def XmlStrBuilder_t.after (os : CStr) (tags : List CStr) (y : XmlStrBuilder_t) :
    XmlStrBuilder_t :=
  ⟨os ++ y.os_m, tags ++ y.tags_m, y.indent_m⟩

/-- The text that the argument switch of `processEventAsXml` writes for the argument `a`
at indentation 1, that is directly inside the root element. -/
def argText (c : FsEventsH) (env : Env) (a : Arg) : CStr :=
  match renderArg c env ⟨[], [], 1⟩ a with
  | Except.ok y => y.os_m
  | Except.error _ => []

/-- The text that starts a fragment (lines 547-594): the opening tag of the root, the
`eventNumber` element and the `process` element with the pid and the escaped name. -/
def headText (c : FsEventsH) (env : Env) (eventNumber : Int) (e : RawEvent) : CStr :=
  bytes "<" ++ xmlRootTag c e.kind ++ bytes ">" ++ bytes "\n"
    ++ bytes "  " ++ bytes "<" ++ bytes "eventNumber" ++ bytes ">" ++ (fmtD eventNumber).take 159
    ++ bytes "</" ++ bytes "eventNumber" ++ bytes ">" ++ bytes "\n"
    ++ bytes "  " ++ bytes "<" ++ bytes "process" ++ bytes ">" ++ bytes "\n"
    ++ bytes "  " ++ bytes "  " ++ bytes "<" ++ bytes "id" ++ bytes ">" ++ (fmtD e.pid).take 159
    ++ bytes "</" ++ bytes "id" ++ bytes ">" ++ bytes "\n"
    ++ bytes "  " ++ bytes "  " ++ bytes "<" ++ bytes "name" ++ bytes ">"
    ++ (env.getProcessName e.pid).flatMap escapeByte
    ++ bytes "</" ++ bytes "name" ++ bytes ">" ++ bytes "\n"
    ++ bytes "  " ++ bytes "</" ++ bytes "process" ++ bytes ">" ++ bytes "\n"

/-- The text that ends a fragment: the `done` element and the closing tag of the root. -/
def tailText (c : FsEventsH) (e : RawEvent) : CStr :=
  bytes "  " ++ bytes "<" ++ bytes "done" ++ bytes ">" ++ (bytes "0x" ++ fmtX c.FSE_ARG_DONE).take 159
    ++ bytes "</" ++ bytes "done" ++ bytes ">" ++ bytes "\n"
    ++ bytes "</" ++ xmlRootTag c e.kind ++ bytes ">" ++ bytes "\n"

/-- The result of a builder step moved behind the output `os` and onto the stack `tags`. -/
def afterR (os : CStr) (tags : List CStr) :
    Except Fault XmlStrBuilder_t → Except Fault XmlStrBuilder_t
  | Except.ok y => Except.ok (y.after os tags)
  | Except.error f => Except.error f

/-- The text of the element that the argument switch writes for an argument of unknown
type and declared length `len`, directly inside the root element. -/
def unknownArgText (len : Nat) : CStr :=
  bytes "  " ++ bytes "<" ++ bytes "unknown-arg" ++ bytes ">" ++ fmtD len
    ++ bytes "</" ++ bytes "unknown-arg" ++ bytes ">" ++ bytes "\n"

/-- What XML mode prints for one numbered event: its fragment if one of its paths is
watched, nothing otherwise. -/
def printIfWatched (c : FsEventsH) (env : Env) (vec : List CStr) (v : Int × RawEvent) :
    List CStr :=
  if anyWatched vec (v.2.paths c) = true then [fragmentOf c env v.1 v.2] else []

/-- Equality of records of events met is decidable. -/
instance : DecidableEq (List (Int × RawEvent) × Nat) := inferInstance

/-! ## The reference for `strReplaceAll` -/

/-- The reference for `strReplaceAll`: the input is scanned once from left to right; where
`oldSubStr` occurs, `newSubStr` is written and the scan goes on behind the occurrence, so
that occurrences do not overlap and the text written is not scanned; other bytes are copied.
`skip` counts the bytes of the occurrence that are still to be passed over. -/
def strReplaceAllRef (oldSubStr newSubStr : CStr) : Nat → CStr → CStr
  | _, [] => []
  | skip + 1, _ :: t => strReplaceAllRef oldSubStr newSubStr skip t
  | 0, b :: t =>
    if oldSubStr <+: b :: t then
      newSubStr ++ strReplaceAllRef oldSubStr newSubStr (oldSubStr.length - 1) t
    else b :: strReplaceAllRef oldSubStr newSubStr 0 t

/-- The indices, counted from `i`, of the occurrences of `oldSubStr` that the scan of
`strReplaceAllRef` replaces. -/
def scanPositions (oldSubStr : CStr) : Nat → CStr → Nat → List Nat
  | _, [], _ => []
  | skip + 1, _ :: t, i => scanPositions oldSubStr skip t (i + 1)
  | 0, b :: t, i =>
    if oldSubStr <+: b :: t then i :: scanPositions oldSubStr (oldSubStr.length - 1) t (i + 1)
    else scanPositions oldSubStr 0 t (i + 1)

/-! ## The tags of a text and the elements they delimit -/

/-- A tag met in a text: `<name>` opens an element and `</name>` closes one. -/
inductive Tok where
  | opening (name : CStr)
  | closing (name : CStr)
deriving DecidableEq, Repr

/-- The tag whose text between `<` and `>` is `body`: a closing tag when it starts with a
slash. -/
def Tok.ofBody : CStr → Tok
  | [] => Tok.opening []
  | b :: name => if b = slash then Tok.closing name else Tok.opening (b :: name)

/-- The tags of a text in the order met.  `cur` is `none` between tags and, inside a tag,
holds the bytes read since its `<`; a tag ends at the next `>`. -/
def scanTags : Option CStr → CStr → List Tok
  | _, [] => []
  | none, b :: t => if b = '<'.toNat then scanTags (some []) t else scanTags none t
  | some body, b :: t =>
    if b = '>'.toNat then Tok.ofBody body :: scanTags none t else scanTags (some (body ++ [b])) t

/-- Where the scan of `scanTags` stands at the end of the text. -/
def scanEnd : Option CStr → CStr → Option CStr
  | cur, [] => cur
  | none, b :: t => if b = '<'.toNat then scanEnd (some []) t else scanEnd none t
  | some body, b :: t =>
    if b = '>'.toNat then scanEnd none t else scanEnd (some (body ++ [b])) t

/-- The elements left open after a sequence of tags, the innermost first, starting from the
open elements `st`; `none` when a closing tag does not name the innermost open element. -/
def openAfter : List Tok → List CStr → Option (List CStr)
  | [], st => some st
  | Tok.opening n :: ts, st => openAfter ts (n :: st)
  | Tok.closing _ :: _, [] => none
  | Tok.closing n :: ts, top :: st => if n = top then openAfter ts st else none

/-- A text is well nested: it ends outside a tag, every closing tag names the innermost
element open at that point, and no element is left open. -/
def WellNested (text : CStr) : Prop :=
  scanEnd none text = none ∧ openAfter (scanTags none text) [] = some []

instance (text : CStr) : Decidable (WellNested text) := by
  unfold WellNested
  infer_instance

/-- The names of the elements that a sequence of tags opens while exactly one element is
open, `depth` being the number of elements open at the start: from depth 0, the children
of the outermost element, in order. -/
def childrenAt : Nat → List Tok → List CStr
  | _, [] => []
  | depth, Tok.opening n :: ts => (if depth = 1 then [n] else []) ++ childrenAt (depth + 1) ts
  | depth, Tok.closing _ :: ts => childrenAt (depth - 1) ts

/-- The children of the outermost element of a text. -/
def rootChildren (text : CStr) : List CStr := childrenAt 0 (scanTags none text)

/-- A tag name that `scanTags` reads back as written: it holds no `>` and does not start
with a slash. -/
def goodTag (tag : CStr) : Bool :=
  decide ('>'.toNat ∉ tag) && decide (tag.head? ≠ some slash)

/-- The tags of an element named `tag` whose children, named `inner`, have no children. -/
def elemToks (tag : CStr) (inner : List CStr) : List Tok :=
  Tok.opening tag :: inner.flatMap (fun t => [Tok.opening t, Tok.closing t]) ++ [Tok.closing tag]

/-- The name of the element that the argument switch of `processEventAsXml` (lines
608-696) writes for an argument of type `argtype`. -/
def argTag (c : FsEventsH) (argtype : Nat) : CStr :=
  if argtype = c.FSE_ARG_VNODE then bytes "vnode"
  else if argtype = c.FSE_ARG_STRING then bytes "string"
  else if argtype = c.FSE_ARG_PATH then bytes "path"
  else if argtype = c.FSE_ARG_INT32 then bytes "int32"
  else if argtype = c.FSE_ARG_INT64 then bytes "int64"
  else if argtype = c.FSE_ARG_RAW then bytes "raw"
  else if argtype = c.FSE_ARG_INO then bytes "inode"
  else if argtype = c.FSE_ARG_UID then bytes "uid"
  else if argtype = c.FSE_ARG_DEV then bytes "device"
  else if argtype = c.FSE_ARG_MODE then bytes "mode"
  else if argtype = c.FSE_ARG_GID then bytes "gid"
  else bytes "unknown-arg"

/-- The names of the elements nested in the element of an argument of type `argtype`. -/
def argInner (c : FsEventsH) (argtype : Nat) : List CStr :=
  if argtype = c.FSE_ARG_VNODE then []
  else if argtype = c.FSE_ARG_STRING then []
  else if argtype = c.FSE_ARG_PATH then []
  else if argtype = c.FSE_ARG_INT32 then []
  else if argtype = c.FSE_ARG_INT64 then []
  else if argtype = c.FSE_ARG_RAW then [bytes "length"]
  else if argtype = c.FSE_ARG_INO then []
  else if argtype = c.FSE_ARG_UID then [bytes "int", bytes "name"]
  else if argtype = c.FSE_ARG_DEV then [bytes "value", bytes "major", bytes "minor"]
  else if argtype = c.FSE_ARG_MODE then [bytes "int", bytes "vnode-type", bytes "str"]
  else if argtype = c.FSE_ARG_GID then [bytes "int", bytes "name"]
  else []

/-- The tags of the element written for an argument of type `argtype`. -/
def argToks (c : FsEventsH) (argtype : Nat) : List Tok :=
  elemToks (argTag c argtype) (argInner c argtype)

/-- The builder `y` comes from `x` by calls that leave the tag stack and the indentation
as they were and whose output, which ends outside a tag, holds the tags `ts`. -/
def XmlStrBuilder_t.Adds (x y : XmlStrBuilder_t) (ts : List Tok) : Prop :=
  y.tags_m = x.tags_m ∧ y.indent_m = x.indent_m ∧ scanEnd none y.os_m = none ∧
    scanTags none y.os_m = scanTags none x.os_m ++ ts

/-- A call of one of the public methods of `XmlStrBuilder_t` that change the builder. -/
inductive XmlOp where
  | pushTag (tag : CStr)
  | popTag
  | addTagAndValue (tag str : CStr)
  | addTagAndVararg (tag formatted : CStr)
  | clear
deriving DecidableEq, Repr

/-- The builder after one call. -/
def XmlStrBuilder_t.call (x : XmlStrBuilder_t) : XmlOp → XmlStrBuilder_t
  | XmlOp.pushTag tag => x.pushTag tag
  | XmlOp.popTag => x.popTag
  | XmlOp.addTagAndValue tag str => x.addTagAndValue tag str
  | XmlOp.addTagAndVararg tag formatted => x.addTagAndVararg tag formatted
  | XmlOp.clear => x.clear

/-- The builder after a sequence of calls. -/
def XmlStrBuilder_t.calls (x : XmlStrBuilder_t) (ops : List XmlOp) : XmlStrBuilder_t :=
  ops.foldl XmlStrBuilder_t.call x

/-- A record that claims more payload than the buffer holds, as laid out in memory: kind,
pid, the arguments `pre`, then the type and the declared length `arglen` of one more
argument, followed by the bytes `tail` that are left of the buffer (fewer than `arglen` when
the record is overlong). -/
def encodeOverlong (kind pid : Int) (pre : List Arg) (argtype arglen : Nat) (tail : List Nat) :
    List Nat :=
  i32le kind ++ i32le pid ++ encodeArgs pre ++ u16le argtype ++ u16le arglen ++ tail

/-! ## Lemmas on the path filter -/

theorem matchEntry_isSome_iff (P C : CStr) :
    (matchEntry P C).isSome = true ↔
      (C = P ∨ (P <+: C ∧ P ≠ C ∧ C[P.length]? = some slash)) := by
  unfold matchEntry
  constructor
  · intro h
    split_ifs at h with h1 h2 h3 h4
    · left
      have := List.take_length (l := C)
      rw [← h3, h2] at this
      exact this.symm
    · right
      refine ⟨?_, ?_, h4⟩
      · rw [← h2]; exact List.take_prefix _ _
      · intro hPC; exact h3 (by rw [hPC])
    all_goals simp at h
  · rintro (rfl | ⟨hpre, hne, hsl⟩)
    · simp
    · have hle : P.length ≤ C.length := hpre.length_le
      have htake : C.take P.length = P := by
        obtain ⟨t, rfl⟩ := hpre
        simp
      have hlen : P.length ≠ C.length := by
        intro hl
        apply hne
        rw [← htake, hl, List.take_length]
      simp [hle, htake, hlen, hsl]

theorem isMonitoredPathLoop_fst (d : Bool) (n : Nat) (C : CStr) (L : List CStr) :
    (isMonitoredPathLoop d n C L).1 = L.any (fun P => (matchEntry P C).isSome) := by
  induction L with
  | nil => simp [isMonitoredPathLoop]
  | cons P rest ih =>
    simp only [isMonitoredPathLoop, List.any_cons]
    cases h : matchEntry P C with
    | some line => simp
    | none => simp [ih]

theorem isMonitoredPath_fst (d : Bool) (L : List CStr) (C : CStr) :
    (isMonitoredPath d L C).1 = L.any (fun P => (matchEntry P C).isSome) := by
  simp [isMonitoredPath, isMonitoredPathLoop_fst]

theorem isMonitoredPath_true_iff (d : Bool) (L : List CStr) (C : CStr) :
    (isMonitoredPath d L C).1 = true ↔
      ∃ P ∈ L, C = P ∨ (P <+: C ∧ P ≠ C ∧ C[P.length]? = some slash) := by
  rw [isMonitoredPath_fst, List.any_eq_true]
  constructor
  · rintro ⟨P, hP, h⟩
    exact ⟨P, hP, (matchEntry_isSome_iff P C).1 h⟩
  · rintro ⟨P, hP, h⟩
    exact ⟨P, hP, (matchEntry_isSome_iff P C).2 h⟩

/-- With debug printing off `isMonitoredPath` writes nothing. -/
theorem isMonitoredPath_snd_quiet (L : List CStr) (C : CStr) :
    (isMonitoredPath false L C).2 = [] := by
  have h : ∀ (n : Nat) (L : List CStr), (isMonitoredPathLoop false n C L).2 = [] := by
    intro n L
    induction L with
    | nil => simp [isMonitoredPathLoop, dbg]
    | cons P rest ih =>
      simp only [isMonitoredPathLoop]
      cases matchEntry P C with
      | some line => simp [dbg]
      | none => simp [dbg, ih]
  simp [isMonitoredPath, dbg, h]

/-! ## Lemmas on the watched set -/

theorem strLt_irrefl (x : CStr) : strLt x x = false := by
  induction x with
  | nil => rfl
  | cons a s ih => simp [strLt, ih]

theorem strLt_total : ∀ (x y : CStr), strLt x y = false → strLt y x = false → x = y
  | [], [], _, _ => rfl
  | [], _ :: _, h, _ => by simp [strLt] at h
  | _ :: _, [], _, h => by simp [strLt] at h
  | a :: s, b :: t, h1, h2 => by
    simp only [strLt] at h1 h2
    have hab : ¬ a < b := by
      intro hlt; simp [hlt] at h1
    have hba : ¬ b < a := by
      intro hlt; simp [hlt] at h2
    have e : a = b := by omega
    subst e
    simp only [lt_self_iff_false, if_false] at h1 h2
    rw [strLt_total s t h1 h2]

theorem not_equiv_iff (x y : CStr) : (strLt x y || strLt y x) = true ↔ y ≠ x := by
  constructor
  · rintro h rfl
    simp [strLt_irrefl] at h
  · intro hne
    by_contra hc
    simp only [Bool.or_eq_true, not_or, Bool.not_eq_true] at hc
    exact hne (strLt_total x y hc.1 hc.2).symm

theorem mem_setInsert (x z : CStr) (ys : List CStr) :
    z ∈ setInsert x ys ↔ z = x ∨ z ∈ ys := by
  induction ys with
  | nil => simp [setInsert]
  | cons y ys ih =>
    unfold setInsert
    split_ifs with h1 h2
    · simp
    · simp only [List.mem_cons, ih]
      tauto
    · have e : x = y := strLt_total x y (by simpa using h1) (by simpa using h2)
      subst e
      simp

theorem mem_setErase (x z : CStr) (ys : List CStr) :
    z ∈ setErase x ys ↔ z ∈ ys ∧ z ≠ x := by
  simp [setErase, List.mem_filter, not_equiv_iff x z]

/-! ## Lemmas on C strings and `eraseTrailingChar` -/

theorem cstrOf_append_nul (P : CStr) (rest : List Nat) (hP : 0 ∉ P) :
    cstrOf (P ++ 0 :: rest) = some P := by
  induction P with
  | nil => simp [cstrOf]
  | cons b t ih =>
    have hb : b ≠ 0 := fun h => hP (by simp [h])
    have ht : 0 ∉ t := fun h => hP (by simp [h])
    simp [cstrOf, hb, ih ht]

theorem cstrAt_append (pre P : CStr) (rest : List Nat) (hP : 0 ∉ P) :
    cstrAt (pre ++ P ++ 0 :: rest) pre.length = some P := by
  simp [cstrAt, cstrOf_append_nul P rest hP]

/-- A string is what is left after dropping its trailing `c`s, followed by those `c`s. -/
theorem rdropWhile_append_replicate (c : Nat) (P : CStr) :
    ∃ k, P = P.rdropWhile (fun b => b == c) ++ List.replicate k c := by
  induction P using List.reverseRecOn with
  | nil => exact ⟨0, by simp⟩
  | append_singleton P b ih =>
    by_cases hb : b = c
    · obtain ⟨k, hk⟩ := ih
      refine ⟨k + 1, ?_⟩
      subst hb
      rw [List.rdropWhile_concat_pos _ _ _ (by simp)]
      rw [List.replicate_succ', ← List.append_assoc, ← hk]
    · refine ⟨0, ?_⟩
      rw [List.rdropWhile_concat_neg _ _ _ (by simpa using hb)]
      simp

/-- What is left after dropping the trailing `c`s does not end with `c`. -/
theorem rdropWhile_getLast_ne (c : Nat) (P : CStr) :
    ∀ b ∈ (P.rdropWhile (fun b => b == c)).getLast?, b ≠ c := by
  induction P using List.reverseRecOn with
  | nil => simp
  | append_singleton P b ih =>
    by_cases hb : b = c
    · subst hb
      rw [List.rdropWhile_concat_pos _ _ _ (by simp)]
      exact ih
    · rw [List.rdropWhile_concat_neg _ _ _ (by simpa using hb)]
      simpa using hb

theorem getElem?_mid (A : List Nat) (b : Nat) (zs : List Nat) :
    (A ++ b :: zs)[A.length]? = some b := by
  rw [List.getElem?_append_right (le_refl _)]
  simp

theorem set_mid (A : List Nat) (b x : Nat) (zs : List Nat) :
    (A ++ b :: zs).set A.length x = A ++ x :: zs := by
  rw [List.set_append_right _ _ (le_refl _)]
  simp

/-- The loop of `eraseTrailingChar` started at the end of `P`, which follows a byte `a`
other than `c`: the trailing `c`s of `P` become NULs and nothing else changes. -/
theorem eraseTrailingCharLoop_spec (c a : Nat) (hac : a ≠ c) (pre : List Nat) (P : CStr) :
    ∀ zs : List Nat,
      eraseTrailingCharLoop c ((pre ++ a :: P).length) (pre ++ a :: P ++ zs) =
        some (pre ++ a :: P.rdropWhile (fun b => b == c) ++
          List.replicate (P.length - (P.rdropWhile (fun b => b == c)).length) 0 ++ zs) := by
  induction P using List.reverseRecOn with
  | nil =>
    intro zs
    have h1 : (pre ++ [a]).length = pre.length + 1 := by simp
    have h2 : pre ++ [a] ++ zs = pre ++ a :: zs := by simp
    rw [h1, h2]
    simp only [eraseTrailingCharLoop, getElem?_mid, if_neg hac]
    simp
  | append_singleton P b ih =>
    intro zs
    have h1 : (pre ++ a :: (P ++ [b])).length = (pre ++ a :: P).length + 1 := by
      simp; omega
    have h2 : pre ++ a :: (P ++ [b]) ++ zs = (pre ++ a :: P) ++ b :: zs := by simp
    rw [h1, h2]
    simp only [eraseTrailingCharLoop, getElem?_mid]
    by_cases hb : b = c
    · subst hb
      rw [if_pos rfl, set_mid, ih (0 :: zs)]
      rw [List.rdropWhile_concat_pos _ _ _ (by simp)]
      have hle : (P.rdropWhile (fun x => x == b)).length ≤ P.length :=
        (List.rdropWhile_prefix _ _).length_le
      have h3 : (P ++ [b]).length - (P.rdropWhile (fun x => x == b)).length
          = (P.length - (P.rdropWhile (fun x => x == b)).length) + 1 := by
        simp; omega
      rw [h3, List.replicate_succ']
      simp
    · rw [if_neg hb, List.rdropWhile_concat_neg _ _ _ (by simpa using hb)]
      simp

theorem cstrOf_replicate_nul (Q : CStr) (n : Nat) (rest : List Nat) (hQ : 0 ∉ Q) :
    cstrOf (Q ++ List.replicate n 0 ++ 0 :: rest) = some Q := by
  cases n with
  | zero => simpa using cstrOf_append_nul Q rest hQ
  | succ n =>
    have := cstrOf_append_nul Q (List.replicate n 0 ++ 0 :: rest) hQ
    simpa [List.replicate_succ] using this

/-- The call `eraseTrailingChar(line + 4, c)` of `processInputCmd` on a line that holds a
command word ending in a byte `a` other than `c`, then `P`, then the NUL: it returns, and
the string then found after the word is `P` without its trailing `c`s. -/
theorem eraseTrailingChar_after_word (c a : Nat) (hac : a ≠ c) (pre : List Nat) (P : CStr)
    (rest : List Nat) (hP : 0 ∉ P) :
    ∃ line1, eraseTrailingChar (pre ++ [a] ++ P ++ 0 :: rest) (pre ++ [a]).length c = some line1 ∧
      cstrAt line1 (pre ++ [a]).length = some (P.rdropWhile (fun b => b == c)) := by
  have hlen : strlen (pre ++ [a] ++ P ++ 0 :: rest) (pre ++ [a]).length = some P.length := by
    rw [strlen, cstrAt_append (pre ++ [a]) P rest hP]
    rfl
  have hl2 : (pre ++ [a]).length + P.length = (pre ++ a :: P).length := by simp; omega
  have hm : pre ++ [a] ++ P ++ 0 :: rest = pre ++ a :: P ++ 0 :: rest := by simp
  have hQ : 0 ∉ P.rdropWhile (fun b => b == c) :=
    fun h => hP ((List.rdropWhile_prefix _ _).subset h)
  have h4 : pre ++ a :: P.rdropWhile (fun b => b == c) ++
        List.replicate (P.length - (P.rdropWhile (fun b => b == c)).length) 0 ++ 0 :: rest
      = (pre ++ [a]) ++ (P.rdropWhile (fun b => b == c) ++
        List.replicate (P.length - (P.rdropWhile (fun b => b == c)).length) 0 ++ 0 :: rest) := by
    simp
  refine ⟨pre ++ a :: P.rdropWhile (fun b => b == c) ++
        List.replicate (P.length - (P.rdropWhile (fun b => b == c)).length) 0 ++ 0 :: rest, ?_, ?_⟩
  · simp only [eraseTrailingChar, hlen]
    rw [hl2, hm]
    exact eraseTrailingCharLoop_spec c a hac pre P (0 :: rest)
  · rw [h4, cstrAt, List.drop_left]
    exact cstrOf_replicate_nul _ _ rest hQ

/-! ## Lemmas on `processInputCmd` -/

/-- The path with its trailing slashes removed. -/
theorem stripped_spec (P : CStr) :
    (P.rdropWhile (fun b => b == slash) = P ∨
      (P.rdropWhile (fun b => b == slash) <+: P ∧ P.rdropWhile (fun b => b == slash) ≠ P ∧
        P[(P.rdropWhile (fun b => b == slash)).length]? = some slash)) := by
  obtain ⟨k, hk⟩ := rdropWhile_append_replicate slash P
  have hpre := List.rdropWhile_prefix (fun b => b == slash) P
  generalize P.rdropWhile (fun b => b == slash) = Q at hk hpre ⊢
  cases k with
  | zero => left; simpa using hk.symm
  | succ k =>
    right
    refine ⟨hpre, ?_, ?_⟩
    · intro h
      have := congrArg List.length hk
      rw [h] at this
      simp at this
    · rw [hk, List.replicate_succ, getElem?_mid]

/-- A command word of four bytes ending in the colon, then `P`, then the NUL: the word is
recognised, the trailing slashes of `P` are erased in place and the rest is read back. -/
theorem word_line (w : List Nat) (hw : w.length = 3) (hw0 : 0 ∉ w) (P : CStr)
    (rest : List Nat) (hP : 0 ∉ P) :
    cstrAt (w ++ [58] ++ P ++ 0 :: rest) 0 = some (w ++ [58] ++ P) ∧
    (w ++ [58] ++ P).take 4 = w ++ [58] ∧
    ∃ line1, eraseTrailingChar (w ++ [58] ++ P ++ 0 :: rest) 4 slash = some line1 ∧
      cstrAt line1 4 = some (P.rdropWhile (fun b => b == slash)) := by
  have h4 : (w ++ [58]).length = 4 := by simp [hw]
  refine ⟨?_, ?_, ?_⟩
  · have h0 : 0 ∉ w ++ [58] ++ P := by
      simp only [List.mem_append, not_or]
      exact ⟨⟨hw0, by simp⟩, hP⟩
    simpa [cstrAt] using cstrOf_append_nul (w ++ [58] ++ P) rest h0
  · rw [← h4, List.take_left]
  · have := eraseTrailingChar_after_word slash 58 (by decide) w P rest hP
    rw [h4] at this
    exact this

theorem processInputCmd_add (d : Bool) (st : State) (P : CStr) (rest : List Nat) (hP : 0 ∉ P) :
    processInputCmd d st (bytes "add:" ++ P ++ 0 :: rest) =
      regenerate d st.eventCounter_s
        (setInsert (P.rdropWhile (fun b => b == slash)) st.monPathSet_s)
        (dbg d [bytes "DBG: processInputCmd: " ++ (bytes "add:" ++ P) ++ bytes "\n"]) := by
  obtain ⟨h1, h2, line1, h3, h4⟩ :=
    word_line [97, 100, 100] rfl (by decide) P rest hP
  have e : [97, 100, 100] ++ [58] = bytes "add:" := by decide
  rw [e] at h1 h2 h3
  simp only [processInputCmd, h1, h2, h3, h4, if_true]

theorem processInputCmd_del (d : Bool) (st : State) (P : CStr) (rest : List Nat) (hP : 0 ∉ P) :
    processInputCmd d st (bytes "del:" ++ P ++ 0 :: rest) =
      regenerate d st.eventCounter_s
        (setErase (P.rdropWhile (fun b => b == slash)) st.monPathSet_s)
        (dbg d [bytes "DBG: processInputCmd: " ++ (bytes "del:" ++ P) ++ bytes "\n"]) := by
  obtain ⟨h1, h2, line1, h3, h4⟩ :=
    word_line [100, 101, 108] rfl (by decide) P rest hP
  have e : [100, 101, 108] ++ [58] = bytes "del:" := by decide
  have hne : ¬ (bytes "del:" = bytes "add:") := by decide
  rw [e] at h1 h2 h3
  simp only [processInputCmd, h1, h2, h3, h4, if_true, if_neg hne]

theorem processInputCmd_clr (d : Bool) (st : State) (rest : List Nat) :
    processInputCmd d st (bytes "clr" ++ 0 :: rest) =
      regenerate d st.eventCounter_s []
        (dbg d [bytes "DBG: processInputCmd: " ++ bytes "clr" ++ bytes "\n"]) := by
  have h1 : cstrAt (bytes "clr" ++ 0 :: rest) 0 = some (bytes "clr") := by
    simpa [cstrAt] using cstrOf_append_nul (bytes "clr") rest (by decide)
  have n1 : ¬ ((bytes "clr").take 4 = bytes "add:") := by decide
  have n2 : ¬ ((bytes "clr").take 4 = bytes "del:") := by decide
  simp only [processInputCmd, h1, if_neg n1, if_neg n2, if_true, List.append_assoc]

/-! ## Lemmas on `strReplaceAll` -/

theorem findFrom_single (c : Nat) (r : CStr) (pos : Nat) :
    findFrom [c] r pos = (occ c r pos).head? := by
  induction r generalizing pos with
  | nil => simp [findFrom, occ]
  | cons b t ih =>
    by_cases h : b = c
    · subst h; simp [findFrom, occ]
    · have : ¬ [c] <+: b :: t := by
        rw [List.cons_prefix_cons]; intro hh; exact h hh.1.symm
      simp [findFrom, occ, h, this, ih]

theorem occ_cons_inv (c : Nat) (q : Nat) (rest : List Nat) (r : CStr) (pos : Nat)
    (h : occ c r pos = q :: rest) :
    ∃ k, q = pos + k ∧ k < r.length ∧ occ c (r.drop (k + 1)) (q + 1) = rest := by
  induction r generalizing pos with
  | nil => simp [occ] at h
  | cons b t ih =>
    by_cases hb : b = c
    · simp only [occ, hb, if_true, List.cons.injEq] at h
      exact ⟨0, by omega, by simp, by simpa [← h.1] using h.2⟩
    · simp only [occ, hb, if_false] at h
      obtain ⟨k, h1, h2, h3⟩ := ih (pos + 1) h
      exact ⟨k + 1, by omega, by simpa using h2, by simpa using h3⟩

theorem occ_length_le (c : Nat) (r : CStr) (pos : Nat) : (occ c r pos).length ≤ r.length := by
  induction r generalizing pos with
  | nil => simp [occ]
  | cons b t ih =>
    simp only [occ]
    split_ifs
    · simpa using ih (pos + 1)
    · exact Nat.le_succ_of_le (ih (pos + 1))

theorem collectPositions_single (c : Nat) (s : CStr) :
    ∀ (n fuel pos : Nat) (stack : List Nat), pos ≤ s.length →
      (occ c (s.drop pos) pos).length = n → n + 1 ≤ fuel →
      collectPositions s [c] fuel (find s [c] pos) stack =
        some ((occ c (s.drop pos) pos).reverse ++ stack) := by
  intro n
  induction n with
  | zero =>
    intro fuel pos stack hpos hn hf
    obtain ⟨f, rfl⟩ : ∃ f, fuel = f + 1 := ⟨fuel - 1, by omega⟩
    have h0 : occ c (s.drop pos) pos = [] := List.length_eq_zero.1 hn
    simp [find, hpos, findFrom_single, h0, collectPositions]
  | succ n ih =>
    intro fuel pos stack hpos hn hf
    obtain ⟨f, rfl⟩ : ∃ f, fuel = f + 1 := ⟨fuel - 1, by omega⟩
    obtain ⟨q, rest, hq⟩ : ∃ q rest, occ c (s.drop pos) pos = q :: rest := by
      cases h : occ c (s.drop pos) pos with
      | nil => simp [h] at hn
      | cons q rest => exact ⟨q, rest, rfl⟩
    obtain ⟨k, h1, h2, h3⟩ := occ_cons_inv c q rest _ pos hq
    have hk : k < s.length - pos := by simpa using h2
    have hd : (s.drop pos).drop (k + 1) = s.drop (q + 1) := by
      rw [List.drop_drop]; congr 1; omega
    rw [hd] at h3
    have hlen : (occ c (s.drop (q + 1)) (q + 1)).length = n := by
      rw [h3]; rw [hq] at hn; simpa using hn
    have := ih f (q + 1) (q :: stack) (by omega) hlen (by omega)
    have hfind : find s [c] pos = some q := by
      simp [find, hpos, findFrom_single, hq]
    rw [hfind]
    simp only [collectPositions, List.length_singleton]
    rw [this, h3, hq]
    simp

theorem foldl_replace_occ (c : Nat) (new : CStr) (s : CStr) :
    ∀ pre : CStr,
      (occ c s pre.length).reverse.foldl (fun s pos => replace s pos 1 new) (pre ++ s) =
        pre ++ s.flatMap (fun b => if b = c then new else [b]) := by
  induction s with
  | nil => intro pre; simp [occ]
  | cons b t ih =>
    intro pre
    have hih := ih (pre ++ [b])
    simp only [List.length_append, List.length_singleton, List.append_assoc,
      List.singleton_append] at hih
    by_cases hb : b = c
    · simp only [occ, hb, if_true, List.reverse_cons, List.foldl_append, List.foldl_cons,
        List.foldl_nil, List.flatMap_cons]
      subst hb
      rw [hih, replace]
      rw [List.take_left]
      have : pre ++ b :: t.flatMap (fun x => if x = b then new else [x])
          = (pre ++ [b]) ++ t.flatMap (fun x => if x = b then new else [x]) := by simp
      rw [this]
      have hl : pre.length + 1 = (pre ++ [b]).length := by simp
      rw [hl, List.drop_left]
      simp
    · simp only [occ, hb, if_false, List.flatMap_cons]
      rw [hih]
      simp

/-- `strReplaceAll` for a one-byte `oldSubStr`: with one round more than the input has
bytes the first loop ends, and every occurrence of the byte is replaced. -/
theorem strReplaceAll_single (c : Nat) (new : CStr) (s : CStr) (fuel : Nat)
    (hf : s.length + 1 ≤ fuel) :
    strReplaceAll fuel s [c] new = some (s.flatMap (fun b => if b = c then new else [b])) := by
  have hle := occ_length_le c s 0
  have h := collectPositions_single c s _ fuel 0 [] (Nat.zero_le _) rfl
    (by simp only [List.drop_zero]; omega)
  simp only [List.drop_zero, List.append_nil] at h
  simp only [strReplaceAll, h, Option.map_some', List.length_singleton]
  have := foldl_replace_occ c new s []
  simpa using this

theorem strMakeXmlSafe_eq (s : CStr) : strMakeXmlSafe s = some (s.flatMap escapeByte) := by
  have e1 : bytes "&" = [38] := by decide
  have e2 : bytes "<" = [60] := by decide
  have e3 : bytes ">" = [62] := by decide
  simp only [strMakeXmlSafe, e1, e2, e3]
  rw [strReplaceAll_single 38 _ s _ (le_refl _)]
  simp only [Option.some_bind]
  rw [strReplaceAll_single 60 _ _ _ (le_refl _)]
  simp only [Option.some_bind]
  rw [strReplaceAll_single 62 _ _ _ (le_refl _)]
  rw [List.flatMap_assoc, List.flatMap_assoc]
  congr 1
  induction s with
  | nil => rfl
  | cons b t ih =>
    simp only [List.flatMap_cons, ih]
    congr 1
    by_cases h1 : b = 38
    · subst h1; decide
    · by_cases h2 : b = 60
      · subst h2; decide
      · by_cases h3 : b = 62
        · subst h3; decide
        · have a1 : ¬ b = '&'.toNat := h1
          have a2 : ¬ b = '<'.toNat := h2
          have a3 : ¬ b = '>'.toNat := h3
          simp [escapeByte, h1, h2, h3, a1, a2, a3]
/-! ## Lemmas on reading encoded events -/

theorem drop_add_of_eq {buf x rest : List Nat} {pos : Nat} (h : buf.drop pos = x ++ rest) :
    buf.drop (pos + x.length) = rest := by
  rw [← List.drop_drop, h, List.drop_left]

theorem readU16_of_drop {buf rest : List Nat} {pos n : Nat} (hn : n < 65536)
    (h : buf.drop pos = u16le n ++ rest) : readU16 buf pos = some n := by
  simp only [readU16, h, u16le, List.cons_append, List.nil_append]
  congr 1
  omega

theorem readU32_of_drop {buf rest : List Nat} {pos n : Nat} (hn : n < 4294967296)
    (h : buf.drop pos = u32le n ++ rest) : readU32 buf pos = some n := by
  simp only [readU32, h, u32le, List.cons_append, List.nil_append]
  congr 1
  omega

theorem toInt32_toNat (i : Int) (h1 : -2147483648 ≤ i) (h2 : i < 2147483648) :
    toInt32 (i % 4294967296).toNat = i := by
  unfold toInt32
  have hnn : 0 ≤ i % 4294967296 := Int.emod_nonneg _ (by norm_num)
  have hlt : i % 4294967296 < 4294967296 := Int.emod_lt_of_pos _ (by norm_num)
  have hcast : (((i % 4294967296).toNat % 4294967296 : Nat) : Int) = i % 4294967296 := by
    rw [Nat.mod_eq_of_lt (by omega)]
    exact Int.toNat_of_nonneg hnn
  split_ifs with h <;> omega

theorem readI32_of_drop {buf rest : List Nat} {pos : Nat} {i : Int}
    (h1 : -2147483648 ≤ i) (h2 : i < 2147483648)
    (h : buf.drop pos = i32le i ++ rest) : readI32 buf pos = some i := by
  have hnn : 0 ≤ i % 4294967296 := Int.emod_nonneg _ (by norm_num)
  have hlt : i % 4294967296 < 4294967296 := Int.emod_lt_of_pos _ (by norm_num)
  rw [readI32, readU32_of_drop (n := (i % 4294967296).toNat) (by omega) h]
  simp [toInt32_toNat i h1 h2]

theorem cstrOf_append_of_mem (payload rest : List Nat) (h : 0 ∈ payload) :
    cstrOf (payload ++ rest) = cstrOf payload ∧ (cstrOf payload).isSome = true := by
  induction payload with
  | nil => simp at h
  | cons b t ih =>
    by_cases hb : b = 0
    · simp [cstrOf, hb]
    · have ht : 0 ∈ t := by
        rcases List.mem_cons.1 h with h0 | h0
        · exact absurd h0.symm hb
        · exact h0
      obtain ⟨h1, h2⟩ := ih ht
      obtain ⟨p, hp⟩ := Option.isSome_iff_exists.1 h2
      simp [cstrOf, hb, h1, hp]

theorem u16le_length (n : Nat) : (u16le n).length = 2 := rfl

theorem i32le_length (i : Int) : (i32le i).length = 4 := rfl

theorem encodeArg_length (a : Arg) : (encodeArg a).length = 2 + 2 + a.payload.length := by
  simp [encodeArg, u16le_length]; omega

theorem encodeArgs_cons (a : Arg) (args : List Arg) :
    encodeArgs (a :: args) = encodeArg a ++ encodeArgs args := by
  simp [encodeArgs]

theorem length_le_encodeArgs (args : List Arg) : args.length ≤ (encodeArgs args).length := by
  induction args with
  | nil => simp [encodeArgs]
  | cons a t ih =>
    rw [encodeArgs_cons, List.length_append, encodeArg_length, List.length_cons]
    omega

/-- Where the argument loop stands before the argument `a`: the two header fields and the
start of the payload read as encoded, and the loop goes on behind the payload. -/
theorem arg_frame (c : FsEventsH) {buf rest : List Nat} {pos : Nat} {a : Arg}
    (ha : a.WellFormed c) (h : buf.drop pos = encodeArg a ++ rest) :
    readU16 buf pos = some a.argtype ∧ readU16 buf (pos + 2) = some a.payload.length ∧
      buf.drop (pos + 2 + 2) = a.payload ++ rest ∧
      buf.drop (pos + 2 + 2 + a.payload.length) = rest := by
  have e1 : buf.drop pos = u16le a.argtype ++ (u16le a.payload.length ++ a.payload ++ rest) := by
    rw [h, encodeArg]; simp
  have e2 : buf.drop (pos + 2) = u16le a.payload.length ++ (a.payload ++ rest) := by
    have := drop_add_of_eq e1
    rw [u16le_length] at this
    rw [this]; simp
  have e3 : buf.drop (pos + 2 + 2) = a.payload ++ rest := by
    have := drop_add_of_eq e2
    rwa [u16le_length] at this
  exact ⟨readU16_of_drop ha.1 e1, readU16_of_drop ha.2.2.1 e2, e3, drop_add_of_eq e3⟩

/-! ## Lemmas on `processEventTerse` -/

theorem fillPaths_of_le (vec : List CStr) (ps : List CStr) (i : Nat) (ev : List Event_t)
    (hi : 2 ≤ i) : fillPaths vec ps i ev = ev := by
  cases ps with
  | nil => rfl
  | cons p ps => simp [fillPaths, Nat.not_lt.2 hi]

theorem paths_cons (c : FsEventsH) (k p : Int) (a : Arg) (args : List Arg) :
    RawEvent.paths c ⟨k, p, a :: args⟩ =
      (match Arg.path? c a with
        | some x => [x]
        | none => []) ++ RawEvent.paths c ⟨k, p, args⟩ := by
  simp only [RawEvent.paths, List.filterMap_cons]
  cases Arg.path? c a <;> simp

/-- The argument loop of `processEventTerse` on encoded arguments, debug printing off: it
ends behind the end marker, having filled `events` with the texts of the path-bearing
arguments and written nothing. -/
theorem terseArgs_spec (c : FsEventsH) (hD : c.FSE_ARG_DONE < 65536) (vec : List CStr)
    (buf : List Nat) (post : List Nat) :
    ∀ (args : List Arg) (fuel pos : Nat) (events : List Event_t) (idx : Nat) (out : List CStr),
      (∀ a ∈ args, a.WellFormed c) →
      buf.drop pos = encodeArgs args ++ u16le c.FSE_ARG_DONE ++ post →
      args.length + 1 ≤ fuel →
      terseArgs c false vec buf fuel pos events idx out =
        Except.ok (pos + (encodeArgs args).length + 2,
          fillPaths vec (RawEvent.paths c ⟨0, 0, args⟩) idx events, out) := by
  intro args
  induction args with
  | nil =>
    intro fuel pos events idx out _ hbuf hf
    obtain ⟨f, rfl⟩ : ∃ f, fuel = f + 1 := ⟨fuel - 1, by simp at hf; omega⟩
    have hr : readU16 buf pos = some c.FSE_ARG_DONE :=
      readU16_of_drop hD (by simpa [encodeArgs] using hbuf)
    simp [terseArgs, hr, encodeArgs, RawEvent.paths, fillPaths]
  | cons a args ih =>
    intro fuel pos events idx out hwf hbuf hf
    obtain ⟨f, rfl⟩ : ∃ f, fuel = f + 1 := ⟨fuel - 1, by simp at hf; omega⟩
    have ha : a.WellFormed c := hwf a (List.mem_cons_self _ _)
    have hrest : ∀ b ∈ args, b.WellFormed c := fun b hb => hwf b (List.mem_cons_of_mem _ hb)
    have hb2 : buf.drop pos = encodeArg a ++ (encodeArgs args ++ u16le c.FSE_ARG_DONE ++ post) := by
      rw [hbuf, encodeArgs_cons]; simp
    obtain ⟨r1, r2, r3, r4⟩ := arg_frame c ha hb2
    have hlen : pos + (encodeArgs (a :: args)).length + 2
        = pos + 2 + 2 + a.payload.length + (encodeArgs args).length + 2 := by
      rw [encodeArgs_cons, List.length_append, encodeArg_length]; omega
    have hih := fun ev i => ih f (pos + 2 + 2 + a.payload.length) ev i out hrest r4
      (by simp at hf; omega)
    rw [hlen, paths_cons]
    simp only [terseArgs, r1, r2, if_neg ha.2.1]
    by_cases hp : isPathArg c a.argtype = true
    · obtain ⟨c1, c2⟩ := cstrOf_append_of_mem a.payload
        (encodeArgs args ++ u16le c.FSE_ARG_DONE ++ post) (ha.2.2.2 hp)
      obtain ⟨path, hpath⟩ := Option.isSome_iff_exists.1 c2
      have hcs : cstrAt buf (pos + 2 + 2) = some path := by rw [cstrAt, r3, c1, hpath]
      have hpa : Arg.path? c a = some path := by simp [Arg.path?, hp, hpath]
      simp only [hpa, List.singleton_append]
      by_cases hi : idx < 2
      · simp only [hp, hi, and_self, if_true, hcs, isMonitoredPath_snd_quiet, List.append_nil]
        rw [hih]
        simp [fillPaths, hi]
      · simp only [hi, and_false, if_false]
        rw [hih]
        simp [fillPaths, hi, fillPaths_of_le vec _ idx events (Nat.not_lt.1 hi)]
    · have hpa : Arg.path? c a = none := by simp [Arg.path?, hp]
      simp only [hpa, hp, List.nil_append]
      rw [hih]
      simp

theorem encodeEvent_length (c : FsEventsH) (e : RawEvent) :
    (encodeEvent c e).length = 4 + 4 + (encodeArgs e.args).length + 2 := by
  simp [encodeEvent, i32le_length, u16le_length]; omega

/-- Where the event loop stands before the encoded event `e`: kind and pid read as
encoded, and the arguments follow. -/
theorem event_frame (c : FsEventsH) {buf post : List Nat} {pos : Nat} {e : RawEvent}
    (he : e.WellFormed c) (h : buf.drop pos = encodeEvent c e ++ post) :
    pos < buf.length ∧ (encodeArgs e.args).length ≤ buf.length ∧
      readI32 buf pos = some e.kind ∧ readI32 buf (pos + 4) = some e.pid ∧
      buf.drop (pos + 4 + 4) = encodeArgs e.args ++ u16le c.FSE_ARG_DONE ++ post := by
  have hl := congrArg List.length h
  rw [List.length_drop, List.length_append, encodeEvent_length] at hl
  have e1 : buf.drop pos = i32le e.kind ++
      (i32le e.pid ++ encodeArgs e.args ++ u16le c.FSE_ARG_DONE ++ post) := by
    rw [h, encodeEvent]; simp
  have e2 : buf.drop (pos + 4) = i32le e.pid ++
      (encodeArgs e.args ++ u16le c.FSE_ARG_DONE ++ post) := by
    have := drop_add_of_eq e1
    rw [i32le_length] at this
    rw [this]; simp
  have e3 := drop_add_of_eq e2
  rw [i32le_length] at e3
  exact ⟨by omega, by omega, readI32_of_drop he.1.1 he.1.2 e1,
    readI32_of_drop he.2.1.1 he.2.1.2 e2, e3⟩

/-- One round of the event loop of `processEventTerse` on an encoded well-formed event. -/
theorem terseLoop_step (c : FsEventsH) (hD : c.FSE_ARG_DONE < 65536) (env : Env)
    (vec : List CStr) (buf post : List Nat) (e : RawEvent) (he : e.WellFormed c)
    (fuel pos : Nat) (n : Int) (out : List CStr)
    (hbuf : buf.drop pos = encodeEvent c e ++ post) :
    terseLoop c env false vec buf (fuel + 1) pos n out =
      terseLoop c env false vec buf fuel (pos + (encodeEvent c e).length) (n + 1)
        (out ++ terseLines c env vec e) := by
  obtain ⟨h1, h2, h3, h4, h5⟩ := event_frame c he hbuf
  have hargs := terseArgs_spec c hD vec buf post e.args (buf.length + 1) (pos + 4 + 4)
    (terseSwitch c e.kind) 0 out he.2.2 h5 (by have := length_le_encodeArgs e.args; omega)
  have hpos : pos + 4 + 4 + (encodeArgs e.args).length + 2 = pos + (encodeEvent c e).length := by
    rw [encodeEvent_length]; omega
  simp only [terseLoop, h1, if_true, h3, h4, hargs, hpos]
  rfl

/-- `processEventTerse` on a buffer that holds one well-formed event, debug printing
off: the call completes, the counter is incremented once, and the lines are `terseLines`. -/
theorem processEventTerse_event (c : FsEventsH) (hD : c.FSE_ARG_DONE < 65536) (env : Env)
    (st : State) (e : RawEvent) (he : e.WellFormed c) :
    processEventTerse c env false st (encodeEvent c e) =
      Except.ok (⟨st.monPathSet_s, st.monPathVec_s, st.eventCounter_s + 1⟩,
        terseLines c env st.monPathVec_s e) := by
  have hlen := encodeEvent_length c e
  obtain ⟨f, hf⟩ : ∃ f, (encodeEvent c e).length = f + 1 :=
    ⟨(encodeEvent c e).length - 1, by omega⟩
  have hstep := terseLoop_step c hD env st.monPathVec_s (encodeEvent c e) [] e he
    (f + 1) 0 st.eventCounter_s [] (by simp)
  simp only [processEventTerse]
  rw [hf] at hstep ⊢
  rw [hstep]
  simp [terseLoop, hf]

/-- The labels of the event switch are pairwise distinct: the table of `terseSwitch`. -/
theorem terseSwitch_table (c : FsEventsH) (hc : c.Valid) :
    terseSwitch c c.FSE_CREATE_FILE = [Event_t.ofType EventType_t.ADD, Event_t.ofType EventType_t.NONE] ∧
    terseSwitch c c.FSE_CREATE_DIR = [Event_t.ofType EventType_t.ADD, Event_t.ofType EventType_t.NONE] ∧
    terseSwitch c c.FSE_DELETE = [Event_t.ofType EventType_t.DELETE, Event_t.ofType EventType_t.NONE] ∧
    terseSwitch c c.FSE_STAT_CHANGED = [Event_t.ofType EventType_t.CHANGE, Event_t.ofType EventType_t.NONE] ∧
    terseSwitch c c.FSE_FINDER_INFO_CHANGED = [Event_t.ofType EventType_t.CHANGE, Event_t.ofType EventType_t.NONE] ∧
    terseSwitch c c.FSE_CHOWN = [Event_t.ofType EventType_t.CHANGE, Event_t.ofType EventType_t.NONE] ∧
    terseSwitch c c.FSE_EXCHANGE = [Event_t.ofType EventType_t.CHANGE, Event_t.ofType EventType_t.CHANGE] ∧
    terseSwitch c c.FSE_RENAME = [Event_t.ofType EventType_t.DELETE, Event_t.ofType EventType_t.ADD] ∧
    terseSwitch c c.FSE_CONTENT_MODIFIED = [Event_t.ofType EventType_t.NONE, Event_t.ofType EventType_t.NONE] ∧
    terseSwitch c c.FSE_INVALID = [Event_t.ofType EventType_t.NONE, Event_t.ofType EventType_t.NONE] := by
  obtain ⟨hE, -, -⟩ := hc
  simp only [FsEventsH.eventLabels, List.nodup_cons, List.mem_cons, List.mem_singleton,
    not_or, List.not_mem_nil, not_false_eq_true, List.nodup_nil, and_true] at hE
  obtain ⟨⟨a1, a2, a3, a4, a5, a6, a7, a8, a9⟩, ⟨b2, b3, b4, b5, b6, b7, b8, b9⟩,
    ⟨d3, d4, d5, d6, d7, d8, d9⟩, ⟨e4, e5, e6, e7, e8, e9⟩, ⟨f5, f6, f7, f8, f9⟩,
    ⟨g6, g7, g8, g9⟩, ⟨h7, h8, h9⟩, ⟨i8, i9⟩, j9⟩ := hE
  refine ⟨?_, ?_, ?_, ?_, ?_, ?_, ?_, ?_, ?_, ?_⟩ <;>
    simp [terseSwitch, *, Ne.symm a1, Ne.symm a2, Ne.symm a3, Ne.symm a4, Ne.symm a5,
      Ne.symm a6, Ne.symm a7, Ne.symm a8, Ne.symm a9, Ne.symm b2, Ne.symm b3, Ne.symm b4,
      Ne.symm b5, Ne.symm b6, Ne.symm b7, Ne.symm b8, Ne.symm b9, Ne.symm d3, Ne.symm d4,
      Ne.symm d5, Ne.symm d6, Ne.symm d7, Ne.symm d8, Ne.symm d9, Ne.symm e4, Ne.symm e5,
      Ne.symm e6, Ne.symm e7, Ne.symm e8, Ne.symm e9, Ne.symm f5, Ne.symm f6, Ne.symm f7,
      Ne.symm f8, Ne.symm f9, Ne.symm g6, Ne.symm g7, Ne.symm g8, Ne.symm g9, Ne.symm h7,
      Ne.symm h8, Ne.symm h9, Ne.symm i8, Ne.symm i9, Ne.symm j9]

/-- A kind outside the eight labels of the terse switch leaves both slots at `NONE`. -/
theorem terseSwitch_default (c : FsEventsH) (k : Int)
    (h : k ≠ c.FSE_CREATE_FILE ∧ k ≠ c.FSE_CREATE_DIR ∧ k ≠ c.FSE_DELETE ∧ k ≠ c.FSE_STAT_CHANGED
      ∧ k ≠ c.FSE_FINDER_INFO_CHANGED ∧ k ≠ c.FSE_CHOWN ∧ k ≠ c.FSE_EXCHANGE ∧ k ≠ c.FSE_RENAME) :
    terseSwitch c k = [Event_t.ofType EventType_t.NONE, Event_t.ofType EventType_t.NONE] := by
  obtain ⟨h1, h2, h3, h4, h5, h6, h7, h8⟩ := h
  simp [terseSwitch, h1, h2, h3, h4, h5, h6, h7, h8]

/-- The lines of two slots of types `t0`, `t1` filled from the given paths. -/
theorem lines_two_slots (vec : List CStr) (t0 t1 : EventType_t) (pid : Int) (name : CStr)
    (x y : CStr) (more : List CStr) :
    (fillPaths vec (x :: y :: more) 0 [Event_t.ofType t0, Event_t.ofType t1]).flatMap
        (terseLine pid name) =
      terseLine pid name ⟨t0, some x, (isMonitoredPath false vec x).1⟩ ++
        terseLine pid name ⟨t1, some y, (isMonitoredPath false vec y).1⟩ := by
  simp [fillPaths, setPath, Event_t.ofType, fillPaths_of_le]

theorem lines_one_path (vec : List CStr) (t0 t1 : EventType_t) (pid : Int) (name : CStr)
    (x : CStr) :
    (fillPaths vec [x] 0 [Event_t.ofType t0, Event_t.ofType t1]).flatMap
        (terseLine pid name) =
      terseLine pid name ⟨t0, some x, (isMonitoredPath false vec x).1⟩ := by
  simp [fillPaths, setPath, Event_t.ofType, terseLine]

theorem lines_no_path (vec : List CStr) (t0 t1 : EventType_t) (pid : Int) (name : CStr) :
    (fillPaths vec [] 0 [Event_t.ofType t0, Event_t.ofType t1]).flatMap
        (terseLine pid name) = [] := by
  simp [fillPaths, Event_t.ofType, terseLine]

theorem terseLine_none (pid : Int) (name : CStr) (p : Option CStr) (b : Bool) :
    terseLine pid name ⟨EventType_t.NONE, p, b⟩ = [] := by
  cases b <;> simp [terseLine]

theorem terseLine_add (vec : List CStr) (pid : Int) (name : CStr) (x : CStr) :
    terseLine pid name ⟨EventType_t.ADD, some x, (isMonitoredPath false vec x).1⟩ =
      lineIfWatched vec (bytes "ADD:") x pid name := by
  cases h : (isMonitoredPath false vec x).1 <;> simp [terseLine, lineIfWatched, terseFormat, h]

theorem terseLine_del (vec : List CStr) (pid : Int) (name : CStr) (x : CStr) :
    terseLine pid name ⟨EventType_t.DELETE, some x, (isMonitoredPath false vec x).1⟩ =
      lineIfWatched vec (bytes "DEL:") x pid name := by
  cases h : (isMonitoredPath false vec x).1 <;> simp [terseLine, lineIfWatched, terseFormat, h]

theorem terseLine_chg (vec : List CStr) (pid : Int) (name : CStr) (x : CStr) :
    terseLine pid name ⟨EventType_t.CHANGE, some x, (isMonitoredPath false vec x).1⟩ =
      lineIfWatched vec (bytes "CHG:") x pid name := by
  cases h : (isMonitoredPath false vec x).1 <;> simp [terseLine, lineIfWatched, terseFormat, h]

/-- The lines of an event whose kind fills the first slot only, with type `t0`. -/
theorem lines_first_slot (vec : List CStr) (t0 : EventType_t) (pid : Int) (name : CStr)
    (paths : List CStr) :
    (fillPaths vec paths 0 [Event_t.ofType t0, Event_t.ofType EventType_t.NONE]).flatMap
        (terseLine pid name) =
      match paths with
      | [] => []
      | x :: _ => terseLine pid name ⟨t0, some x, (isMonitoredPath false vec x).1⟩ := by
  match paths with
  | [] => exact lines_no_path vec _ _ pid name
  | [x] => exact lines_one_path vec _ _ pid name x
  | x :: y :: more => rw [lines_two_slots, terseLine_none]; simp

/-! ## Lemmas on `processEventAsXml` -/

theorem xmlSafe_eq (s : CStr) : xmlSafe s = Except.ok (s.flatMap escapeByte) := by
  simp [xmlSafe, strMakeXmlSafe_eq]

theorem readU32_of_payload {buf payload rest : List Nat} {pos : Nat}
    (h : buf.drop pos = payload ++ rest) (hl : 4 ≤ payload.length) :
    ∃ v, readU32 payload 0 = some v ∧ readU32 buf pos = some v := by
  match payload, hl with
  | b0 :: b1 :: b2 :: b3 :: t, _ =>
    exact ⟨b0 + 256 * b1 + 65536 * b2 + 16777216 * b3, by simp [readU32], by simp [readU32, h]⟩

theorem readU64_of_payload {buf payload rest : List Nat} {pos : Nat}
    (h : buf.drop pos = payload ++ rest) (hl : 8 ≤ payload.length) :
    ∃ v, readU64 payload 0 = some v ∧ readU64 buf pos = some v := by
  match payload, hl with
  | b0 :: b1 :: b2 :: b3 :: b4 :: b5 :: b6 :: b7 :: t, _ =>
    have h4 : buf.drop (pos + 4) = b4 :: b5 :: b6 :: b7 :: (t ++ rest) := by
      have h0 : buf.drop pos = [b0, b1, b2, b3] ++ b4 :: b5 :: b6 :: b7 :: (t ++ rest) := by
        simpa using h
      simpa using drop_add_of_eq h0
    exact ⟨b0 + 256 * b1 + 65536 * b2 + 16777216 * b3
        + 4294967296 * (b4 + 256 * b5 + 65536 * b6 + 16777216 * b7),
      by simp [readU64, readU32], by simp [readU64, readU32, h, h4]⟩

/-- The `uid` and `gid` cases read the same from the buffer as from the payload alone. -/
theorem xmlIdArg_of_payload {buf payload rest : List Nat} {pos : Nat}
    (h : buf.drop pos = payload ++ rest) (hl : 4 ≤ payload.length) (tag : CStr)
    (lookup : Nat → CStr) (xml : XmlStrBuilder_t) :
    ∃ x, xmlIdArg payload 0 tag lookup xml = Except.ok x ∧
      xmlIdArg buf pos tag lookup xml = Except.ok x := by
  obtain ⟨v, h1, h2⟩ := readU32_of_payload h hl
  simp only [xmlIdArg, h1, h2, xmlSafe_eq]
  exact ⟨_, rfl, rfl⟩

/-- The numeric and unknown cases read the same from the buffer as from the payload alone,
and complete. -/
theorem xmlOtherArg_of_payload (c : FsEventsH) (env : Env) {buf rest : List Nat} {pos : Nat}
    (a : Arg) (hw : a.WidthOk c) (h : buf.drop pos = a.payload ++ rest) (xml : XmlStrBuilder_t) :
    ∃ x, xmlOtherArg c env a.payload 0 a.argtype a.payload.length xml = Except.ok x ∧
      xmlOtherArg c env buf pos a.argtype a.payload.length xml = Except.ok x := by
  unfold xmlOtherArg
  by_cases t1 : a.argtype = c.FSE_ARG_INT32
  · obtain ⟨v, h1, h2⟩ := readU32_of_payload h (hw.1 (Or.inl t1))
    simp only [if_pos t1, readI32, h1, h2, Option.map_some']
    exact ⟨_, rfl, rfl⟩
  simp only [if_neg t1]
  by_cases t2 : a.argtype = c.FSE_ARG_INT64
  · obtain ⟨v, h1, h2⟩ := readU64_of_payload h (hw.2 (Or.inl t2))
    simp only [if_pos t2, readI64, h1, h2, Option.map_some']
    exact ⟨_, rfl, rfl⟩
  simp only [if_neg t2]
  by_cases t3 : a.argtype = c.FSE_ARG_RAW
  · simp only [if_pos t3]
    exact ⟨_, rfl, rfl⟩
  simp only [if_neg t3]
  by_cases t4 : a.argtype = c.FSE_ARG_INO
  · obtain ⟨v, h1, h2⟩ := readU64_of_payload h (hw.2 (Or.inr t4))
    simp only [if_pos t4, h1, h2]
    exact ⟨_, rfl, rfl⟩
  simp only [if_neg t4]
  by_cases t5 : a.argtype = c.FSE_ARG_UID
  · simp only [if_pos t5]
    exact xmlIdArg_of_payload h (hw.1 (Or.inr (Or.inl t5))) _ _ xml
  simp only [if_neg t5]
  by_cases t6 : a.argtype = c.FSE_ARG_DEV
  · obtain ⟨v, h1, h2⟩ := readU32_of_payload h (hw.1 (Or.inr (Or.inr (Or.inl t6))))
    simp only [if_pos t6, h1, h2]
    exact ⟨_, rfl, rfl⟩
  simp only [if_neg t6]
  by_cases t7 : a.argtype = c.FSE_ARG_MODE
  · obtain ⟨v, h1, h2⟩ :=
      readU32_of_payload h (hw.1 (Or.inr (Or.inr (Or.inr (Or.inl t7)))))
    simp only [if_pos t7, h1, h2]
    exact ⟨_, rfl, rfl⟩
  simp only [if_neg t7]
  by_cases t8 : a.argtype = c.FSE_ARG_GID
  · simp only [if_pos t8]
    exact xmlIdArg_of_payload h (hw.1 (Or.inr (Or.inr (Or.inr (Or.inr t8))))) _ _ xml
  simp only [if_neg t8]
  exact ⟨_, rfl, rfl⟩

/-- A path case of the argument switch on a payload that holds its NUL, debug printing
off: the flag becomes true if the path is watched, the builder does not depend on the
watched paths, nothing is written. -/
theorem xmlPathArg_of_payload (vec : List CStr) {buf rest payload : List Nat} {pos : Nat}
    (h0 : 0 ∈ payload) (h : buf.drop pos = payload ++ rest) (tag : CStr) (sp : Bool)
    (xml : XmlStrBuilder_t) :
    ∃ path x, cstrOf payload = some path ∧
      xmlPathArg false [] payload 0 tag false xml = Except.ok (false, x, []) ∧
      xmlPathArg false vec buf pos tag sp xml =
        Except.ok (sp || (isMonitoredPath false vec path).1, x, []) := by
  obtain ⟨c1, c2⟩ := cstrOf_append_of_mem payload rest h0
  obtain ⟨path, hpath⟩ := Option.isSome_iff_exists.1 c2
  have hb : cstrAt buf pos = some path := by rw [cstrAt, h, c1, hpath]
  have hp : cstrAt payload 0 = some path := by rw [cstrAt, List.drop_zero, hpath]
  refine ⟨path, xml.addTagAndValue tag (path.flatMap escapeByte), hpath, ?_, ?_⟩
  · simp only [xmlPathArg, hp, xmlSafe_eq]
    simp [isMonitoredPath_fst, isMonitoredPath_snd_quiet]
  · simp only [xmlPathArg, hb, xmlSafe_eq]
    cases sp with
    | true => simp
    | false =>
      have hq := isMonitoredPath_snd_quiet vec path
      simp [hq]

/-- The argument switch of `processEventAsXml` on an encoded argument, debug printing off. -/
theorem xmlArg_of_payload (c : FsEventsH) (env : Env) (vec : List CStr) {buf rest : List Nat}
    {pos : Nat} (a : Arg) (ha : a.WellFormed c) (hw : a.WidthOk c)
    (h : buf.drop pos = a.payload ++ rest) (sp : Bool) (xml : XmlStrBuilder_t) :
    ∃ x, renderArg c env xml a = Except.ok x ∧
      xmlArg c env false vec buf pos a.argtype a.payload.length sp xml =
        Except.ok (sp || a.watched c vec, x, []) := by
  have hpath : ∀ tag : CStr, isPathArg c a.argtype = true →
      ∃ x, (match xmlPathArg false [] a.payload 0 tag false xml with
          | Except.error f => Except.error f
          | Except.ok (_, xml1, _) => Except.ok xml1) = Except.ok x ∧
        xmlPathArg false vec buf pos tag sp xml = Except.ok (sp || a.watched c vec, x, []) := by
    intro tag hp
    obtain ⟨path, x, e1, e2, e3⟩ := xmlPathArg_of_payload vec (ha.2.2.2 hp) h tag sp xml
    refine ⟨x, by rw [e2], ?_⟩
    rw [e3, Arg.watched, Arg.path?, if_pos hp, e1]
  unfold renderArg xmlArg
  by_cases t1 : a.argtype = c.FSE_ARG_VNODE
  · simp only [if_pos t1]
    exact hpath _ (by simp [isPathArg, t1])
  simp only [if_neg t1]
  by_cases t2 : a.argtype = c.FSE_ARG_STRING
  · simp only [if_pos t2]
    exact hpath _ (by simp [isPathArg, t2])
  simp only [if_neg t2]
  by_cases t3 : a.argtype = c.FSE_ARG_PATH
  · simp only [if_pos t3]
    exact hpath _ (by simp [isPathArg, t3])
  simp only [if_neg t3]
  obtain ⟨x, h1, h2⟩ := xmlOtherArg_of_payload c env a hw h xml
  refine ⟨x, by rw [h1], ?_⟩
  rw [h2]
  simp [Arg.watched, Arg.path?, isPathArg, t1, t2, t3]

theorem any_watched_eq (c : FsEventsH) (vec : List CStr) (args : List Arg) :
    args.any (Arg.watched c vec) = anyWatched vec (RawEvent.paths c ⟨0, 0, args⟩) := by
  induction args with
  | nil => rfl
  | cons a t ih =>
    rw [paths_cons, List.any_cons, ih]
    unfold anyWatched Arg.watched
    cases Arg.path? c a <;> simp

/-- The argument loop of `processEventAsXml` on encoded arguments, debug printing off: it
ends behind the end marker with `shouldPrint` raised if an argument is watched, the builder
being the one that the arguments alone determine, and nothing written. -/
theorem xmlArgs_spec (c : FsEventsH) (hD : c.FSE_ARG_DONE < 65536) (env : Env)
    (vec : List CStr) (buf : List Nat) (post : List Nat) :
    ∀ (args : List Arg) (fuel pos : Nat) (sp : Bool) (xml : XmlStrBuilder_t) (out : List CStr),
      (∀ a ∈ args, a.WellFormed c) → (∀ a ∈ args, a.WidthOk c) →
      buf.drop pos = encodeArgs args ++ u16le c.FSE_ARG_DONE ++ post →
      args.length + 1 ≤ fuel →
      ∃ x, renderArgs c env args xml = Except.ok x ∧
        xmlArgs c env false vec buf fuel pos sp xml out =
          Except.ok (pos + (encodeArgs args).length + 2, sp || args.any (Arg.watched c vec),
            x.addTagAndVararg (bytes "done") (bytes "0x" ++ fmtX c.FSE_ARG_DONE), out) := by
  intro args
  induction args with
  | nil =>
    intro fuel pos sp xml out _ _ hbuf hf
    obtain ⟨f, rfl⟩ : ∃ f, fuel = f + 1 := ⟨fuel - 1, by simp at hf; omega⟩
    have hr : readU16 buf pos = some c.FSE_ARG_DONE :=
      readU16_of_drop hD (by simpa [encodeArgs] using hbuf)
    exact ⟨xml, rfl, by simp [xmlArgs, hr, encodeArgs]⟩
  | cons a args ih =>
    intro fuel pos sp xml out hwf hwd hbuf hf
    obtain ⟨f, rfl⟩ : ∃ f, fuel = f + 1 := ⟨fuel - 1, by simp at hf; omega⟩
    have ha : a.WellFormed c := hwf a (List.mem_cons_self _ _)
    have hb2 : buf.drop pos = encodeArg a ++ (encodeArgs args ++ u16le c.FSE_ARG_DONE ++ post) := by
      rw [hbuf, encodeArgs_cons]; simp
    obtain ⟨r1, r2, r3, r4⟩ := arg_frame c ha hb2
    obtain ⟨x1, hx1, hx2⟩ := xmlArg_of_payload c env vec a ha (hwd a (List.mem_cons_self _ _))
      r3 sp xml
    obtain ⟨x, hx, hrun⟩ := ih f (pos + 2 + 2 + a.payload.length) (sp || a.watched c vec) x1 out
      (fun b hb => hwf b (List.mem_cons_of_mem _ hb))
      (fun b hb => hwd b (List.mem_cons_of_mem _ hb)) r4 (by simp at hf; omega)
    have hlen : pos + (encodeArgs (a :: args)).length + 2
        = pos + 2 + 2 + a.payload.length + (encodeArgs args).length + 2 := by
      rw [encodeArgs_cons, List.length_append, encodeArg_length]; omega
    refine ⟨x, by simp only [renderArgs, hx1, hx], ?_⟩
    simp only [xmlArgs, r1, r2, if_neg ha.2.1, hx2, List.append_nil, hrun, hlen, List.any_cons,
      Bool.or_assoc]

theorem xmlHead_eq (c : FsEventsH) (env : Env) (n k p : Int) (xml : XmlStrBuilder_t) :
    ∃ x, xmlHead c env n k p XmlStrBuilder_t.new = Except.ok x ∧
      xmlHead c env n k p xml = Except.ok x := by
  simp only [xmlHead, xmlSafe_eq]
  exact ⟨_, rfl, rfl⟩

/-- One round of the event loop of `processEventAsXml` on an encoded well-formed event,
debug printing off. -/
theorem xmlLoop_step (c : FsEventsH) (hD : c.FSE_ARG_DONE < 65536) (env : Env)
    (vec : List CStr) (buf post : List Nat) (e : RawEvent) (he : e.WellFormed c)
    (hw : e.WidthsOk c) (fuel pos : Nat) (n : Int) (xml : XmlStrBuilder_t) (out : List CStr)
    (hbuf : buf.drop pos = encodeEvent c e ++ post) :
    ∃ frag xml1, xmlFragment c env (n + 1) e = Except.ok frag ∧
      xmlLoop c env false vec buf (fuel + 1) pos n xml out =
        xmlLoop c env false vec buf fuel (pos + (encodeEvent c e).length) (n + 1) xml1
          (out ++ if anyWatched vec (e.paths c) = true then [frag] else []) := by
  obtain ⟨h1, h2, h3, h4, h5⟩ := event_frame c he hbuf
  obtain ⟨x0, hx0, hx0b⟩ := xmlHead_eq c env (n + 1) e.kind e.pid xml
  obtain ⟨x, hx, hrun⟩ := xmlArgs_spec c hD env vec buf post e.args (buf.length + 1)
    (pos + 4 + 4) false x0 out he.2.2 hw h5 (by have := length_le_encodeArgs e.args; omega)
  have hpos : pos + 4 + 4 + (encodeArgs e.args).length + 2 = pos + (encodeEvent c e).length := by
    rw [encodeEvent_length]; omega
  refine ⟨(x.addTagAndVararg (bytes "done") (bytes "0x" ++ fmtX c.FSE_ARG_DONE)).popTag.str,
    (x.addTagAndVararg (bytes "done") (bytes "0x" ++ fmtX c.FSE_ARG_DONE)).popTag,
    by simp only [xmlFragment, hx0, hx], ?_⟩
  simp only [xmlLoop, h1, if_true, h3, h4, hx0b, hrun, hpos, Bool.false_or, any_watched_eq]
  rfl

/-- `processEventAsXml` on a buffer that holds one well-formed event, debug printing off:
the call completes, the counter is incremented once, and the fragment of the event is
printed if and only if one of its path-bearing arguments is watched. -/
theorem processEventAsXml_event (c : FsEventsH) (hD : c.FSE_ARG_DONE < 65536) (env : Env)
    (st : State) (e : RawEvent) (he : e.WellFormed c) (hw : e.WidthsOk c) :
    ∃ frag, xmlFragment c env (st.eventCounter_s + 1) e = Except.ok frag ∧
      processEventAsXml c env false st (encodeEvent c e) =
        Except.ok (st.counted,
          if anyWatched st.monPathVec_s (e.paths c) = true then [frag] else []) := by
  have hlen := encodeEvent_length c e
  obtain ⟨f, hf⟩ : ∃ f, (encodeEvent c e).length = f + 1 :=
    ⟨(encodeEvent c e).length - 1, by omega⟩
  obtain ⟨frag, xml1, hfrag, hstep⟩ := xmlLoop_step c hD env st.monPathVec_s (encodeEvent c e)
    [] e he hw (f + 1) 0 st.eventCounter_s XmlStrBuilder_t.new [] (by simp)
  refine ⟨frag, hfrag, ?_⟩
  simp only [processEventAsXml]
  rw [hf] at hstep ⊢
  rw [hstep]
  simp [xmlLoop, hf, State.counted]

/-! ## Lemmas on the XML builder -/

theorem indentLoop_grows (n : Nat) : ∀ os : CStr, os <+: indentLoop n os := by
  induction n with
  | zero => intro os; exact List.prefix_refl _
  | succ n ih =>
    intro os
    exact (List.prefix_append os (bytes "  ")).trans (ih _)

theorem extends_refl (x : XmlStrBuilder_t) : x.Extends x := ⟨rfl, rfl, List.prefix_refl _⟩

theorem extends_trans {x y z : XmlStrBuilder_t} (h1 : x.Extends y) (h2 : y.Extends z) :
    x.Extends z :=
  ⟨h2.1.trans h1.1, h2.2.1.trans h1.2.1, h1.2.2.trans h2.2.2⟩

theorem extends_addTagAndValue (x : XmlStrBuilder_t) (tag str : CStr) :
    x.Extends (x.addTagAndValue tag str) := by
  refine ⟨rfl, rfl, ?_⟩
  simp only [XmlStrBuilder_t.addTagAndValue, XmlStrBuilder_t.indent, List.append_assoc]
  exact (indentLoop_grows _ _).trans (List.prefix_append _ _)

theorem extends_addTagAndVararg (x : XmlStrBuilder_t) (tag str : CStr) :
    x.Extends (x.addTagAndVararg tag str) := by
  refine ⟨rfl, rfl, ?_⟩
  simp only [XmlStrBuilder_t.addTagAndVararg, XmlStrBuilder_t.indent, List.append_assoc]
  exact (indentLoop_grows _ _).trans (List.prefix_append _ _)

theorem inside_pushTag (x : XmlStrBuilder_t) (t : CStr) : x.Inside t (x.pushTag t) := by
  refine ⟨rfl, rfl, ?_⟩
  simp only [XmlStrBuilder_t.pushTag, XmlStrBuilder_t.indent, List.append_assoc]
  exact (indentLoop_grows _ _).trans (List.prefix_append _ _)

theorem inside_step {x y z : XmlStrBuilder_t} {t : CStr} (h1 : x.Inside t y)
    (h2 : y.Extends z) : x.Inside t z :=
  ⟨h2.1.trans h1.1, h2.2.1.trans h1.2.1, h1.2.2.trans h2.2.2⟩

theorem inside_popTag {x y : XmlStrBuilder_t} {t : CStr} (h : x.Inside t y) :
    x.Extends y.popTag := by
  obtain ⟨h1, h2, h3⟩ := h
  have hl : y.tags_m.getLast? = some t := by rw [h1]; simp
  simp only [XmlStrBuilder_t.popTag, hl, XmlStrBuilder_t.indent]
  refine ⟨by simp [h1], by simp [h2], ?_⟩
  simp only [List.append_assoc]
  exact h3.trans ((indentLoop_grows _ _).trans (List.prefix_append _ _))

theorem opened_step {root : CStr} {y z : XmlStrBuilder_t}
    (h1 : XmlStrBuilder_t.Opened root y) (h2 : y.Extends z) : XmlStrBuilder_t.Opened root z :=
  ⟨h2.1.trans h1.1, h2.2.1.trans h1.2.1, h1.2.2.trans h2.2.2⟩

/-- The closing `popTag` on a builder that stands inside the root element: the output
starts with the opening tag of the root and ends with its closing tag. -/
theorem opened_popTag_str {root : CStr} {y : XmlStrBuilder_t}
    (h : XmlStrBuilder_t.Opened root y) :
    (bytes "<" ++ root ++ bytes ">" ++ bytes "\n") <+: y.popTag.str ∧
    (bytes "</" ++ root ++ bytes ">" ++ bytes "\n") <:+ y.popTag.str ∧
    y.popTag.tags_m = [] ∧ y.popTag.indent_m = 0 := by
  obtain ⟨h1, h2, h3⟩ := h
  have hl : y.tags_m.getLast? = some root := by rw [h1]; simp
  simp only [XmlStrBuilder_t.popTag, hl, XmlStrBuilder_t.indent, XmlStrBuilder_t.str, h2,
    sub_self, Int.toNat_zero, indentLoop]
  refine ⟨?_, ?_, by simp [h1], trivial⟩
  · have e : y.os_m ++ bytes "</" ++ root ++ bytes ">" ++ bytes "
"
        = y.os_m ++ (bytes "</" ++ root ++ bytes ">" ++ bytes "
") := by
      simp only [List.append_assoc]
    rw [e]
    exact h3.trans (List.prefix_append _ _)
  · have e : y.os_m ++ bytes "</" ++ root ++ bytes ">" ++ bytes "
"
        = y.os_m ++ (bytes "</" ++ root ++ bytes ">" ++ bytes "
") := by
      simp only [List.append_assoc]
    rw [e]
    exact List.suffix_append _ _

theorem extends_xmlIdArg {buf : List Nat} {pos : Nat} {tag : CStr} {lookup : Nat → CStr}
    {xml x : XmlStrBuilder_t} (h : xmlIdArg buf pos tag lookup xml = Except.ok x) :
    xml.Extends x := by
  unfold xmlIdArg at h
  cases hr : readU32 buf pos with
  | none => simp [hr] at h
  | some id =>
    simp only [hr, xmlSafe_eq, Except.ok.injEq] at h
    subst h
    exact inside_popTag (inside_step (inside_step (inside_pushTag xml tag)
      (extends_addTagAndVararg _ _ _)) (extends_addTagAndValue _ _ _))

theorem extends_xmlOtherArg {c : FsEventsH} {env : Env} {buf : List Nat}
    {pos argtype arglen : Nat} {xml x : XmlStrBuilder_t}
    (h : xmlOtherArg c env buf pos argtype arglen xml = Except.ok x) : xml.Extends x := by
  unfold xmlOtherArg at h
  split_ifs at h
  · cases hr : readI32 buf pos with
    | none => simp [hr] at h
    | some v =>
      simp only [hr, Except.ok.injEq] at h
      subst h; exact extends_addTagAndVararg _ _ _
  · cases hr : readI64 buf pos with
    | none => simp [hr] at h
    | some v =>
      simp only [hr, Except.ok.injEq] at h
      subst h; exact extends_addTagAndVararg _ _ _
  · simp only [Except.ok.injEq] at h
    subst h
    exact inside_popTag (inside_step (inside_pushTag xml _) (extends_addTagAndVararg _ _ _))
  · cases hr : readU64 buf pos with
    | none => simp [hr] at h
    | some v =>
      simp only [hr, Except.ok.injEq] at h
      subst h; exact extends_addTagAndVararg _ _ _
  · exact extends_xmlIdArg h
  · cases hr : readU32 buf pos with
    | none => simp [hr] at h
    | some v =>
      simp only [hr, Except.ok.injEq] at h
      subst h
      exact inside_popTag (inside_step (inside_step (inside_step (inside_pushTag xml _)
        (extends_addTagAndVararg _ _ _)) (extends_addTagAndVararg _ _ _))
        (extends_addTagAndVararg _ _ _))
  · cases hr : readU32 buf pos with
    | none => simp [hr] at h
    | some v =>
      simp only [hr, Except.ok.injEq] at h
      subst h
      exact inside_popTag (inside_step (inside_step (inside_step (inside_pushTag xml _)
        (extends_addTagAndVararg _ _ _)) (extends_addTagAndVararg _ _ _))
        (extends_addTagAndVararg _ _ _))
  · exact extends_xmlIdArg h
  · simp only [Except.ok.injEq] at h
    subst h; exact extends_addTagAndVararg _ _ _

theorem extends_xmlPathArg {d : Bool} {vec : List CStr} {buf : List Nat} {pos : Nat}
    {tag : CStr} {sp sp1 : Bool} {xml x : XmlStrBuilder_t} {o : List CStr}
    (h : xmlPathArg d vec buf pos tag sp xml = Except.ok (sp1, x, o)) : xml.Extends x := by
  unfold xmlPathArg at h
  cases hr : cstrAt buf pos with
  | none => simp [hr] at h
  | some path =>
    simp only [hr, xmlSafe_eq, Except.ok.injEq, Prod.mk.injEq] at h
    rw [← h.2.1]
    exact extends_addTagAndValue _ _ _

theorem extends_xmlArg {c : FsEventsH} {env : Env} {d : Bool} {vec : List CStr}
    {buf : List Nat} {pos argtype arglen : Nat} {sp sp1 : Bool} {xml x : XmlStrBuilder_t}
    {o : List CStr}
    (h : xmlArg c env d vec buf pos argtype arglen sp xml = Except.ok (sp1, x, o)) :
    xml.Extends x := by
  unfold xmlArg at h
  split_ifs at h
  · exact extends_xmlPathArg h
  · exact extends_xmlPathArg h
  · exact extends_xmlPathArg h
  · cases hr : xmlOtherArg c env buf pos argtype arglen xml with
    | error f => simp [hr] at h
    | ok x1 =>
      simp only [hr, Except.ok.injEq, Prod.mk.injEq] at h
      rw [← h.2.1]
      exact extends_xmlOtherArg hr

theorem extends_renderArgs (c : FsEventsH) (env : Env) :
    ∀ (args : List Arg) (xml x : XmlStrBuilder_t),
      renderArgs c env args xml = Except.ok x → xml.Extends x := by
  intro args
  induction args with
  | nil =>
    intro xml x h
    simp only [renderArgs, Except.ok.injEq] at h
    subst h; exact extends_refl _
  | cons a t ih =>
    intro xml x h
    simp only [renderArgs, renderArg] at h
    cases hr : xmlArg c env false [] a.payload 0 a.argtype a.payload.length false xml with
    | error f => simp [hr] at h
    | ok r =>
      obtain ⟨sp1, x1, o⟩ := r
      simp only [hr] at h
      exact extends_trans (extends_xmlArg hr) (ih x1 x h)

/-- The head of a fragment leaves the builder inside the root element. -/
theorem opened_xmlHead {c : FsEventsH} {env : Env} {n k p : Int} {xml x : XmlStrBuilder_t}
    (h : xmlHead c env n k p xml = Except.ok x) :
    XmlStrBuilder_t.Opened (xmlRootTag c k) x := by
  simp only [xmlHead, xmlSafe_eq, Except.ok.injEq] at h
  subst h
  have h0 : XmlStrBuilder_t.Opened (xmlRootTag c k) (xml.clear.pushTag (xmlRootTag c k)) := by
    refine ⟨rfl, rfl, ?_⟩
    simp [XmlStrBuilder_t.pushTag, XmlStrBuilder_t.clear, XmlStrBuilder_t.indent, indentLoop]
  refine opened_step (opened_step h0
    (extends_addTagAndVararg _ (bytes "eventNumber") (fmtD n))) ?_
  exact inside_popTag (inside_step (inside_step (inside_pushTag _ _)
    (extends_addTagAndVararg _ _ _)) (extends_addTagAndValue _ _ _))

/-- A fragment is whole: it starts with the opening tag of its root element and ends with
the closing tag of the same name. -/
theorem xmlFragment_whole {c : FsEventsH} {env : Env} {n : Int} {e : RawEvent} {frag : CStr}
    (h : xmlFragment c env n e = Except.ok frag) :
    (bytes "<" ++ xmlRootTag c e.kind ++ bytes ">" ++ bytes "\n") <+: frag ∧
    (bytes "</" ++ xmlRootTag c e.kind ++ bytes ">" ++ bytes "\n") <:+ frag := by
  unfold xmlFragment at h
  cases h1 : xmlHead c env n e.kind e.pid XmlStrBuilder_t.new with
  | error f => simp [h1] at h
  | ok x1 =>
    simp only [h1] at h
    cases h2 : renderArgs c env e.args x1 with
    | error f => simp [h2] at h
    | ok x2 =>
      simp only [h2, Except.ok.injEq] at h
      subst h
      have ho := opened_step (opened_step (opened_xmlHead h1)
        (extends_renderArgs c env _ _ _ h2))
        (extends_addTagAndVararg x2 (bytes "done") (bytes "0x" ++ fmtX c.FSE_ARG_DONE))
      exact ⟨(opened_popTag_str ho).1, (opened_popTag_str ho).2.1⟩

/-! ## The rounds allotted to the decode loops are never used up -/

theorem readU16_some_le {buf : List Nat} {pos v : Nat} (h : readU16 buf pos = some v) :
    pos + 2 ≤ buf.length := by
  unfold readU16 at h
  have hl : (buf.drop pos).length = buf.length - pos := List.length_drop _ _
  match hd : buf.drop pos, h with
  | b0 :: b1 :: t, _ =>
    rw [hd] at hl
    simp at hl
    omega

/-- The argument loop of `processEventTerse` ends, with a result behind `pos` or with a read
past the end, within the rounds that half the bytes left allow. -/
theorem terseArgs_rounds (c : FsEventsH) (d : Bool) (vec : List CStr) (buf : List Nat) :
    ∀ (fuel pos : Nat) (events : List Event_t) (idx : Nat) (out : List CStr),
      buf.length - pos < 2 * fuel →
      terseArgs c d vec buf fuel pos events idx out = Except.error Fault.readPastEnd ∨
      ∃ pos1 ev1 out1, terseArgs c d vec buf fuel pos events idx out = Except.ok (pos1, ev1, out1)
        ∧ pos < pos1 := by
  intro fuel
  induction fuel with
  | zero => intro pos events idx out h; omega
  | succ f ih =>
    intro pos events idx out h
    unfold terseArgs
    cases h1 : readU16 buf pos with
    | none => exact Or.inl rfl
    | some argtype =>
      have l1 := readU16_some_le h1
      by_cases hd : argtype = c.FSE_ARG_DONE
      · exact Or.inr ⟨pos + 2, events, out, by simp [hd], by omega⟩
      · simp only [if_neg hd]
        cases h2 : readU16 buf (pos + 2) with
        | none => exact Or.inl rfl
        | some arglen =>
          have l2 := readU16_some_le h2
          have next : ∀ (ev : List Event_t) (i : Nat) (o : List CStr),
              terseArgs c d vec buf f (pos + 2 + 2 + arglen) ev i o
                  = Except.error Fault.readPastEnd ∨
              ∃ pos1 ev1 out1, terseArgs c d vec buf f (pos + 2 + 2 + arglen) ev i o
                  = Except.ok (pos1, ev1, out1) ∧ pos < pos1 := by
            intro ev i o
            rcases ih (pos + 2 + 2 + arglen) ev i o (by omega) with h3 | ⟨p1, e1, o1, h3, h4⟩
            · exact Or.inl h3
            · exact Or.inr ⟨p1, e1, o1, h3, by omega⟩
          simp only
          split_ifs
          · cases h3 : cstrAt buf (pos + 2 + 2) with
            | none => exact Or.inl rfl
            | some path => exact next _ _ _
          · exact next _ _ _

/-- The event loop of `processEventTerse` never uses up its rounds: it completes or reads
past the end. -/
theorem terseLoop_rounds (c : FsEventsH) (env : Env) (d : Bool) (vec : List CStr)
    (buf : List Nat) :
    ∀ (fuel pos : Nat) (n : Int) (out : List CStr), buf.length - pos < fuel →
      terseLoop c env d vec buf fuel pos n out ≠ Except.error Fault.roundsExhausted := by
  intro fuel
  induction fuel with
  | zero => intro pos n out h; omega
  | succ f ih =>
    intro pos n out h
    unfold terseLoop
    split_ifs with hp
    · cases h1 : readI32 buf pos with
      | none => simp
      | some k =>
        cases h2 : readI32 buf (pos + 4) with
        | none => simp
        | some pid =>
          simp only
          rcases terseArgs_rounds c d vec buf (buf.length + 1) (pos + 4 + 4)
              (terseSwitch c k) 0 out (by omega) with h3 | ⟨p1, e1, o1, h3, h4⟩
          · rw [h3]; simp
          · rw [h3]
            exact ih p1 _ _ (by omega)
    · simp

/-- `processEventTerse` on any buffer completes or reads past the end of the buffer. -/
theorem processEventTerse_rounds (c : FsEventsH) (env : Env) (d : Bool) (st : State)
    (buf : List Nat) :
    processEventTerse c env d st buf ≠ Except.error Fault.roundsExhausted := by
  unfold processEventTerse
  have h := terseLoop_rounds c env d st.monPathVec_s buf (buf.length + 1) 0
    st.eventCounter_s [] (by omega)
  cases hr : terseLoop c env d st.monPathVec_s buf (buf.length + 1) 0 st.eventCounter_s [] with
  | error f =>
    rw [hr] at h
    simpa using h
  | ok r => simp

theorem xmlArg_rounds (c : FsEventsH) (env : Env) (d : Bool) (vec : List CStr)
    (buf : List Nat) (pos argtype arglen : Nat) (sp : Bool) (xml : XmlStrBuilder_t) :
    xmlArg c env d vec buf pos argtype arglen sp xml ≠ Except.error Fault.roundsExhausted := by
  have hpath : ∀ tag : CStr,
      xmlPathArg d vec buf pos tag sp xml ≠ Except.error Fault.roundsExhausted := by
    intro tag
    unfold xmlPathArg
    cases cstrAt buf pos with
    | none => simp
    | some path => simp [xmlSafe_eq]
  have hid : ∀ (tag : CStr) (lookup : Nat → CStr),
      xmlIdArg buf pos tag lookup xml ≠ Except.error Fault.roundsExhausted := by
    intro tag lookup
    unfold xmlIdArg
    cases readU32 buf pos with
    | none => simp
    | some v => simp [xmlSafe_eq]
  have hother : xmlOtherArg c env buf pos argtype arglen xml
      ≠ Except.error Fault.roundsExhausted := by
    unfold xmlOtherArg
    split_ifs
    · cases readI32 buf pos <;> simp
    · cases readI64 buf pos <;> simp
    · simp
    · cases readU64 buf pos <;> simp
    · exact hid _ _
    · cases readU32 buf pos <;> simp
    · cases readU32 buf pos <;> simp
    · exact hid _ _
    · simp
  unfold xmlArg
  split_ifs
  · exact hpath _
  · exact hpath _
  · exact hpath _
  · cases hr : xmlOtherArg c env buf pos argtype arglen xml with
    | error f =>
      rw [hr] at hother
      simpa using hother
    | ok x => simp

/-- The argument loop of `processEventAsXml` ends, with a result behind `pos` or with a read
past the end, within the rounds that half the bytes left allow. -/
theorem xmlArgs_rounds (c : FsEventsH) (env : Env) (d : Bool) (vec : List CStr)
    (buf : List Nat) :
    ∀ (fuel pos : Nat) (sp : Bool) (xml : XmlStrBuilder_t) (out : List CStr),
      buf.length - pos < 2 * fuel →
      xmlArgs c env d vec buf fuel pos sp xml out = Except.error Fault.readPastEnd ∨
      ∃ pos1 sp1 x1 out1, xmlArgs c env d vec buf fuel pos sp xml out
        = Except.ok (pos1, sp1, x1, out1) ∧ pos < pos1 := by
  intro fuel
  induction fuel with
  | zero => intro pos sp xml out h; omega
  | succ f ih =>
    intro pos sp xml out h
    unfold xmlArgs
    cases h1 : readU16 buf pos with
    | none => exact Or.inl rfl
    | some argtype =>
      have l1 := readU16_some_le h1
      by_cases hd : argtype = c.FSE_ARG_DONE
      · exact Or.inr ⟨pos + 2, sp,
          xml.addTagAndVararg (bytes "done") (bytes "0x" ++ fmtX argtype), out,
          by simp [hd], by omega⟩
      · simp only [if_neg hd]
        cases h2 : readU16 buf (pos + 2) with
        | none => exact Or.inl rfl
        | some arglen =>
          have l2 := readU16_some_le h2
          simp only
          cases h3 : xmlArg c env d vec buf (pos + 2 + 2) argtype arglen sp xml with
          | error e =>
            have := xmlArg_rounds c env d vec buf (pos + 2 + 2) argtype arglen sp xml
            rw [h3] at this
            cases e with
            | readPastEnd => exact Or.inl rfl
            | roundsExhausted => exact absurd rfl this
          | ok r =>
            obtain ⟨sp1, x1, o1⟩ := r
            simp only
            rcases ih (pos + 2 + 2 + arglen) sp1 x1 (out ++ o1) (by omega)
              with h4 | ⟨p1, s1, y1, u1, h4, h5⟩
            · exact Or.inl h4
            · exact Or.inr ⟨p1, s1, y1, u1, h4, by omega⟩

/-- The event loop of `processEventAsXml` never uses up its rounds. -/
theorem xmlLoop_rounds (c : FsEventsH) (env : Env) (d : Bool) (vec : List CStr)
    (buf : List Nat) :
    ∀ (fuel pos : Nat) (n : Int) (xml : XmlStrBuilder_t) (out : List CStr),
      buf.length - pos < fuel →
      xmlLoop c env d vec buf fuel pos n xml out ≠ Except.error Fault.roundsExhausted := by
  intro fuel
  induction fuel with
  | zero => intro pos n xml out h; omega
  | succ f ih =>
    intro pos n xml out h
    unfold xmlLoop
    split_ifs with hp
    · cases h1 : readI32 buf pos with
      | none => simp
      | some k =>
        cases h2 : readI32 buf (pos + 4) with
        | none => simp
        | some pid =>
          obtain ⟨x0, -, hx0⟩ := xmlHead_eq c env (n + 1) k pid xml
          simp only [hx0]
          rcases xmlArgs_rounds c env d vec buf (buf.length + 1) (pos + 4 + 4) false x0 out
              (by omega) with h3 | ⟨p1, s1, y1, o1, h3, h4⟩
          · rw [h3]; simp
          · rw [h3]
            exact ih p1 _ _ _ (by omega)
    · simp

/-- `processEventAsXml` on any buffer completes or reads past the end of the buffer. -/
theorem processEventAsXml_rounds (c : FsEventsH) (env : Env) (d : Bool) (st : State)
    (buf : List Nat) :
    processEventAsXml c env d st buf ≠ Except.error Fault.roundsExhausted := by
  unfold processEventAsXml
  have h := xmlLoop_rounds c env d st.monPathVec_s buf (buf.length + 1) 0
    st.eventCounter_s XmlStrBuilder_t.new [] (by omega)
  cases hr : xmlLoop c env d st.monPathVec_s buf (buf.length + 1) 0 st.eventCounter_s
      XmlStrBuilder_t.new [] with
  | error f =>
    rw [hr] at h
    simpa using h
  | ok r => simp

/-! ## Lemmas on sequences of commands -/

theorem cstrOf_some {l : List Nat} {s : CStr} (h : cstrOf l = some s) :
    ∃ rest, l = s ++ 0 :: rest ∧ 0 ∉ s := by
  induction l generalizing s with
  | nil => simp [cstrOf] at h
  | cons b t ih =>
    by_cases hb : b = 0
    · simp only [cstrOf, hb, if_true, Option.some.injEq] at h
      subst h
      exact ⟨t, by simp [hb], by simp⟩
    · simp only [cstrOf, hb, if_false, Option.map_eq_some'] at h
      obtain ⟨u, hu, rfl⟩ := h
      obtain ⟨rest, h1, h2⟩ := ih hu
      refine ⟨rest, by rw [h1]; simp, ?_⟩
      intro hmem
      rcases List.mem_cons.1 hmem with h0 | h0
      · exact hb h0.symm
      · exact h2 h0

/-- Every call of `processInputCmd` that returns leaves the counter as it was, makes the
vector a copy of the set, and has left the set alone, cleared it, or inserted or erased one
path stripped of its trailing slashes. -/
theorem processInputCmd_returned {d : Bool} {st st1 : State} {line : List Nat}
    {out : List CStr} (h : processInputCmd d st line = CmdResult.returned st1 out) :
    st1.monPathVec_s = st1.monPathSet_s ∧ st1.eventCounter_s = st.eventCounter_s ∧
      (st1.monPathSet_s = st.monPathSet_s ∨ st1.monPathSet_s = [] ∨
        ∃ P : CStr, st1.monPathSet_s = setInsert (stripSlashes P) st.monPathSet_s ∨
          st1.monPathSet_s = setErase (stripSlashes P) st.monPathSet_s) := by
  cases hc : cstrAt line 0 with
  | none => simp [processInputCmd, hc] at h
  | some cmd =>
    obtain ⟨rest, hline, h0⟩ := cstrOf_some (by simpa [cstrAt] using hc)
    by_cases ha : cmd.take 4 = bytes "add:"
    · have hcmd : cmd = bytes "add:" ++ cmd.drop 4 := by
        rw [← ha, List.take_append_drop]
      have hP : 0 ∉ cmd.drop 4 := fun hm => h0 (List.mem_of_mem_drop hm)
      rw [hline, hcmd, processInputCmd_add d st _ rest hP, regenerate] at h
      simp only [CmdResult.returned.injEq] at h
      obtain ⟨h1, -⟩ := h
      subst h1
      exact ⟨rfl, rfl, Or.inr (Or.inr ⟨cmd.drop 4, Or.inl rfl⟩)⟩
    · by_cases hd : cmd.take 4 = bytes "del:"
      · have hcmd : cmd = bytes "del:" ++ cmd.drop 4 := by
          rw [← hd, List.take_append_drop]
        have hP : 0 ∉ cmd.drop 4 := fun hm => h0 (List.mem_of_mem_drop hm)
        rw [hline, hcmd, processInputCmd_del d st _ rest hP, regenerate] at h
        simp only [CmdResult.returned.injEq] at h
        obtain ⟨h1, -⟩ := h
        subst h1
        exact ⟨rfl, rfl, Or.inr (Or.inr ⟨cmd.drop 4, Or.inr rfl⟩)⟩
      · simp only [processInputCmd, hc, if_neg ha, if_neg hd] at h
        split_ifs at h
        · simp only [regenerate, CmdResult.returned.injEq] at h
          obtain ⟨h1, -⟩ := h
          subst h1
          exact ⟨rfl, rfl, Or.inr (Or.inl rfl)⟩
        · simp only [regenerate, CmdResult.returned.injEq] at h
          obtain ⟨h1, -⟩ := h
          subst h1
          exact ⟨rfl, rfl, Or.inl rfl⟩

/-- A line that is none of the four commands: the call returns, the set is left alone and
the vector becomes a copy of it. -/
theorem processInputCmd_other (d : Bool) (st : State) (line : List Nat) (cmd : CStr)
    (hcmd : cstrAt line 0 = some cmd) (h1 : cmd.take 4 ≠ bytes "add:")
    (h2 : cmd.take 4 ≠ bytes "del:") (h3 : cmd ≠ bytes "clr") (h4 : cmd ≠ bytes "die") :
    ∃ out, processInputCmd d st line =
      CmdResult.returned ⟨st.monPathSet_s, st.monPathSet_s, st.eventCounter_s⟩ out := by
  simp only [processInputCmd, hcmd, if_neg h1, if_neg h2, if_neg h3, if_neg h4, regenerate]
  exact ⟨_, rfl⟩

/-- An invariant of the watched set and its vector that the initial state has and every
returning call of `processInputCmd` keeps holds after any sequence of calls. -/
theorem processInputCmds_invariant (d : Bool) (I : State → Prop)
    (hstep : ∀ (st st1 : State) (line : List Nat) (out : List CStr), I st →
      processInputCmd d st line = CmdResult.returned st1 out → I st1) :
    ∀ (lines : List (List Nat)) (st0 st : State), I st0 →
      processInputCmds d st0 lines = some st → I st := by
  intro lines
  induction lines with
  | nil =>
    intro st0 st h0 h
    simp only [processInputCmds, Option.some.injEq] at h
    exact h ▸ h0
  | cons line rest ih =>
    intro st0 st h0 h
    simp only [processInputCmds] at h
    cases hr : processInputCmd d st0 line with
    | returned st1 out =>
      rw [hr] at h
      exact ih st1 st (hstep st0 st1 line out h0 hr) h
    | exited out => rw [hr] at h; simp at h
    | fault => rw [hr] at h; simp at h

theorem strLt_trans : ∀ (x y z : CStr), strLt x y = true → strLt y z = true →
    strLt x z = true
  | [], [], _, h, _ => by simp [strLt] at h
  | [], _ :: _, [], _, h => by simp [strLt] at h
  | [], _ :: _, _ :: _, _, _ => by simp [strLt]
  | _ :: _, [], _, h, _ => by simp [strLt] at h
  | _ :: _, _ :: _, [], _, h => by simp [strLt] at h
  | a :: s, b :: t, e :: u, h1, h2 => by
    simp only [strLt] at h1 h2 ⊢
    by_cases hab : a < b
    · by_cases hbe : b < e
      · have : a < e := by omega
        simp [this]
      · have hbe2 : ¬ e < b := by
          intro hlt; simp [hbe, hlt] at h2
        have : a < e := by omega
        simp [this]
    · have hba : ¬ b < a := by
        intro hlt; simp [hab, hlt] at h1
      have e1 : a = b := by omega
      subst e1
      simp only [lt_self_iff_false, if_false] at h1
      by_cases hae : a < e
      · simp [hae]
      · have hea : ¬ e < a := by
          intro hlt; simp [hae, hlt] at h2
        simp only [hae, hea, if_false] at h2 ⊢
        exact strLt_trans s t u h1 h2

theorem strictAsc_setInsert (x : CStr) (ys : List CStr) (h : StrictAsc ys) :
    StrictAsc (setInsert x ys) := by
  unfold StrictAsc at h ⊢
  induction ys with
  | nil => simp [setInsert]
  | cons y ys ih =>
    obtain ⟨hy, hys⟩ := List.pairwise_cons.1 h
    unfold setInsert
    split_ifs with h1 h2
    · refine List.pairwise_cons.2 ⟨?_, h⟩
      intro z hz
      rcases List.mem_cons.1 hz with rfl | hz
      · exact h1
      · exact strLt_trans x y z h1 (hy z hz)
    · refine List.pairwise_cons.2 ⟨?_, ih hys⟩
      intro z hz
      rcases (mem_setInsert x z ys).1 hz with rfl | hz
      · exact h2
      · exact hy z hz
    · exact h

theorem strictAsc_setErase (x : CStr) (ys : List CStr) (h : StrictAsc ys) :
    StrictAsc (setErase x ys) :=
  List.Pairwise.filter _ h

theorem strictAsc_nodup (l : List CStr) (h : StrictAsc l) : l.Nodup := by
  unfold StrictAsc at h
  refine List.Pairwise.imp ?_ h
  intro a b hab hEq
  subst hEq
  simp [strLt_irrefl] at hab

theorem noTrailingSlash_stripSlashes (P : CStr) : NoTrailingSlash (stripSlashes P) := by
  intro h
  exact rdropWhile_getLast_ne slash P slash (by simpa [stripSlashes] using h) rfl

/-! ## Lemmas comparing the two formatters -/

theorem mem_setPath {p : CStr} {w : Bool} {e0 : Event_t} :
    ∀ {i : Nat} {evs : List Event_t}, e0 ∈ setPath p w i evs →
      e0 ∈ evs ∨ e0.printRequired_m = w
  | _, [], h => by simp [setPath] at h
  | 0, e :: es, h => by
    simp only [setPath, List.mem_cons] at h
    rcases h with rfl | h
    · exact Or.inr rfl
    · exact Or.inl (List.mem_cons_of_mem _ h)
  | i + 1, e :: es, h => by
    simp only [setPath, List.mem_cons] at h
    rcases h with rfl | h
    · exact Or.inl (List.mem_cons_self _ _)
    · rcases mem_setPath h with h1 | h1
      · exact Or.inl (List.mem_cons_of_mem _ h1)
      · exact Or.inr h1

/-- An element of the filled array that asks for printing was filled with a watched path,
or asked for printing before. -/
theorem fillPaths_printRequired (vec : List CStr) :
    ∀ (ps : List CStr) (i : Nat) (evs : List Event_t) (e0 : Event_t),
      e0 ∈ fillPaths vec ps i evs → e0.printRequired_m = true →
      (∃ e1 ∈ evs, e1.printRequired_m = true) ∨ anyWatched vec ps = true := by
  intro ps
  induction ps with
  | nil =>
    intro i evs e0 h hp
    exact Or.inl ⟨e0, by simpa [fillPaths] using h, hp⟩
  | cons p ps ih =>
    intro i evs e0 h hp
    unfold fillPaths at h
    split_ifs at h with hi
    · rcases ih (i + 1) _ e0 h hp with ⟨e1, h1, h2⟩ | h1
      · rcases mem_setPath h1 with h3 | h3
        · exact Or.inl ⟨e1, h3, h2⟩
        · right
          rw [h2] at h3
          simp [anyWatched, ← h3]
      · right
        simp only [anyWatched, List.any_cons, Bool.or_eq_true] at h1 ⊢
        exact Or.inr h1
    · exact Or.inl ⟨e0, h, hp⟩

theorem terseSwitch_printRequired (c : FsEventsH) (k : Int) :
    ∀ e0 ∈ terseSwitch c k, e0.printRequired_m = false := by
  intro e0 h
  unfold terseSwitch at h
  split_ifs at h <;> simp [Event_t.ofType] at h <;> rcases h with rfl | rfl <;> rfl

/-- A terse line for an event means that one of its paths is watched. -/
theorem terseLines_ne_nil (c : FsEventsH) (env : Env) (vec : List CStr) (e : RawEvent)
    (h : terseLines c env vec e ≠ []) : anyWatched vec (e.paths c) = true := by
  unfold terseLines at h
  obtain ⟨e0, hmem, hline⟩ : ∃ e0 ∈ fillPaths vec (e.paths c) 0 (terseSwitch c e.kind),
      terseLine e.pid (env.getProcessName e.pid) e0 ≠ [] := by
    by_contra hno
    push_neg at hno
    exact h (List.flatMap_eq_nil_iff.2 hno)
  have hp : e0.printRequired_m = true := by
    by_contra hf
    simp only [Bool.not_eq_true] at hf
    exact hline (by simp [terseLine, hf])
  rcases fillPaths_printRequired vec _ 0 _ e0 hmem hp with ⟨e1, h1, h2⟩ | h1
  · rw [terseSwitch_printRequired c e.kind e1 h1] at h2
    exact absurd h2 (by simp)
  · exact h1

/-- The tags of the root element for the labels of the header. -/
theorem xmlRootTag_table (c : FsEventsH) (hc : c.Valid) :
    xmlRootTag c c.FSE_CREATE_FILE = bytes "create-file" ∧
    xmlRootTag c c.FSE_DELETE = bytes "delete" ∧
    xmlRootTag c c.FSE_STAT_CHANGED = bytes "stat-changed" ∧
    xmlRootTag c c.FSE_RENAME = bytes "rename" ∧
    xmlRootTag c c.FSE_CONTENT_MODIFIED = bytes "content-modified" ∧
    xmlRootTag c c.FSE_EXCHANGE = bytes "exchange" ∧
    xmlRootTag c c.FSE_FINDER_INFO_CHANGED = bytes "finder-info-changed" ∧
    xmlRootTag c c.FSE_CREATE_DIR = bytes "create-dir" ∧
    xmlRootTag c c.FSE_CHOWN = bytes "chown" ∧
    xmlRootTag c c.FSE_INVALID = bytes "invalid" := by
  obtain ⟨hE, -, -⟩ := hc
  simp only [FsEventsH.eventLabels, List.nodup_cons, List.mem_cons, List.mem_singleton,
    not_or, List.not_mem_nil, not_false_eq_true, List.nodup_nil, and_true] at hE
  obtain ⟨⟨a1, a2, a3, a4, a5, a6, a7, a8, a9⟩, ⟨b2, b3, b4, b5, b6, b7, b8, b9⟩,
    ⟨d3, d4, d5, d6, d7, d8, d9⟩, ⟨e4, e5, e6, e7, e8, e9⟩, ⟨f5, f6, f7, f8, f9⟩,
    ⟨g6, g7, g8, g9⟩, ⟨h7, h8, h9⟩, ⟨i8, i9⟩, j9⟩ := hE
  refine ⟨?_, ?_, ?_, ?_, ?_, ?_, ?_, ?_, ?_, ?_⟩ <;>
    simp [xmlRootTag, *, Ne.symm a1, Ne.symm a2, Ne.symm a3, Ne.symm a4, Ne.symm a5,
      Ne.symm a6, Ne.symm a7, Ne.symm a8, Ne.symm a9, Ne.symm b2, Ne.symm b3, Ne.symm b4,
      Ne.symm b5, Ne.symm b6, Ne.symm b7, Ne.symm b8, Ne.symm b9, Ne.symm d3, Ne.symm d4,
      Ne.symm d5, Ne.symm d6, Ne.symm d7, Ne.symm d8, Ne.symm d9, Ne.symm e4, Ne.symm e5,
      Ne.symm e6, Ne.symm e7, Ne.symm e8, Ne.symm e9, Ne.symm f5, Ne.symm f6, Ne.symm f7,
      Ne.symm f8, Ne.symm f9, Ne.symm g6, Ne.symm g7, Ne.symm g8, Ne.symm g9, Ne.symm h7,
      Ne.symm h8, Ne.symm h9, Ne.symm i8, Ne.symm i9, Ne.symm j9]

theorem xmlRootTag_other (c : FsEventsH) (k : Int) (h : k ∉ c.eventLabels) :
    xmlRootTag c k = bytes "invalid" := by
  simp only [FsEventsH.eventLabels, List.mem_cons, List.mem_singleton, not_or,
    List.not_mem_nil, not_false_eq_true, and_true] at h
  obtain ⟨h1, h2, h3, h4, h5, h6, h7, h8, h9, -⟩ := h
  simp [xmlRootTag, h1, h2, h3, h4, h5, h6, h7, h8, h9]

/-! ## The traced XML loops are the XML loops -/

theorem xmlArgsTrace_erase (c : FsEventsH) (env : Env) (d : Bool) (vec : List CStr)
    (buf : List Nat) :
    ∀ (fuel pos : Nat) (sp : Bool) (xml : XmlStrBuilder_t) (out : List CStr) (seen : List Arg),
      xmlArgs c env d vec buf fuel pos sp xml out =
        match xmlArgsTrace c env d vec buf fuel pos sp xml out seen with
        | Except.error f => Except.error f
        | Except.ok (p, s, x, o, _) => Except.ok (p, s, x, o) := by
  intro fuel
  induction fuel with
  | zero => intro pos sp xml out seen; rfl
  | succ f ih =>
    intro pos sp xml out seen
    unfold xmlArgs xmlArgsTrace
    cases readU16 buf pos with
    | none => rfl
    | some argtype =>
      simp only
      split_ifs
      · rfl
      · cases readU16 buf (pos + 2) with
        | none => rfl
        | some arglen =>
          simp only
          cases xmlArg c env d vec buf (pos + 2 + 2) argtype arglen sp xml with
          | error e => rfl
          | ok r =>
            obtain ⟨sp1, x1, o1⟩ := r
            exact ih _ _ _ _ _

theorem xmlLoopTrace_erase (c : FsEventsH) (env : Env) (d : Bool) (vec : List CStr)
    (buf : List Nat) :
    ∀ (fuel pos : Nat) (n : Int) (xml : XmlStrBuilder_t) (out : List CStr)
      (seen : List (Int × RawEvent)),
      xmlLoop c env d vec buf fuel pos n xml out =
        untrace (xmlLoopTrace c env d vec buf fuel pos n xml out seen) := by
  intro fuel
  induction fuel with
  | zero => intro pos n xml out seen; rfl
  | succ f ih =>
    intro pos n xml out seen
    unfold xmlLoop xmlLoopTrace
    split_ifs
    · cases readI32 buf pos with
      | none => rfl
      | some k =>
        cases readI32 buf (pos + 4) with
        | none => rfl
        | some pid =>
          simp only
          cases xmlHead c env (n + 1) k pid xml with
          | error e => rfl
          | ok x1 =>
            simp only
            rw [xmlArgsTrace_erase c env d vec buf (buf.length + 1) (pos + 4 + 4) false x1 out []]
            cases xmlArgsTrace c env d vec buf (buf.length + 1) (pos + 4 + 4) false x1 out [] with
            | error e => rfl
            | ok r =>
              obtain ⟨p1, s1, x2, o1, args⟩ := r
              exact ih _ _ _ _ _
    · rfl

/-- The traced pass is the pass: without its record, `processEventAsXmlTrace` is
`processEventAsXml`, on every buffer and in every state. -/
theorem processEventAsXmlTrace_erase (c : FsEventsH) (env : Env) (d : Bool) (st : State)
    (buf : List Nat) :
    processEventAsXml c env d st buf = untrace (processEventAsXmlTrace c env d st buf) := by
  unfold processEventAsXml processEventAsXmlTrace
  rw [xmlLoopTrace_erase c env d st.monPathVec_s buf (buf.length + 1) 0 st.eventCounter_s
    XmlStrBuilder_t.new [] []]
  cases xmlLoopTrace c env d st.monPathVec_s buf (buf.length + 1) 0 st.eventCounter_s
      XmlStrBuilder_t.new [] [] with
  | error e => rfl
  | ok r =>
    obtain ⟨n, o, sn, p⟩ := r
    rfl

/-! ## Lemmas on buffers of several events -/

theorem encodeEvents_cons (c : FsEventsH) (e : RawEvent) (es : List RawEvent) :
    encodeEvents c (e :: es) = encodeEvent c e ++ encodeEvents c es := by
  simp [encodeEvents]

theorem length_le_encodeEvents (c : FsEventsH) (es : List RawEvent) :
    es.length ≤ (encodeEvents c es).length := by
  induction es with
  | nil => simp [encodeEvents]
  | cons e t ih =>
    rw [encodeEvents_cons, List.length_append, encodeEvent_length, List.length_cons]
    omega

theorem fragmentOf_eq {c : FsEventsH} {env : Env} {n : Int} {e : RawEvent} {frag : CStr}
    (h : xmlFragment c env n e = Except.ok frag) : fragmentOf c env n e = frag := by
  simp [fragmentOf, h]

/-- The event loop of `processEventTerse` on a buffer that ends with encoded well-formed
events, debug printing off: it completes, having counted the events and printed their
lines in arrival order. -/
theorem terseLoop_events (c : FsEventsH) (hD : c.FSE_ARG_DONE < 65536) (env : Env)
    (vec : List CStr) (buf : List Nat) :
    ∀ (es : List RawEvent) (fuel pos : Nat) (n : Int) (out : List CStr),
      (∀ e ∈ es, e.WellFormed c) → buf.drop pos = encodeEvents c es →
      es.length + 1 ≤ fuel →
      terseLoop c env false vec buf fuel pos n out =
        Except.ok (n + es.length, out ++ terseLinesAll c env vec es) := by
  intro es
  induction es with
  | nil =>
    intro fuel pos n out _ hbuf hf
    obtain ⟨f, rfl⟩ : ∃ f, fuel = f + 1 := ⟨fuel - 1, by omega⟩
    have hpos : ¬ pos < buf.length := by
      have := congrArg List.length hbuf
      simp [encodeEvents] at this
      omega
    simp [terseLoop, hpos, terseLinesAll]
  | cons e es ih =>
    intro fuel pos n out hwf hbuf hf
    obtain ⟨f, rfl⟩ : ∃ f, fuel = f + 1 := ⟨fuel - 1, by simp at hf; omega⟩
    rw [encodeEvents_cons] at hbuf
    rw [terseLoop_step c hD env vec buf (encodeEvents c es) e (hwf e (List.mem_cons_self _ _))
      f pos n out hbuf]
    rw [ih f _ (n + 1) _ (fun x hx => hwf x (List.mem_cons_of_mem _ hx)) (drop_add_of_eq hbuf)
      (by simp at hf; omega)]
    simp only [terseLinesAll, List.flatMap_cons, List.append_assoc, List.length_cons,
      Nat.cast_add, Nat.cast_one]
    congr 2
    omega

/-- `processEventTerse` on a buffer that holds well-formed events back to back, debug
printing off. -/
theorem processEventTerse_events (c : FsEventsH) (hD : c.FSE_ARG_DONE < 65536) (env : Env)
    (st : State) (es : List RawEvent) (hwf : ∀ e ∈ es, e.WellFormed c) :
    processEventTerse c env false st (encodeEvents c es) =
      Except.ok (st.countedBy es.length, terseLinesAll c env st.monPathVec_s es) := by
  unfold processEventTerse
  rw [terseLoop_events c hD env st.monPathVec_s (encodeEvents c es) es _ 0 st.eventCounter_s []
    hwf (by simp) (by have := length_le_encodeEvents c es; omega)]
  simp [State.countedBy]

/-- The traced argument loop of `processEventAsXml` on encoded arguments, debug printing
off: as `xmlArgs_spec`, and the arguments met are the encoded ones. -/
theorem xmlArgsTrace_spec (c : FsEventsH) (hD : c.FSE_ARG_DONE < 65536) (env : Env)
    (vec : List CStr) (buf : List Nat) (post : List Nat) :
    ∀ (args : List Arg) (fuel pos : Nat) (sp : Bool) (xml : XmlStrBuilder_t) (out : List CStr)
      (seen : List Arg),
      (∀ a ∈ args, a.WellFormed c) → (∀ a ∈ args, a.WidthOk c) →
      buf.drop pos = encodeArgs args ++ u16le c.FSE_ARG_DONE ++ post →
      args.length + 1 ≤ fuel →
      ∃ x, renderArgs c env args xml = Except.ok x ∧
        xmlArgsTrace c env false vec buf fuel pos sp xml out seen =
          Except.ok (pos + (encodeArgs args).length + 2, sp || args.any (Arg.watched c vec),
            x.addTagAndVararg (bytes "done") (bytes "0x" ++ fmtX c.FSE_ARG_DONE), out,
            seen ++ args) := by
  intro args
  induction args with
  | nil =>
    intro fuel pos sp xml out seen _ _ hbuf hf
    obtain ⟨f, rfl⟩ : ∃ f, fuel = f + 1 := ⟨fuel - 1, by simp at hf; omega⟩
    have hr : readU16 buf pos = some c.FSE_ARG_DONE :=
      readU16_of_drop hD (by simpa [encodeArgs] using hbuf)
    exact ⟨xml, rfl, by simp [xmlArgsTrace, hr, encodeArgs]⟩
  | cons a args ih =>
    intro fuel pos sp xml out seen hwf hwd hbuf hf
    obtain ⟨f, rfl⟩ : ∃ f, fuel = f + 1 := ⟨fuel - 1, by simp at hf; omega⟩
    have ha : a.WellFormed c := hwf a (List.mem_cons_self _ _)
    have hb2 : buf.drop pos = encodeArg a ++ (encodeArgs args ++ u16le c.FSE_ARG_DONE ++ post) := by
      rw [hbuf, encodeArgs_cons]; simp
    obtain ⟨r1, r2, r3, r4⟩ := arg_frame c ha hb2
    obtain ⟨x1, hx1, hx2⟩ := xmlArg_of_payload c env vec a ha (hwd a (List.mem_cons_self _ _))
      r3 sp xml
    have htake : (buf.drop (pos + 2 + 2)).take a.payload.length = a.payload := by
      rw [r3, List.take_left]
    obtain ⟨x, hx, hrun⟩ := ih f (pos + 2 + 2 + a.payload.length) (sp || a.watched c vec) x1 out
      (seen ++ [a])
      (fun b hb => hwf b (List.mem_cons_of_mem _ hb))
      (fun b hb => hwd b (List.mem_cons_of_mem _ hb)) r4 (by simp at hf; omega)
    have hlen : pos + (encodeArgs (a :: args)).length + 2
        = pos + 2 + 2 + a.payload.length + (encodeArgs args).length + 2 := by
      rw [encodeArgs_cons, List.length_append, encodeArg_length]; omega
    refine ⟨x, by simp only [renderArgs, hx1, hx], ?_⟩
    simp only [xmlArgsTrace, r1, r2, if_neg ha.2.1, hx2, List.append_nil, htake, hrun, hlen,
      List.any_cons, Bool.or_assoc, List.append_assoc, List.singleton_append]

/-- One round of the traced event loop of `processEventAsXml` on an encoded well-formed
event, debug printing off. -/
theorem xmlLoopTrace_step (c : FsEventsH) (hD : c.FSE_ARG_DONE < 65536) (env : Env)
    (vec : List CStr) (buf post : List Nat) (e : RawEvent) (he : e.WellFormed c)
    (hw : e.WidthsOk c) (fuel pos : Nat) (n : Int) (xml : XmlStrBuilder_t) (out : List CStr)
    (seen : List (Int × RawEvent)) (hbuf : buf.drop pos = encodeEvent c e ++ post) :
    ∃ frag xml1, xmlFragment c env (n + 1) e = Except.ok frag ∧
      xmlLoopTrace c env false vec buf (fuel + 1) pos n xml out seen =
        xmlLoopTrace c env false vec buf fuel (pos + (encodeEvent c e).length) (n + 1) xml1
          (out ++ if anyWatched vec (e.paths c) = true then [frag] else [])
          (seen ++ [(n + 1, e)]) := by
  obtain ⟨h1, h2, h3, h4, h5⟩ := event_frame c he hbuf
  obtain ⟨x0, hx0, hx0b⟩ := xmlHead_eq c env (n + 1) e.kind e.pid xml
  obtain ⟨x, hx, hrun⟩ := xmlArgsTrace_spec c hD env vec buf post e.args (buf.length + 1)
    (pos + 4 + 4) false x0 out [] he.2.2 hw h5 (by have := length_le_encodeArgs e.args; omega)
  have hpos : pos + 4 + 4 + (encodeArgs e.args).length + 2 = pos + (encodeEvent c e).length := by
    rw [encodeEvent_length]; omega
  refine ⟨(x.addTagAndVararg (bytes "done") (bytes "0x" ++ fmtX c.FSE_ARG_DONE)).popTag.str,
    (x.addTagAndVararg (bytes "done") (bytes "0x" ++ fmtX c.FSE_ARG_DONE)).popTag,
    by simp only [xmlFragment, hx0, hx], ?_⟩
  simp only [xmlLoopTrace, h1, if_true, h3, h4, hx0b, hrun, hpos, Bool.false_or, any_watched_eq,
    List.nil_append]
  rfl

/-- The traced event loop of `processEventAsXml` on a buffer that ends with encoded
well-formed events, debug printing off: it completes with the cursor at the end of the
buffer, having met exactly these events, numbered them in arrival order and printed the
fragments of those with a watched path. -/
theorem xmlLoopTrace_events (c : FsEventsH) (hD : c.FSE_ARG_DONE < 65536) (env : Env)
    (vec : List CStr) (buf : List Nat) :
    ∀ (es : List RawEvent) (fuel pos : Nat) (n : Int) (xml : XmlStrBuilder_t)
      (out : List CStr) (seen : List (Int × RawEvent)),
      (∀ e ∈ es, e.WellFormed c) → (∀ e ∈ es, e.WidthsOk c) →
      buf.drop pos = encodeEvents c es → pos ≤ buf.length → es.length + 1 ≤ fuel →
      (∀ (i : Nat) (e : RawEvent), es[i]? = some e →
        xmlFragment c env (n + i + 1) e = Except.ok (fragmentOf c env (n + i + 1) e)) ∧
      xmlLoopTrace c env false vec buf fuel pos n xml out seen =
        Except.ok (n + es.length, out ++ xmlOut c env vec n es, seen ++ numbered n es,
          buf.length) := by
  intro es
  induction es with
  | nil =>
    intro fuel pos n xml out seen _ _ hbuf hle hf
    obtain ⟨f, rfl⟩ : ∃ f, fuel = f + 1 := ⟨fuel - 1, by omega⟩
    have hlen := congrArg List.length hbuf
    simp [encodeEvents] at hlen
    have hpos : ¬ pos < buf.length := by omega
    have hp : pos = buf.length := by omega
    refine ⟨by intro i e h; simp at h, ?_⟩
    simp [xmlLoopTrace, hpos, xmlOut, numbered, hp]
  | cons e es ih =>
    intro fuel pos n xml out seen hwf hwd hbuf hle hf
    obtain ⟨f, rfl⟩ : ∃ f, fuel = f + 1 := ⟨fuel - 1, by simp at hf; omega⟩
    rw [encodeEvents_cons] at hbuf
    obtain ⟨frag, xml1, hfrag, hstep⟩ := xmlLoopTrace_step c hD env vec buf (encodeEvents c es) e
      (hwf e (List.mem_cons_self _ _)) (hwd e (List.mem_cons_self _ _)) f pos n xml out seen hbuf
    have hl := congrArg List.length hbuf
    rw [List.length_drop, List.length_append] at hl
    obtain ⟨ih1, ih2⟩ := ih f (pos + (encodeEvent c e).length) (n + 1) xml1
      (out ++ if anyWatched vec (e.paths c) = true then [frag] else []) (seen ++ [(n + 1, e)])
      (fun x hx => hwf x (List.mem_cons_of_mem _ hx))
      (fun x hx => hwd x (List.mem_cons_of_mem _ hx)) (drop_add_of_eq hbuf) (by omega)
      (by simp at hf; omega)
    constructor
    · intro i x hi
      cases i with
      | zero =>
        simp only [List.getElem?_cons_zero, Option.some.injEq] at hi
        subst hi
        simp only [Nat.cast_zero, add_zero]
        rw [hfrag, fragmentOf_eq hfrag]
      | succ j =>
        simp only [List.getElem?_cons_succ] at hi
        have := ih1 j x hi
        have e1 : n + ((j + 1 : Nat) : Int) + 1 = n + 1 + (j : Int) + 1 := by push_cast; ring
        rw [e1]
        exact this
    · rw [hstep, ih2]
      simp only [xmlOut, numbered, fragmentOf_eq hfrag, List.append_assoc, List.length_cons,
        Nat.cast_add, Nat.cast_one, List.singleton_append]
      congr 2
      omega

/-- `processEventAsXmlTrace` on a buffer that holds well-formed events back to back, debug
printing off. -/
theorem processEventAsXmlTrace_events (c : FsEventsH) (hD : c.FSE_ARG_DONE < 65536)
    (env : Env) (st : State) (es : List RawEvent) (hwf : ∀ e ∈ es, e.WellFormed c)
    (hwd : ∀ e ∈ es, e.WidthsOk c) :
    processEventAsXmlTrace c env false st (encodeEvents c es) =
      Except.ok (st.countedBy es.length, xmlOut c env st.monPathVec_s st.eventCounter_s es,
        numbered st.eventCounter_s es, (encodeEvents c es).length) := by
  unfold processEventAsXmlTrace
  rw [(xmlLoopTrace_events c hD env st.monPathVec_s (encodeEvents c es) es _ 0
    st.eventCounter_s XmlStrBuilder_t.new [] [] hwf hwd (by simp) (Nat.zero_le _)
    (by have := length_le_encodeEvents c es; omega)).2]
  simp [State.countedBy]

/-- `processEventAsXml` on a buffer that holds well-formed events back to back, debug
printing off. -/
theorem processEventAsXml_events (c : FsEventsH) (hD : c.FSE_ARG_DONE < 65536)
    (env : Env) (st : State) (es : List RawEvent) (hwf : ∀ e ∈ es, e.WellFormed c)
    (hwd : ∀ e ∈ es, e.WidthsOk c) :
    processEventAsXml c env false st (encodeEvents c es) =
      Except.ok (st.countedBy es.length,
        xmlOut c env st.monPathVec_s st.eventCounter_s es) := by
  rw [processEventAsXmlTrace_erase, processEventAsXmlTrace_events c hD env st es hwf hwd]
  rfl

/-! ## The builder calls append text that depends on the indentation only -/

theorem indentLoop_eq (n : Nat) : ∀ os : CStr, indentLoop n os = os ++ indentLoop n [] := by
  induction n with
  | zero => intro os; simp [indentLoop]
  | succ n ih =>
    intro os
    simp only [indentLoop, List.nil_append]
    rw [ih (os ++ bytes "  "), ih (bytes "  ")]
    simp

theorem pushTag_after (os : CStr) (tags : List CStr) (y : XmlStrBuilder_t) (t : CStr) :
    (y.after os tags).pushTag t = (y.pushTag t).after os tags := by
  simp only [XmlStrBuilder_t.pushTag, XmlStrBuilder_t.indent, XmlStrBuilder_t.after]
  rw [indentLoop_eq _ (os ++ y.os_m), indentLoop_eq _ y.os_m]
  simp

theorem addTagAndValue_after (os : CStr) (tags : List CStr) (y : XmlStrBuilder_t)
    (t v : CStr) :
    (y.after os tags).addTagAndValue t v = (y.addTagAndValue t v).after os tags := by
  simp only [XmlStrBuilder_t.addTagAndValue, XmlStrBuilder_t.indent, XmlStrBuilder_t.after]
  rw [indentLoop_eq _ (os ++ y.os_m), indentLoop_eq _ y.os_m]
  simp

theorem addTagAndVararg_after (os : CStr) (tags : List CStr) (y : XmlStrBuilder_t)
    (t v : CStr) :
    (y.after os tags).addTagAndVararg t v = (y.addTagAndVararg t v).after os tags := by
  simp only [XmlStrBuilder_t.addTagAndVararg, XmlStrBuilder_t.indent, XmlStrBuilder_t.after]
  rw [indentLoop_eq _ (os ++ y.os_m), indentLoop_eq _ y.os_m]
  simp

/-- `popTag` on a builder whose own stack is not empty pops that stack. -/
theorem popTag_after (os : CStr) (tags : List CStr) (y : XmlStrBuilder_t)
    (h : y.tags_m ≠ []) : (y.after os tags).popTag = y.popTag.after os tags := by
  obtain ⟨t, b, hb⟩ : ∃ t b, y.tags_m = t ++ [b] :=
    ⟨y.tags_m.dropLast, y.tags_m.getLast h, (List.dropLast_append_getLast h).symm⟩
  have h1 : (tags ++ y.tags_m).getLast? = some b := by rw [hb, ← List.append_assoc]; simp
  have h2 : y.tags_m.getLast? = some b := by rw [hb]; simp
  simp only [XmlStrBuilder_t.popTag, XmlStrBuilder_t.after, h1, h2, XmlStrBuilder_t.indent]
  rw [indentLoop_eq _ (os ++ y.os_m), indentLoop_eq _ y.os_m, hb, ← List.append_assoc]
  simp

theorem pushTag_tags_ne_nil (y : XmlStrBuilder_t) (t : CStr) : (y.pushTag t).tags_m ≠ [] := by
  simp [XmlStrBuilder_t.pushTag, XmlStrBuilder_t.indent]

theorem addTagAndVararg_tags (y : XmlStrBuilder_t) (t v : CStr) :
    (y.addTagAndVararg t v).tags_m = y.tags_m := rfl

theorem addTagAndValue_tags (y : XmlStrBuilder_t) (t v : CStr) :
    (y.addTagAndValue t v).tags_m = y.tags_m := rfl

theorem xmlIdArg_after (buf : List Nat) (pos : Nat) (tag : CStr) (lookup : Nat → CStr)
    (os : CStr) (tags : List CStr) (y : XmlStrBuilder_t) :
    xmlIdArg buf pos tag lookup (y.after os tags) =
      afterR os tags (xmlIdArg buf pos tag lookup y) := by
  unfold xmlIdArg
  cases readU32 buf pos with
  | none => rfl
  | some v =>
    simp only [xmlSafe_eq, afterR]
    rw [pushTag_after, addTagAndVararg_after, addTagAndValue_after, popTag_after]
    simp [addTagAndVararg_tags, addTagAndValue_tags, pushTag_tags_ne_nil]

theorem xmlOtherArg_after (c : FsEventsH) (env : Env) (buf : List Nat)
    (pos argtype arglen : Nat) (os : CStr) (tags : List CStr) (y : XmlStrBuilder_t) :
    xmlOtherArg c env buf pos argtype arglen (y.after os tags) =
      afterR os tags (xmlOtherArg c env buf pos argtype arglen y) := by
  unfold xmlOtherArg
  split_ifs
  · cases readI32 buf pos with
    | none => rfl
    | some v => simp only [afterR, addTagAndVararg_after]
  · cases readI64 buf pos with
    | none => rfl
    | some v => simp only [afterR, addTagAndVararg_after]
  · simp only [afterR]
    rw [pushTag_after, addTagAndVararg_after, popTag_after]
    simp [addTagAndVararg_tags, pushTag_tags_ne_nil]
  · cases readU64 buf pos with
    | none => rfl
    | some v => simp only [afterR, addTagAndVararg_after]
  · exact xmlIdArg_after _ _ _ _ _ _ _
  · cases readU32 buf pos with
    | none => rfl
    | some v =>
      simp only [afterR]
      rw [pushTag_after, addTagAndVararg_after, addTagAndVararg_after, addTagAndVararg_after,
        popTag_after]
      simp [addTagAndVararg_tags, pushTag_tags_ne_nil]
  · cases readU32 buf pos with
    | none => rfl
    | some v =>
      simp only [afterR]
      rw [pushTag_after, addTagAndVararg_after, addTagAndVararg_after, addTagAndVararg_after,
        popTag_after]
      simp [addTagAndVararg_tags, pushTag_tags_ne_nil]
  · exact xmlIdArg_after _ _ _ _ _ _ _
  · simp only [afterR, addTagAndVararg_after]

theorem renderArg_after (c : FsEventsH) (env : Env) (a : Arg) (os : CStr)
    (tags : List CStr) (y : XmlStrBuilder_t) :
    renderArg c env (y.after os tags) a = afterR os tags (renderArg c env y a) := by
  have hpath : ∀ tag : CStr,
      (match xmlPathArg false [] a.payload 0 tag false (y.after os tags) with
        | Except.error f => Except.error f
        | Except.ok (_, xml1, _) => Except.ok xml1) =
      afterR os tags (match xmlPathArg false [] a.payload 0 tag false y with
        | Except.error f => Except.error f
        | Except.ok (_, xml1, _) => Except.ok xml1) := by
    intro tag
    unfold xmlPathArg
    cases cstrAt a.payload 0 with
    | none => rfl
    | some path => simp only [xmlSafe_eq, afterR, addTagAndValue_after]
  unfold renderArg xmlArg
  split_ifs
  · exact hpath _
  · exact hpath _
  · exact hpath _
  · rw [xmlOtherArg_after]
    cases xmlOtherArg c env a.payload 0 a.argtype a.payload.length y with
    | error f => rfl
    | ok x => rfl

theorem after_after (os1 os2 : CStr) (t1 t2 : List CStr) (y : XmlStrBuilder_t) :
    (y.after os2 t2).after os1 t1 = y.after (os1 ++ os2) (t1 ++ t2) := by
  simp [XmlStrBuilder_t.after]

theorem after_nil (y : XmlStrBuilder_t) : y.after [] [] = y := by
  cases y; simp [XmlStrBuilder_t.after]

theorem renderArgs_after (c : FsEventsH) (env : Env) :
    ∀ (args : List Arg) (os : CStr) (tags : List CStr) (y : XmlStrBuilder_t),
      renderArgs c env args (y.after os tags) = afterR os tags (renderArgs c env args y) := by
  intro args
  induction args with
  | nil => intro os tags y; rfl
  | cons a rest ih =>
    intro os tags y
    simp only [renderArgs]
    rw [renderArg_after]
    cases renderArg c env y a with
    | error f => rfl
    | ok y1 =>
      simp only [afterR]
      exact ih os tags y1

/-- Every builder is itself moved behind its output and onto its stack, from the empty
builder of its indentation. -/
theorem after_self (x : XmlStrBuilder_t) :
    x = XmlStrBuilder_t.after x.os_m x.tags_m ⟨[], [], x.indent_m⟩ := by
  cases x; simp [XmlStrBuilder_t.after]

/-- An argument of a well-formed event at indentation 1 appends its text and leaves stack
and indentation alone. -/
theorem renderArg_text (c : FsEventsH) (env : Env) (a : Arg) (ha : a.WellFormed c)
    (hw : a.WidthOk c) (x : XmlStrBuilder_t) (hx : x.indent_m = 1) :
    renderArg c env x a = Except.ok ⟨x.os_m ++ argText c env a, x.tags_m, 1⟩ := by
  have hdrop : a.payload.drop 0 = a.payload ++ [] := by simp
  obtain ⟨y, hy, -⟩ := xmlArg_of_payload c env [] a ha hw hdrop false ⟨[], [], 1⟩
  have hr := hy
  unfold renderArg at hr
  cases hq : xmlArg c env false [] a.payload 0 a.argtype a.payload.length false ⟨[], [], 1⟩ with
  | error f => rw [hq] at hr; simp at hr
  | ok r =>
    obtain ⟨s1, y1, o1⟩ := r
    rw [hq] at hr
    simp only [Except.ok.injEq] at hr
    subst hr
    have he := extends_xmlArg hq
    rw [after_self x, renderArg_after, hx, hy]
    simp only [afterR, XmlStrBuilder_t.after, argText, hy]
    rw [he.1, he.2.1]
    simp

theorem renderArgs_text (c : FsEventsH) (env : Env) :
    ∀ (args : List Arg), (∀ a ∈ args, a.WellFormed c) → (∀ a ∈ args, a.WidthOk c) →
      ∀ (x : XmlStrBuilder_t), x.indent_m = 1 →
      renderArgs c env args x =
        Except.ok ⟨x.os_m ++ args.flatMap (argText c env), x.tags_m, 1⟩ := by
  intro args
  induction args with
  | nil =>
    intro _ _ x hx
    cases x
    simp only at hx
    simp [renderArgs, hx]
  | cons a rest ih =>
    intro hwf hwd x hx
    simp only [renderArgs]
    rw [renderArg_text c env a (hwf a (List.mem_cons_self _ _)) (hwd a (List.mem_cons_self _ _))
      x hx]
    simp only
    rw [ih (fun b hb => hwf b (List.mem_cons_of_mem _ hb))
      (fun b hb => hwd b (List.mem_cons_of_mem _ hb)) _ rfl]
    simp

/-! ## The length of formatted numbers -/

theorem fmtD_length_le (i : Int) (e : Nat) (he : 0 < e) (h1 : -(10 : Int) ^ e < i)
    (h2 : i < (10 : Int) ^ e) : (fmtD i).length ≤ e + 1 := by
  cases i with
  | ofNat n =>
    have hn : n < 10 ^ e := by
      have : ((n : Nat) : Int) < ((10 ^ e : Nat) : Int) := by push_cast; exact h2
      exact Int.ofNat_lt.1 this
    have := Nat.repr_length n e he hn
    show ((toString (Int.ofNat n)).toList.map Char.toNat).length ≤ e + 1
    rw [List.length_map]
    show (Nat.repr n).length ≤ e + 1
    omega
  | negSucc m =>
    have hn : m + 1 < 10 ^ e := by
      have : (((m + 1 : Nat)) : Int) < ((10 ^ e : Nat) : Int) := by
        push_cast
        have := Int.negSucc_eq m
        omega
      exact Int.ofNat_lt.1 this
    have := Nat.repr_length (m + 1) e he hn
    show ((toString (Int.negSucc m)).toList.map Char.toNat).length ≤ e + 1
    rw [List.length_map]
    show ("-" ++ Nat.repr (m + 1)).length ≤ e + 1
    rw [String.length_append]
    show 1 + (Nat.repr (m + 1)).length ≤ e + 1
    omega

/-- The decimal form of an `int64_t` fits the scratch array of `addTagAndVararg`. -/
theorem take_fmtD (i : Int) (h1 : -9223372036854775808 ≤ i) (h2 : i < 9223372036854775808) :
    (fmtD i).take 159 = fmtD i := by
  apply List.take_of_length_le
  have := fmtD_length_le i 19 (by norm_num) (by norm_num; omega) (by norm_num; omega)
  omega

/-! ## The text of a fragment -/

theorem xmlHead_text (c : FsEventsH) (env : Env) (n : Int) (e : RawEvent)
    (xml : XmlStrBuilder_t) :
    xmlHead c env n e.kind e.pid xml =
      Except.ok ⟨headText c env n e, [xmlRootTag c e.kind], 1⟩ := by
  simp only [xmlHead, xmlSafe_eq, headText, XmlStrBuilder_t.clear, XmlStrBuilder_t.pushTag,
    XmlStrBuilder_t.addTagAndVararg, XmlStrBuilder_t.addTagAndValue, XmlStrBuilder_t.popTag,
    XmlStrBuilder_t.indent]
  simp [indentLoop]

/-- The fragment of a well-formed event is the head, the texts of the arguments in arrival
order, the `done` element and the closing tag of the root. -/
theorem xmlFragment_text (c : FsEventsH) (env : Env) (n : Int) (e : RawEvent)
    (he : e.WellFormed c) (hw : e.WidthsOk c) :
    xmlFragment c env n e =
      Except.ok (headText c env n e ++ e.args.flatMap (argText c env) ++ tailText c e) := by
  unfold xmlFragment
  rw [xmlHead_text, ]
  simp only
  rw [renderArgs_text c env e.args he.2.2 hw _ rfl]
  simp only [tailText, XmlStrBuilder_t.addTagAndVararg, XmlStrBuilder_t.popTag,
    XmlStrBuilder_t.indent, XmlStrBuilder_t.str]
  simp [indentLoop]

/-- An argument whose type is no label of the argument switch is written as the element
`unknown-arg` that holds its declared length. -/
theorem argText_unknown (c : FsEventsH) (env : Env) (u : Arg) (hu : u.argtype ∉ c.argLabels)
    (hl : u.payload.length < 65536) : argText c env u = unknownArgText u.payload.length := by
  simp only [FsEventsH.argLabels, List.mem_cons, List.mem_singleton, not_or,
    List.not_mem_nil, not_false_eq_true, and_true] at hu
  obtain ⟨h1, h2, h3, h4, h5, h6, h7, h8, h9, h10, h11⟩ := hu
  have ht : (fmtD (u.payload.length : Int)).take 159 = fmtD (u.payload.length : Int) :=
    take_fmtD _ (by omega) (by omega)
  simp only [argText, renderArg, xmlArg, xmlOtherArg, if_neg h1, if_neg h2, if_neg h3, if_neg h4,
    if_neg h5, if_neg h6, if_neg h7, if_neg h8, if_neg h9, if_neg h10, if_neg h11,
    XmlStrBuilder_t.addTagAndVararg, XmlStrBuilder_t.indent, unknownArgText, ht]
  simp [indentLoop]

theorem xmlOut_append (c : FsEventsH) (env : Env) (vec : List CStr) :
    ∀ (l1 l2 : List RawEvent) (n : Int),
      xmlOut c env vec n (l1 ++ l2) = xmlOut c env vec n l1 ++ xmlOut c env vec (n + l1.length) l2 := by
  intro l1
  induction l1 with
  | nil => intro l2 n; simp [xmlOut]
  | cons e t ih =>
    intro l2 n
    have e1 : n + ((e :: t).length : Int) = n + 1 + (t.length : Int) := by
      simp only [List.length_cons, Nat.cast_add, Nat.cast_one]; ring
    rw [e1, List.cons_append]
    simp only [xmlOut]
    rw [ih l2 (n + 1), List.append_assoc]

/-- An argument that is not path-bearing leaves the paths of the event as they are. -/
theorem paths_insert (c : FsEventsH) (k p : Int) (pre post : List Arg) (u : Arg)
    (hu : isPathArg c u.argtype = false) :
    RawEvent.paths c ⟨k, p, pre ++ u :: post⟩ = RawEvent.paths c ⟨k, p, pre ++ post⟩ := by
  simp [RawEvent.paths, List.filterMap_append, Arg.path?, hu]

theorem isPathArg_unknown (c : FsEventsH) (u : Arg) (hu : u.argtype ∉ c.argLabels) :
    isPathArg c u.argtype = false := by
  simp only [FsEventsH.argLabels, List.mem_cons, List.mem_singleton, not_or,
    List.not_mem_nil, not_false_eq_true, and_true] at hu
  obtain ⟨h1, h2, h3, -⟩ := hu
  simp [isPathArg, h1, h2, h3]

theorem terseLines_insert (c : FsEventsH) (env : Env) (vec : List CStr) (k p : Int)
    (pre post : List Arg) (u : Arg) (hu : isPathArg c u.argtype = false) :
    terseLines c env vec ⟨k, p, pre ++ u :: post⟩ = terseLines c env vec ⟨k, p, pre ++ post⟩ := by
  simp only [terseLines, paths_insert c k p pre post u hu]

/-! ## Lemmas on numbered events -/

theorem numbered_getElem? :
    ∀ (es : List RawEvent) (n : Int) (i : Nat) (e : RawEvent), es[i]? = some e →
      (numbered n es)[i]? = some (n + i + 1, e)
  | [], _, _, _, h => by simp at h
  | x :: es, n, 0, e, h => by
    simp only [List.getElem?_cons_zero, Option.some.injEq] at h
    simp [numbered, h]
  | x :: es, n, i + 1, e, h => by
    simp only [List.getElem?_cons_succ] at h
    have := numbered_getElem? es (n + 1) i e h
    simp only [numbered, List.getElem?_cons_succ, this, Option.some.injEq, Prod.mk.injEq,
      and_true]
    push_cast
    ring

theorem numbered_map_snd : ∀ (es : List RawEvent) (n : Int), (numbered n es).map Prod.snd = es
  | [], _ => rfl
  | e :: es, n => by simp [numbered, numbered_map_snd es (n + 1)]

theorem mem_numbered : ∀ (es : List RawEvent) (n m : Int) (e : RawEvent),
    (m, e) ∈ numbered n es → e ∈ es
  | [], _, _, _, h => by simp [numbered] at h
  | x :: es, n, m, e, h => by
    simp only [numbered, List.mem_cons, Prod.mk.injEq] at h
    rcases h with ⟨-, rfl⟩ | h
    · exact List.mem_cons_self _ _
    · exact List.mem_cons_of_mem _ (mem_numbered es (n + 1) m e h)

theorem xmlOut_eq_flatMap (c : FsEventsH) (env : Env) (vec : List CStr) :
    ∀ (es : List RawEvent) (n : Int),
      xmlOut c env vec n es = (numbered n es).flatMap (printIfWatched c env vec)
  | [], _ => rfl
  | e :: es, n => by
    simp only [xmlOut, numbered, List.flatMap_cons, xmlOut_eq_flatMap c env vec es (n + 1),
      printIfWatched]

theorem numbered_range : ∀ (es : List RawEvent) (n m : Int) (e : RawEvent),
    (m, e) ∈ numbered n es → n < m ∧ m ≤ n + es.length
  | [], _, _, _, h => by simp [numbered] at h
  | x :: es, n, m, e, h => by
    simp only [numbered, List.mem_cons, Prod.mk.injEq] at h
    rcases h with ⟨rfl, -⟩ | h
    · simp only [List.length_cons, Nat.cast_succ]
      constructor <;> linarith [Int.ofNat_nonneg es.length, Int.natCast_nonneg es.length]
    · have := numbered_range es (n + 1) m e h
      simp only [List.length_cons, Nat.cast_succ]
      constructor <;> linarith [this.1, this.2]

theorem headText_number (c : FsEventsH) (env : Env) (m : Int) (e : RawEvent)
    (h1 : -9223372036854775808 ≤ m) (h2 : m < 9223372036854775808) :
    (bytes "<" ++ xmlRootTag c e.kind ++ bytes ">" ++ bytes "\n"
      ++ bytes "  " ++ bytes "<" ++ bytes "eventNumber" ++ bytes ">" ++ fmtD m
      ++ bytes "</" ++ bytes "eventNumber" ++ bytes ">" ++ bytes "\n") <+:
      headText c env m e := by
  simp only [headText, take_fmtD m h1 h2, List.append_assoc]
  repeat (first | exact List.prefix_append _ _ | apply (List.prefix_append_right_inj _).2)

/-! ## Lemmas on the device and mode cases -/

theorem device_major (d : Nat) (hd : d < 4294967296) : (d >>> 24) &&& 0xff = d / 16777216 := by
  have h1 : d >>> 24 = d / 16777216 := by rw [Nat.shiftRight_eq_div_pow]
  have h2 : (0xff : Nat) = 2 ^ 8 - 1 := by norm_num
  rw [h1, h2, Nat.and_pow_two_sub_one_eq_mod]
  apply Nat.mod_eq_of_lt
  omega

theorem device_minor (d : Nat) : d &&& 0xffffff = d % 16777216 := by
  have h2 : (0xffffff : Nat) = 2 ^ 24 - 1 := by norm_num
  rw [h2, Nat.and_pow_two_sub_one_eq_mod]

theorem xmlOtherArg_dev (c : FsEventsH) (hc : c.Valid) (env : Env) (buf : List Nat)
    (pos arglen : Nat) (xml : XmlStrBuilder_t) :
    xmlOtherArg c env buf pos c.FSE_ARG_DEV arglen xml =
      match readU32 buf pos with
      | none => Except.error Fault.readPastEnd
      | some device =>
        Except.ok (((((xml.pushTag (bytes "device")).addTagAndVararg (bytes "value")
          (bytes "0x" ++ fmtX08 device)).addTagAndVararg (bytes "major")
          (fmtD ((device >>> 24) &&& 0xff : Nat))).addTagAndVararg (bytes "minor")
          (fmtD (device &&& 0xffffff : Nat))).popTag) := by
  have h := hc.2.1
  simp only [FsEventsH.argLabels, List.nodup_cons, List.mem_cons, List.mem_singleton, not_or] at h
  unfold xmlOtherArg
  have e1 : c.FSE_ARG_DEV ≠ c.FSE_ARG_INT32 := by tauto
  have e2 : c.FSE_ARG_DEV ≠ c.FSE_ARG_INT64 := by tauto
  have e3 : c.FSE_ARG_DEV ≠ c.FSE_ARG_RAW := by tauto
  have e4 : c.FSE_ARG_DEV ≠ c.FSE_ARG_INO := by tauto
  have e5 : c.FSE_ARG_DEV ≠ c.FSE_ARG_UID := by tauto
  rw [if_neg e1, if_neg e2, if_neg e3, if_neg e4, if_neg e5, if_pos rfl]

theorem readU32_lt (buf : List Nat) (pos d : Nat) (hb : ∀ b ∈ buf, b < 256)
    (h : readU32 buf pos = some d) : d < 4294967296 := by
  unfold readU32 at h
  have hm : ∀ b ∈ buf.drop pos, b < 256 := fun b hb1 => hb b (List.mem_of_mem_drop hb1)
  rcases hl : buf.drop pos with _ | ⟨b0, _ | ⟨b1, _ | ⟨b2, _ | ⟨b3, r⟩⟩⟩⟩ <;> rw [hl] at h hm <;>
    simp at h
  have h0 := hm b0 (by simp)
  have h1 := hm b1 (by simp)
  have h2 := hm b2 (by simp)
  have h3 := hm b3 (by simp)
  omega

theorem and_pow_ne_zero (m k : Nat) : (m &&& 2 ^ k ≠ 0) ↔ m.testBit k = true := by
  rw [Nat.and_two_pow]
  cases m.testBit k <;> simp

theorem modeBit_eq (m k : Nat) (ch : Char) :
    modeBit m (2 ^ k) ch = if m.testBit k = true then ch.toNat else '-'.toNat := by
  unfold modeBit
  by_cases h : m.testBit k = true
  · rw [if_pos ((and_pow_ne_zero m k).2 h), if_pos h]
  · rw [if_neg (fun h1 => h ((and_pow_ne_zero m k).1 h1)), if_neg h]

theorem ifmt_idem (m : Nat) : (m &&& S_IFMT) &&& S_IFMT = m &&& S_IFMT := by
  rw [Nat.and_assoc, Nat.and_self]

theorem modeTypeChar_table (m : Nat) :
    (modeTypeChar m = 'p'.toNat ↔ getVnodeTypeString m = bytes "VFIFO") ∧
    (modeTypeChar m = 'c'.toNat ↔ getVnodeTypeString m = bytes "VCHR") ∧
    (modeTypeChar m = 'd'.toNat ↔ getVnodeTypeString m = bytes "VDIR") ∧
    (modeTypeChar m = 'b'.toNat ↔ getVnodeTypeString m = bytes "VBLK") ∧
    (modeTypeChar m = 'l'.toNat ↔ getVnodeTypeString m = bytes "VLNK") ∧
    (modeTypeChar m = 's'.toNat ↔ getVnodeTypeString m = bytes "VSOCK") ∧
    (modeTypeChar m = '-'.toNat ↔ getVnodeTypeString m = bytes "VREG") := by
  unfold modeTypeChar getVnodeTypeString
  by_cases h1 : m &&& S_IFMT = 0x1000
  · simp only [if_pos h1]; decide
  by_cases h2 : m &&& S_IFMT = 0x2000
  · simp only [if_neg h1, if_pos h2]; decide
  by_cases h3 : m &&& S_IFMT = 0x4000
  · simp only [if_neg h1, if_neg h2, if_pos h3]; decide
  by_cases h4 : m &&& S_IFMT = 0x6000
  · simp only [if_neg h1, if_neg h2, if_neg h3, if_pos h4]; decide
  by_cases h5 : m &&& S_IFMT = 0xA000
  · simp only [if_neg h1, if_neg h2, if_neg h3, if_neg h4, if_pos h5]; decide
  by_cases h6 : m &&& S_IFMT = 0xC000
  · simp only [if_neg h1, if_neg h2, if_neg h3, if_neg h4, if_neg h5, if_pos h6]; decide
  simp only [if_neg h1, if_neg h2, if_neg h3, if_neg h4, if_neg h5, if_neg h6]; decide

/-! ## Lemmas on watching the root -/

theorem stripSlashes_replicate (k : Nat) : stripSlashes (List.replicate k slash) = [] := by
  unfold stripSlashes
  obtain ⟨j, hj⟩ := rdropWhile_append_replicate slash (List.replicate k slash)
  have hl := rdropWhile_getLast_ne slash (List.replicate k slash)
  rcases hq : (List.replicate k slash).rdropWhile (fun b => b == slash) with _ | ⟨a, q⟩
  · rfl
  · exfalso
    rw [hq] at hl hj
    have hmem : ((a :: q).getLast (by simp)) ∈ List.replicate k slash := by
      rw [hj]
      exact List.mem_append_left _ (List.getLast_mem _)
    have h1 := (List.mem_replicate.1 hmem).2
    exact hl _ (by rw [List.getLast?_eq_getLast _ (List.cons_ne_nil a q)]; rfl) h1

theorem isMonitoredPath_root (d : Bool) (vec : List CStr) (hv : ([] : CStr) ∈ vec) :
    (isMonitoredPath d vec []).1 = true ∧
    (∀ t : CStr, (isMonitoredPath d vec (slash :: t)).1 = true) ∧
    (∀ (b : Nat) (t : CStr), b ≠ slash →
      ((isMonitoredPath d vec (b :: t)).1 = true ↔
        ∃ P ∈ vec, P ≠ [] ∧
          (b :: t = P ∨ (P <+: b :: t ∧ P ≠ b :: t ∧ (b :: t)[P.length]? = some slash)))) := by
  refine ⟨?_, ?_, ?_⟩
  · rw [isMonitoredPath_true_iff]
    exact ⟨[], hv, Or.inl rfl⟩
  · intro t
    rw [isMonitoredPath_true_iff]
    exact ⟨[], hv, Or.inr ⟨List.nil_prefix, by simp, by simp⟩⟩
  · intro b t hb
    rw [isMonitoredPath_true_iff]
    constructor
    · rintro ⟨P, hP, hm⟩
      refine ⟨P, hP, ?_, hm⟩
      rintro rfl
      rcases hm with hm | ⟨-, -, hm⟩
      · simp at hm
      · simp only [List.length_nil, List.getElem?_cons_zero, Option.some.injEq] at hm
        exact hb hm
    · rintro ⟨P, hP, -, hm⟩
      exact ⟨P, hP, hm⟩

/-! ## `eraseTrailingChar` on a string made of the erased character -/

theorem eraseTrailingCharLoop_all (c : Nat) :
    ∀ (j : Nat) (zs : List Nat), eraseTrailingCharLoop c j (List.replicate j c ++ zs) = none
  | 0, _ => rfl
  | j + 1, zs => by
    have e1 : List.replicate (j + 1) c ++ zs = List.replicate j c ++ c :: zs := by
      rw [List.replicate_succ', List.append_assoc]; rfl
    have hlen : (List.replicate j c).length = j := List.length_replicate _ _
    have e2 : (List.replicate j c ++ c :: zs)[j]? = some c := by
      rw [List.getElem?_append_right (by omega)]
      simp [hlen]
    have e3 : (List.replicate j c ++ c :: zs).set j 0 = List.replicate j c ++ 0 :: zs := by
      rw [List.set_append_right _ _ (by omega)]
      simp [hlen]
    rw [e1]
    unfold eraseTrailingCharLoop
    simp only [e2, if_true, e3]
    exact eraseTrailingCharLoop_all c j (0 :: zs)

theorem eraseTrailingChar_all (c k : Nat) (rest : List Nat) :
    eraseTrailingChar (List.replicate k (c + 1) ++ 0 :: rest) 0 (c + 1) = none := by
  have h0 : (0 : Nat) ∉ List.replicate k (c + 1) := by
    intro h
    exact absurd (List.mem_replicate.1 h).2 (by omega)
  have hs : strlen (List.replicate k (c + 1) ++ 0 :: rest) 0 = some k := by
    unfold strlen cstrAt
    rw [List.drop_zero, cstrOf_append_nul _ _ h0]
    simp
  unfold eraseTrailingChar
  rw [hs]
  simp only [Nat.zero_add]
  exact eraseTrailingCharLoop_all (c + 1) k (0 :: rest)

/-! ## `strReplaceAll` against its reference -/

theorem findFrom_spec (old : CStr) (hold : old ≠ []) :
    ∀ (l : CStr) (i q : Nat), findFrom old l i = some q →
      i ≤ q ∧ q + old.length ≤ i + l.length ∧ old <+: l.drop (q - i)
  | [], i, q, h => by
    simp [findFrom, hold] at h
  | b :: t, i, q, h => by
    unfold findFrom at h
    by_cases hp : old <+: b :: t
    · rw [if_pos hp] at h
      simp only [Option.some.injEq] at h
      subst h
      refine ⟨le_refl _, ?_, by simpa using hp⟩
      have := hp.length_le
      omega
    · rw [if_neg hp] at h
      obtain ⟨h1, h2, h3⟩ := findFrom_spec old hold t (i + 1) q h
      refine ⟨by omega, by simp only [List.length_cons]; omega, ?_⟩
      have e : q - i = (q - (i + 1)) + 1 := by omega
      rw [e, List.drop_succ_cons]
      exact h3

theorem scanPositions_skip (old : CStr) :
    ∀ (k : Nat) (l : CStr) (i : Nat),
      scanPositions old k l i = scanPositions old 0 (l.drop k) (i + k)
  | 0, l, i => by simp
  | k + 1, [], i => by simp [scanPositions]
  | k + 1, b :: t, i => by
    rw [scanPositions, scanPositions_skip old k t (i + 1), List.drop_succ_cons]
    congr 1
    omega

theorem strReplaceAllRef_skip (old new : CStr) :
    ∀ (k : Nat) (l : CStr), strReplaceAllRef old new k l = strReplaceAllRef old new 0 (l.drop k)
  | 0, l => by simp
  | k + 1, [] => by simp [strReplaceAllRef]
  | k + 1, b :: t => by
    rw [strReplaceAllRef, strReplaceAllRef_skip old new k t, List.drop_succ_cons]

theorem scanPositions_find (old : CStr) (hold : old ≠ []) :
    ∀ (l : CStr) (i : Nat),
      scanPositions old 0 l i =
        match findFrom old l i with
        | none => []
        | some q => q :: scanPositions old 0 (l.drop (q - i + old.length)) (q + old.length)
  | [], i => by simp [scanPositions, findFrom, hold]
  | b :: t, i => by
    have hl : 0 < old.length := List.length_pos.2 hold
    conv_lhs => rw [scanPositions]
    unfold findFrom
    by_cases hp : old <+: b :: t
    · simp only [if_pos hp]
      rw [scanPositions_skip]
      have e1 : i - i + old.length = (old.length - 1) + 1 := by omega
      have e2 : i + 1 + (old.length - 1) = i + old.length := by omega
      rw [e1, List.drop_succ_cons, e2]
    · simp only [if_neg hp]
      rw [scanPositions_find old hold t (i + 1)]
      cases hf : findFrom old t (i + 1) with
      | none => rfl
      | some q =>
        obtain ⟨h1, -, -⟩ := findFrom_spec old hold t (i + 1) q hf
        have e1 : q - i + old.length = (q - (i + 1) + old.length) + 1 := by omega
        simp only [e1, List.drop_succ_cons]

theorem scanPositions_length_le (old : CStr) :
    ∀ (l : CStr) (k i : Nat), (scanPositions old k l i).length ≤ l.length
  | [], k, i => by cases k <;> simp [scanPositions]
  | b :: t, k + 1, i => by
    rw [scanPositions]
    have := scanPositions_length_le old t k (i + 1)
    simp only [List.length_cons]
    omega
  | b :: t, 0, i => by
    rw [scanPositions]
    split
    · have := scanPositions_length_le old t (old.length - 1) (i + 1)
      simp only [List.length_cons]
      omega
    · have := scanPositions_length_le old t 0 (i + 1)
      simp only [List.length_cons]
      omega

theorem collectPositions_scan (s old : CStr) (hold : old ≠ []) :
    ∀ (fuel p : Nat) (acc : List Nat), p ≤ s.length →
      (scanPositions old 0 (s.drop p) p).length < fuel →
      collectPositions s old fuel (find s old p) acc =
        some ((scanPositions old 0 (s.drop p) p).reverse ++ acc)
  | 0, _, _, _, h => by omega
  | fuel + 1, p, acc, hp, h => by
    have hsc := scanPositions_find old hold (s.drop p) p
    have hfind : find s old p = findFrom old (s.drop p) p := by
      unfold find
      rw [if_pos hp]
    rw [hfind]
    cases hf : findFrom old (s.drop p) p with
    | none =>
      rw [hf] at hsc
      simp only at hsc
      rw [hsc]
      rfl
    | some q =>
      rw [hf] at hsc
      simp only at hsc
      obtain ⟨h1, h2, -⟩ := findFrom_spec old hold (s.drop p) p q hf
      rw [List.length_drop] at h2
      have e1 : (s.drop p).drop (q - p + old.length) = s.drop (q + old.length) := by
        rw [List.drop_drop]
        congr 1
        omega
      rw [e1] at hsc
      rw [hsc] at h ⊢
      simp only [List.length_cons] at h
      show collectPositions s old fuel (find s old (q + old.length)) (q :: acc) = _
      rw [collectPositions_scan s old hold fuel (q + old.length) (q :: acc) (by omega)
        (by omega)]
      simp

theorem foldl_replace_scan (old new : CStr) (hold : old ≠ []) :
    ∀ (l : CStr) (k : Nat) (pre : CStr),
      (scanPositions old k l pre.length).reverse.foldl
          (fun s pos => replace s pos old.length new) (pre ++ l) =
        pre ++ l.take k ++ strReplaceAllRef old new k l
  | [], k, pre => by cases k <;> simp [scanPositions, strReplaceAllRef]
  | b :: t, k + 1, pre => by
    have ih := foldl_replace_scan old new hold t k (pre ++ [b])
    simp only [List.length_append, List.length_singleton, List.append_assoc,
      List.singleton_append] at ih
    rw [scanPositions, strReplaceAllRef, ih]
    simp
  | b :: t, 0, pre => by
    have hl : 0 < old.length := List.length_pos.2 hold
    rw [scanPositions, strReplaceAllRef]
    by_cases hp : old <+: b :: t
    · have ih := foldl_replace_scan old new hold t (old.length - 1) (pre ++ [b])
      simp only [List.length_append, List.length_singleton, List.append_assoc,
        List.singleton_append] at ih
      simp only [if_pos hp, List.reverse_cons, List.foldl_append, List.foldl_cons,
        List.foldl_nil, ih]
      have hlen : (b :: t.take (old.length - 1)).length = old.length := by
        have := hp.length_le
        simp only [List.length_cons] at this
        simp only [List.length_cons, List.length_take]
        omega
      unfold replace
      have hd := List.drop_left (b :: t.take (old.length - 1))
        (strReplaceAllRef old new (old.length - 1) t)
      rw [hlen] at hd
      rw [List.take_left, List.drop_append, hd]
      simp
    · have ih := foldl_replace_scan old new hold t 0 (pre ++ [b])
      simp only [List.length_append, List.length_singleton, List.append_assoc,
        List.singleton_append, List.take_zero, List.nil_append] at ih
      simp only [if_neg hp, ih, List.take_zero, List.append_nil]

theorem strReplaceAllRef_length (old new : CStr) (hold : old ≠ []) :
    ∀ (l : CStr) (k i : Nat), k ≤ l.length →
      (strReplaceAllRef old new k l).length + k + (scanPositions old k l i).length * old.length =
        l.length + (scanPositions old k l i).length * new.length
  | [], k, i, hk => by
    simp only [List.length_nil, Nat.le_zero] at hk
    subst hk
    simp [scanPositions, strReplaceAllRef]
  | b :: t, k + 1, i, hk => by
    have ih := strReplaceAllRef_length old new hold t k (i + 1)
      (by simp only [List.length_cons] at hk; omega)
    rw [scanPositions, strReplaceAllRef]
    simp only [List.length_cons]
    omega
  | b :: t, 0, i, _ => by
    have hl : 0 < old.length := List.length_pos.2 hold
    rw [scanPositions, strReplaceAllRef]
    by_cases hp : old <+: b :: t
    · have hle := hp.length_le
      simp only [List.length_cons] at hle
      have ih := strReplaceAllRef_length old new hold t (old.length - 1) (i + 1) (by omega)
      simp only [if_pos hp, List.length_cons, List.length_append, Nat.add_zero]
      have e1 : ∀ n a : Nat, (n + 1) * a = n * a + a := fun n a => by ring
      rw [e1, e1]
      omega
    · have ih := strReplaceAllRef_length old new hold t 0 (i + 1) (Nat.zero_le _)
      simp only [if_neg hp, List.length_cons]
      omega

theorem collectPositions_empty (s : CStr) :
    ∀ (fuel p : Nat) (acc : List Nat), p ≤ s.length →
      collectPositions s [] fuel (some p) acc = none
  | 0, _, _, _ => rfl
  | fuel + 1, p, acc, hp => by
    have hf : find s [] (p + ([] : CStr).length) = some p := by
      unfold find
      rw [if_pos (by simpa using hp)]
      simp only [List.length_nil, Nat.add_zero]
      cases hd : s.drop p with
      | nil => simp [findFrom]
      | cons b t => simp [findFrom]
    rw [collectPositions, hf]
    exact collectPositions_empty s fuel p (p :: acc) hp

theorem strReplaceAll_empty (fuel : Nat) (inp new : CStr) :
    strReplaceAll fuel inp [] new = none := by
  have hf : find inp [] 0 = some 0 := by
    unfold find
    rw [if_pos (Nat.zero_le _)]
    cases inp <;> simp [findFrom]
  unfold strReplaceAll
  rw [hf, collectPositions_empty inp fuel 0 [] (Nat.zero_le _)]
  rfl

theorem strReplaceAll_ref (inp old new : CStr) (hold : old ≠ []) (fuel : Nat)
    (hf : (scanPositions old 0 inp 0).length < fuel) :
    strReplaceAll fuel inp old new = some (strReplaceAllRef old new 0 inp) := by
  have h1 := collectPositions_scan inp old hold fuel 0 [] (Nat.zero_le _)
    (by simpa using hf)
  have h2 := foldl_replace_scan old new hold inp 0 []
  simp only [List.drop_zero, List.append_nil] at h1
  simp only [List.length_nil, List.nil_append, List.take_zero] at h2
  unfold strReplaceAll
  rw [h1, Option.map_some', h2]

/-! ## Lemmas on the tags of a text -/

theorem scan_append :
    ∀ (A B : CStr) (cur : Option CStr),
      scanTags cur (A ++ B) = scanTags cur A ++ scanTags (scanEnd cur A) B ∧
      scanEnd cur (A ++ B) = scanEnd (scanEnd cur A) B
  | [], B, cur => by cases cur <;> simp [scanTags, scanEnd]
  | b :: A, B, none => by
    simp only [List.cons_append, scanTags, scanEnd]
    split
    · exact scan_append A B (some [])
    · exact scan_append A B none
  | b :: A, B, some body => by
    simp only [List.cons_append, scanTags, scanEnd]
    split
    · have := scan_append A B none
      refine ⟨?_, this.2⟩
      show _ :: scanTags none (A ++ B) = _
      rw [this.1]
      rfl
    · exact scan_append A B (some (body ++ [b]))

theorem scan_plain : ∀ V : CStr, '<'.toNat ∉ V → scanTags none V = [] ∧ scanEnd none V = none
  | [], _ => by simp [scanTags, scanEnd]
  | b :: V, h => by
    have hb : b ≠ '<'.toNat := fun e => h (e ▸ List.mem_cons_self _ _)
    have hV : '<'.toNat ∉ V := fun e => h (List.mem_cons_of_mem _ e)
    simp only [scanTags, scanEnd, if_neg hb]
    exact scan_plain V hV

theorem scan_body :
    ∀ (tag body rest : CStr), '>'.toNat ∉ tag →
      scanTags (some body) (tag ++ '>'.toNat :: rest) =
        Tok.ofBody (body ++ tag) :: scanTags none rest ∧
      scanEnd (some body) (tag ++ '>'.toNat :: rest) = scanEnd none rest
  | [], body, rest, _ => by simp [scanTags, scanEnd]
  | b :: tag, body, rest, h => by
    have hb : b ≠ '>'.toNat := fun e => h (e ▸ List.mem_cons_self _ _)
    have ht : '>'.toNat ∉ tag := fun e => h (List.mem_cons_of_mem _ e)
    simp only [List.cons_append, scanTags, scanEnd, if_neg hb]
    have := scan_body tag (body ++ [b]) rest ht
    simpa using this

theorem goodTag_spec {tag : CStr} (h : goodTag tag = true) :
    '>'.toNat ∉ tag ∧ Tok.ofBody tag = Tok.opening tag ∧
      Tok.ofBody (slash :: tag) = Tok.closing tag := by
  unfold goodTag at h
  simp only [Bool.and_eq_true, decide_eq_true_eq] at h
  refine ⟨h.1, ?_, ?_⟩
  · cases tag with
    | nil => rfl
    | cons b t =>
      have hb : b ≠ slash := by
        intro e
        exact h.2 (by simp [e])
      simp [Tok.ofBody, hb]
  · simp [Tok.ofBody]

/-- The tags of a line that opens an element, after text without `<`. -/
theorem scan_open (I tag : CStr) (hI : '<'.toNat ∉ I) (ht : goodTag tag = true) :
    scanTags none (I ++ bytes "<" ++ tag ++ bytes ">" ++ bytes "\n") = [Tok.opening tag] ∧
    scanEnd none (I ++ bytes "<" ++ tag ++ bytes ">" ++ bytes "\n") = none := by
  obtain ⟨h1, h2, -⟩ := goodTag_spec ht
  have e : I ++ bytes "<" ++ tag ++ bytes ">" ++ bytes "\n" =
      I ++ ('<'.toNat :: (tag ++ '>'.toNat :: bytes "\n")) := by
    simp [bytes]
  have hb := scan_body tag [] (bytes "\n") h1
  have hI1 := scan_plain I hI
  rw [e, (scan_append _ _ _).1, (scan_append _ _ _).2, hI1.1, hI1.2]
  have hn1 : scanTags none (bytes "\n") = [] := by decide
  have hn2 : scanEnd none (bytes "\n") = none := by decide
  have hn : ¬ ('\n'.toNat = '<'.toNat) := by decide
  simp only [scanTags, scanEnd, if_true, hb.1, hb.2, List.nil_append, h2, hn1, hn2,
    if_neg hn, and_self]

/-- The tags of a line that closes an element, after text without `<`. -/
theorem scan_close (I tag : CStr) (hI : '<'.toNat ∉ I) (ht : goodTag tag = true) :
    scanTags none (I ++ bytes "</" ++ tag ++ bytes ">" ++ bytes "\n") = [Tok.closing tag] ∧
    scanEnd none (I ++ bytes "</" ++ tag ++ bytes ">" ++ bytes "\n") = none := by
  obtain ⟨h1, -, h3⟩ := goodTag_spec ht
  have e : I ++ bytes "</" ++ tag ++ bytes ">" ++ bytes "\n" =
      I ++ ('<'.toNat :: (slash :: (tag ++ '>'.toNat :: bytes "\n"))) := by
    simp [bytes, slash]
  have hb := scan_body tag [slash] (bytes "\n") h1
  have hI1 := scan_plain I hI
  have hs : slash ≠ '>'.toNat := by decide
  rw [e, (scan_append _ _ _).1, (scan_append _ _ _).2, hI1.1, hI1.2]
  have hn1 : scanTags none (bytes "\n") = [] := by decide
  have hn2 : scanEnd none (bytes "\n") = none := by decide
  have hn : ¬ ('\n'.toNat = '<'.toNat) := by decide
  simp only [scanTags, scanEnd, if_true, if_neg hs, List.nil_append, hb.1, hb.2,
    List.singleton_append, h3, hn1, hn2, if_neg hn, and_self]

/-- The tags of a line that holds an element with a text value, after text without `<`. -/
theorem scan_element (I tag V : CStr) (hI : '<'.toNat ∉ I) (ht : goodTag tag = true)
    (hV : '<'.toNat ∉ V) :
    scanTags none (I ++ bytes "<" ++ tag ++ bytes ">" ++ V ++ bytes "</" ++ tag ++ bytes ">"
        ++ bytes "\n") = [Tok.opening tag, Tok.closing tag] ∧
    scanEnd none (I ++ bytes "<" ++ tag ++ bytes ">" ++ V ++ bytes "</" ++ tag ++ bytes ">"
        ++ bytes "\n") = none := by
  obtain ⟨h1, h2, -⟩ := goodTag_spec ht
  have hc := scan_close V tag hV ht
  have e : I ++ bytes "<" ++ tag ++ bytes ">" ++ V ++ bytes "</" ++ tag ++ bytes ">"
        ++ bytes "\n" =
      I ++ ('<'.toNat :: (tag ++ '>'.toNat ::
        (V ++ bytes "</" ++ tag ++ bytes ">" ++ bytes "\n"))) := by
    simp [bytes]
  have hb := scan_body tag [] (V ++ bytes "</" ++ tag ++ bytes ">" ++ bytes "\n") h1
  have hI1 := scan_plain I hI
  rw [e, (scan_append _ _ _).1, (scan_append _ _ _).2, hI1.1, hI1.2]
  simp only [scanTags, scanEnd, if_true, hb.1, hb.2, List.nil_append, h2, hc.1, hc.2]
  simp

/-! ## The tags written by the calls of the builder -/

theorem indentLoop_plain : ∀ n : Nat, '<'.toNat ∉ indentLoop n []
  | 0 => by simp [indentLoop]
  | n + 1 => by
    rw [indentLoop, indentLoop_eq]
    intro h
    rcases List.mem_append.1 h with h | h
    · revert h; decide
    · exact indentLoop_plain n h

theorem adds_refl (x : XmlStrBuilder_t) (hx : scanEnd none x.os_m = none) : x.Adds x [] :=
  ⟨rfl, rfl, hx, by simp⟩

theorem adds_trans {x y z : XmlStrBuilder_t} {ts us : List Tok} (h1 : x.Adds y ts)
    (h2 : y.Adds z us) : x.Adds z (ts ++ us) :=
  ⟨h2.1.trans h1.1, h2.2.1.trans h1.2.1, h2.2.2.1, by
    rw [h2.2.2.2, h1.2.2.2, List.append_assoc]⟩

theorem adds_addTagAndValue (x : XmlStrBuilder_t) (hx : scanEnd none x.os_m = none)
    (tag V : CStr) (ht : goodTag tag = true) (hV : '<'.toNat ∉ V) :
    x.Adds (x.addTagAndValue tag V) [Tok.opening tag, Tok.closing tag] := by
  have key : (x.addTagAndValue tag V).os_m =
      x.os_m ++ (indentLoop x.indent_m.toNat [] ++ bytes "<" ++ tag ++ bytes ">" ++ V ++
        bytes "</" ++ tag ++ bytes ">" ++ bytes "\n") := by
    simp only [XmlStrBuilder_t.addTagAndValue, XmlStrBuilder_t.indent,
      indentLoop_eq x.indent_m.toNat x.os_m, List.append_assoc]
  have hs := scan_element (indentLoop x.indent_m.toNat []) tag V (indentLoop_plain _) ht hV
  refine ⟨rfl, rfl, ?_, ?_⟩
  · rw [key, (scan_append _ _ _).2, hx, hs.2]
  · rw [key, (scan_append _ _ _).1, hx, hs.1]

theorem adds_addTagAndVararg (x : XmlStrBuilder_t) (hx : scanEnd none x.os_m = none)
    (tag V : CStr) (ht : goodTag tag = true) (hV : '<'.toNat ∉ V) :
    x.Adds (x.addTagAndVararg tag V) [Tok.opening tag, Tok.closing tag] := by
  have hV1 : '<'.toNat ∉ V.take 159 := fun h => hV (List.mem_of_mem_take h)
  have key : (x.addTagAndVararg tag V).os_m =
      x.os_m ++ (indentLoop x.indent_m.toNat [] ++ bytes "<" ++ tag ++ bytes ">" ++
        V.take 159 ++ bytes "</" ++ tag ++ bytes ">" ++ bytes "\n") := by
    simp only [XmlStrBuilder_t.addTagAndVararg, XmlStrBuilder_t.indent,
      indentLoop_eq x.indent_m.toNat x.os_m, List.append_assoc]
  have hs := scan_element (indentLoop x.indent_m.toNat []) tag (V.take 159)
    (indentLoop_plain _) ht hV1
  refine ⟨rfl, rfl, ?_, ?_⟩
  · rw [key, (scan_append _ _ _).2, hx, hs.2]
  · rw [key, (scan_append _ _ _).1, hx, hs.1]

theorem pushTag_scan (x : XmlStrBuilder_t) (hx : scanEnd none x.os_m = none) (t : CStr)
    (ht : goodTag t = true) :
    (x.pushTag t).tags_m = x.tags_m ++ [t] ∧ (x.pushTag t).indent_m = x.indent_m + 1 ∧
    scanEnd none (x.pushTag t).os_m = none ∧
    scanTags none (x.pushTag t).os_m = scanTags none x.os_m ++ [Tok.opening t] := by
  have key : (x.pushTag t).os_m =
      x.os_m ++ (indentLoop x.indent_m.toNat [] ++ bytes "<" ++ t ++ bytes ">" ++ bytes "\n") := by
    simp only [XmlStrBuilder_t.pushTag, XmlStrBuilder_t.indent,
      indentLoop_eq x.indent_m.toNat x.os_m, List.append_assoc]
  have hs := scan_open (indentLoop x.indent_m.toNat []) t (indentLoop_plain _) ht
  refine ⟨rfl, rfl, ?_, ?_⟩
  · rw [key, (scan_append _ _ _).2, hx, hs.2]
  · rw [key, (scan_append _ _ _).1, hx, hs.1]

theorem popTag_scan (x : XmlStrBuilder_t) (hx : scanEnd none x.os_m = none) (ts : List CStr)
    (t : CStr) (hts : x.tags_m = ts ++ [t]) (ht : goodTag t = true) :
    x.popTag.tags_m = ts ∧ x.popTag.indent_m = x.indent_m - 1 ∧
    scanEnd none x.popTag.os_m = none ∧
    scanTags none x.popTag.os_m = scanTags none x.os_m ++ [Tok.closing t] ∧
    x.popTag.os_m = x.os_m ++ indentLoop (x.indent_m - 1).toNat [] ++ bytes "</" ++ t ++
      bytes ">" ++ bytes "\n" := by
  have hl : x.tags_m.getLast? = some t := by rw [hts]; simp
  have key : x.popTag.os_m =
      x.os_m ++ (indentLoop (x.indent_m - 1).toNat [] ++ bytes "</" ++ t ++ bytes ">" ++
        bytes "\n") := by
    simp only [XmlStrBuilder_t.popTag, hl, XmlStrBuilder_t.indent,
      indentLoop_eq (x.indent_m - 1).toNat x.os_m, List.append_assoc]
  have hs := scan_close (indentLoop (x.indent_m - 1).toNat []) t (indentLoop_plain _) ht
  refine ⟨?_, ?_, ?_, ?_, ?_⟩
  · simp only [XmlStrBuilder_t.popTag, hl, XmlStrBuilder_t.indent, hts]
    simp
  · simp only [XmlStrBuilder_t.popTag, hl, XmlStrBuilder_t.indent]
  · rw [key, (scan_append _ _ _).2, hx, hs.2]
  · rw [key, (scan_append _ _ _).1, hx, hs.1]
  · rw [key]; simp only [List.append_assoc]

theorem adds_nested (x : XmlStrBuilder_t) (hx : scanEnd none x.os_m = none) (t : CStr)
    (ht : goodTag t = true) (y : XmlStrBuilder_t) (inner : List Tok)
    (h : (x.pushTag t).Adds y inner) :
    x.Adds y.popTag (Tok.opening t :: inner ++ [Tok.closing t]) := by
  obtain ⟨p1, p2, p3, p4⟩ := pushTag_scan x hx t ht
  obtain ⟨a1, a2, a3, a4⟩ := h
  obtain ⟨q1, q2, q3, q4, -⟩ := popTag_scan y a3 x.tags_m t (a1.trans p1) ht
  refine ⟨q1, ?_, q3, ?_⟩
  · rw [q2, a2, p2]; omega
  · rw [q4, a4, p4]; simp

/-! ## The values written by `processEventAsXml` hold no `<` -/

theorem escape_plain (s : CStr) : '<'.toNat ∉ s.flatMap escapeByte := by
  intro h
  obtain ⟨b, -, hb⟩ := List.mem_flatMap.1 h
  unfold escapeByte at hb
  split at hb
  · revert hb; decide
  split at hb
  · revert hb; decide
  split at hb
  · revert hb; decide
  · rename_i h1 h2 h3
    simp only [List.mem_singleton] at hb
    exact h2 hb.symm

theorem digitChar_plain : ∀ d : Nat, (Nat.digitChar d).toNat ≠ '<'.toNat
  | 0 => by decide
  | 1 => by decide
  | 2 => by decide
  | 3 => by decide
  | 4 => by decide
  | 5 => by decide
  | 6 => by decide
  | 7 => by decide
  | 8 => by decide
  | 9 => by decide
  | 10 => by decide
  | 11 => by decide
  | 12 => by decide
  | 13 => by decide
  | 14 => by decide
  | 15 => by decide
  | d + 16 => by
    have h : Nat.digitChar (d + 16) = '*' := by
      unfold Nat.digitChar
      simp
    rw [h]
    decide

theorem toDigitsCore_plain (b : Nat) :
    ∀ (f n : Nat) (acc : List Char), (∀ ch ∈ acc, ch.toNat ≠ '<'.toNat) →
      ∀ ch ∈ Nat.toDigitsCore b f n acc, ch.toNat ≠ '<'.toNat
  | 0, _, acc, h => by simpa [Nat.toDigitsCore] using h
  | f + 1, n, acc, h => by
    have hacc : ∀ ch ∈ Nat.digitChar (n % b) :: acc, ch.toNat ≠ '<'.toNat := by
      intro ch hch
      rcases List.mem_cons.1 hch with rfl | hch
      · exact digitChar_plain _
      · exact h ch hch
    rw [Nat.toDigitsCore]
    split
    · exact hacc
    · exact toDigitsCore_plain b f (n / b) _ hacc

theorem toDigits_plain (b n : Nat) : '<'.toNat ∉ (Nat.toDigits b n).map Char.toNat := by
  intro h
  obtain ⟨ch, hch, he⟩ := List.mem_map.1 h
  exact toDigitsCore_plain b (n + 1) n [] (by simp) ch hch he

theorem fmtD_plain (i : Int) : '<'.toNat ∉ fmtD i := by
  cases i with
  | ofNat n =>
    show '<'.toNat ∉ (Nat.repr n).toList.map Char.toNat
    exact toDigits_plain 10 n
  | negSucc m =>
    show '<'.toNat ∉ ("-" ++ Nat.repr (m + 1)).data.map Char.toNat
    rw [String.data_append, List.map_append]
    intro h
    rcases List.mem_append.1 h with h | h
    · revert h; decide
    · exact toDigits_plain 10 (m + 1) h

theorem fmtX_plain (n : Nat) : '<'.toNat ∉ bytes "0x" ++ fmtX n := by
  intro h
  rcases List.mem_append.1 h with h | h
  · revert h; decide
  · exact toDigits_plain 16 n h

theorem fmtX08_plain (n : Nat) : '<'.toNat ∉ bytes "0x" ++ fmtX08 n := by
  intro h
  rcases List.mem_append.1 h with h | h
  · revert h; decide
  · unfold fmtX08 at h
    rcases List.mem_append.1 h with h | h
    · exact absurd (List.mem_replicate.1 h).2 (by decide)
    · exact toDigits_plain 16 n h

theorem getVnodeTypeString_plain (m : Nat) : '<'.toNat ∉ getVnodeTypeString m := by
  unfold getVnodeTypeString
  repeat' split
  all_goals decide

theorem getModeString_plain (m : Nat) : '<'.toNat ∉ getModeString m := by
  have hb : ∀ (mask : Nat) (ch : Char), ch.toNat ≠ '<'.toNat → modeBit m mask ch ≠ '<'.toNat := by
    intro mask ch h
    unfold modeBit
    split
    · exact h
    · decide
  have ht : modeTypeChar m ≠ '<'.toNat := by
    unfold modeTypeChar
    repeat' split
    all_goals decide
  unfold getModeString
  simp only [List.mem_cons, List.mem_singleton, List.not_mem_nil, or_false, not_or]
  refine ⟨ht.symm, ?_, ?_, ?_, ?_, ?_, ?_, ?_, ?_, ?_⟩ <;>
    exact fun h => hb _ _ (by decide) h.symm

/-! ## The tags written for an argument and for an event -/

theorem goodTag_argTag (c : FsEventsH) (t : Nat) : goodTag (argTag c t) = true := by
  unfold argTag
  by_cases h0 : t = c.FSE_ARG_VNODE
  · rw [if_pos h0]; decide
  rw [if_neg h0]
  by_cases h1 : t = c.FSE_ARG_STRING
  · rw [if_pos h1]; decide
  rw [if_neg h1]
  by_cases h2 : t = c.FSE_ARG_PATH
  · rw [if_pos h2]; decide
  rw [if_neg h2]
  by_cases h3 : t = c.FSE_ARG_INT32
  · rw [if_pos h3]; decide
  rw [if_neg h3]
  by_cases h4 : t = c.FSE_ARG_INT64
  · rw [if_pos h4]; decide
  rw [if_neg h4]
  by_cases h5 : t = c.FSE_ARG_RAW
  · rw [if_pos h5]; decide
  rw [if_neg h5]
  by_cases h6 : t = c.FSE_ARG_INO
  · rw [if_pos h6]; decide
  rw [if_neg h6]
  by_cases h7 : t = c.FSE_ARG_UID
  · rw [if_pos h7]; decide
  rw [if_neg h7]
  by_cases h8 : t = c.FSE_ARG_DEV
  · rw [if_pos h8]; decide
  rw [if_neg h8]
  by_cases h9 : t = c.FSE_ARG_MODE
  · rw [if_pos h9]; decide
  rw [if_neg h9]
  by_cases h10 : t = c.FSE_ARG_GID
  · rw [if_pos h10]; decide
  rw [if_neg h10]
  decide

theorem goodTag_xmlRootTag (c : FsEventsH) (k : Int) : goodTag (xmlRootTag c k) = true := by
  unfold xmlRootTag
  split_ifs <;> decide

theorem adds_xmlPathArg {d : Bool} {vec : List CStr} {buf : List Nat} {pos : Nat} {tag : CStr}
    {sp sp1 : Bool} {x y : XmlStrBuilder_t} {o : List CStr}
    (hx : scanEnd none x.os_m = none) (ht : goodTag tag = true)
    (h : xmlPathArg d vec buf pos tag sp x = Except.ok (sp1, y, o)) :
    x.Adds y [Tok.opening tag, Tok.closing tag] := by
  unfold xmlPathArg at h
  cases hc : cstrAt buf pos with
  | none => simp [hc] at h
  | some path =>
    simp only [hc, xmlSafe_eq] at h
    injection h with h
    injection h with _ h
    injection h with h _
    rw [← h]
    exact adds_addTagAndValue x hx tag _ ht (escape_plain path)

theorem adds_xmlIdArg {buf : List Nat} {pos : Nat} {tag : CStr} {lookup : Nat → CStr}
    {x y : XmlStrBuilder_t} (hx : scanEnd none x.os_m = none) (ht : goodTag tag = true)
    (h : xmlIdArg buf pos tag lookup x = Except.ok y) :
    x.Adds y (elemToks tag [bytes "int", bytes "name"]) := by
  unfold xmlIdArg at h
  cases hr : readU32 buf pos with
  | none => simp [hr] at h
  | some id =>
    simp only [hr, xmlSafe_eq] at h
    injection h with h
    rw [← h]
    obtain ⟨p1, p2, p3, p4⟩ := pushTag_scan x hx tag ht
    have a1 := adds_addTagAndVararg (x.pushTag tag) p3 (bytes "int") (fmtD (toInt32 id))
      (by decide) (fmtD_plain _)
    have a2 := adds_addTagAndValue _ a1.2.2.1 (bytes "name") ((lookup id).flatMap escapeByte)
      (by decide) (escape_plain _)
    exact adds_nested x hx tag ht _ _ (adds_trans a1 a2)

theorem adds_xmlOtherArg {c : FsEventsH} {env : Env} {buf : List Nat} {pos argtype arglen : Nat}
    {x y : XmlStrBuilder_t} (hx : scanEnd none x.os_m = none)
    (n1 : argtype ≠ c.FSE_ARG_VNODE) (n2 : argtype ≠ c.FSE_ARG_STRING)
    (n3 : argtype ≠ c.FSE_ARG_PATH)
    (h : xmlOtherArg c env buf pos argtype arglen x = Except.ok y) :
    x.Adds y (argToks c argtype) := by
  unfold xmlOtherArg at h
  unfold argToks argTag argInner
  simp only [if_neg n1, if_neg n2, if_neg n3]
  by_cases t1 : argtype = c.FSE_ARG_INT32
  · simp only [if_pos t1] at h ⊢
    cases hr : readI32 buf pos with
    | none => simp [hr] at h
    | some v =>
      simp only [hr] at h
      injection h with h
      rw [← h]
      exact adds_addTagAndVararg x hx _ _ (by decide) (fmtD_plain _)
  simp only [if_neg t1] at h ⊢
  by_cases t2 : argtype = c.FSE_ARG_INT64
  · simp only [if_pos t2] at h ⊢
    cases hr : readI64 buf pos with
    | none => simp [hr] at h
    | some v =>
      simp only [hr] at h
      injection h with h
      rw [← h]
      exact adds_addTagAndVararg x hx _ _ (by decide) (fmtD_plain _)
  simp only [if_neg t2] at h ⊢
  by_cases t3 : argtype = c.FSE_ARG_RAW
  · simp only [if_pos t3] at h ⊢
    injection h with h
    rw [← h]
    obtain ⟨p1, p2, p3, p4⟩ := pushTag_scan x hx (bytes "raw") (by decide)
    have a1 := adds_addTagAndVararg (x.pushTag (bytes "raw")) p3 (bytes "length")
      (fmtD arglen) (by decide) (fmtD_plain _)
    exact adds_nested x hx _ (by decide) _ _ a1
  simp only [if_neg t3] at h ⊢
  by_cases t4 : argtype = c.FSE_ARG_INO
  · simp only [if_pos t4] at h ⊢
    cases hr : readU64 buf pos with
    | none => simp [hr] at h
    | some v =>
      simp only [hr] at h
      injection h with h
      rw [← h]
      exact adds_addTagAndVararg x hx _ _ (by decide) (fmtD_plain _)
  simp only [if_neg t4] at h ⊢
  by_cases t5 : argtype = c.FSE_ARG_UID
  · simp only [if_pos t5] at h ⊢
    exact adds_xmlIdArg hx (by decide) h
  simp only [if_neg t5] at h ⊢
  by_cases t6 : argtype = c.FSE_ARG_DEV
  · simp only [if_pos t6] at h ⊢
    cases hr : readU32 buf pos with
    | none => simp [hr] at h
    | some v =>
      simp only [hr] at h
      injection h with h
      rw [← h]
      obtain ⟨p1, p2, p3, p4⟩ := pushTag_scan x hx (bytes "device") (by decide)
      have a1 := adds_addTagAndVararg (x.pushTag (bytes "device")) p3 (bytes "value")
        (bytes "0x" ++ fmtX08 v) (by decide) (fmtX08_plain _)
      have a2 := adds_addTagAndVararg _ a1.2.2.1 (bytes "major")
        (fmtD ((v >>> 24) &&& 0xff : Nat)) (by decide) (fmtD_plain _)
      have a3 := adds_addTagAndVararg _ a2.2.2.1 (bytes "minor")
        (fmtD (v &&& 0xffffff : Nat)) (by decide) (fmtD_plain _)
      have hn := adds_nested x hx _ (by decide) _ _ (adds_trans (adds_trans a1 a2) a3)
      simpa [elemToks] using hn
  simp only [if_neg t6] at h ⊢
  by_cases t7 : argtype = c.FSE_ARG_MODE
  · simp only [if_pos t7] at h ⊢
    cases hr : readU32 buf pos with
    | none => simp [hr] at h
    | some v =>
      simp only [hr] at h
      injection h with h
      rw [← h]
      obtain ⟨p1, p2, p3, p4⟩ := pushTag_scan x hx (bytes "mode") (by decide)
      have a1 := adds_addTagAndVararg (x.pushTag (bytes "mode")) p3 (bytes "int")
        (bytes "0x" ++ fmtX v) (by decide) (fmtX_plain _)
      have a2 := adds_addTagAndVararg _ a1.2.2.1 (bytes "vnode-type")
        (getVnodeTypeString v) (by decide) (getVnodeTypeString_plain _)
      have a3 := adds_addTagAndVararg _ a2.2.2.1 (bytes "str")
        (getModeString v) (by decide) (getModeString_plain _)
      have hn := adds_nested x hx _ (by decide) _ _ (adds_trans (adds_trans a1 a2) a3)
      simpa [elemToks] using hn
  simp only [if_neg t7] at h ⊢
  by_cases t8 : argtype = c.FSE_ARG_GID
  · simp only [if_pos t8] at h ⊢
    exact adds_xmlIdArg hx (by decide) h
  simp only [if_neg t8] at h ⊢
  injection h with h
  rw [← h]
  exact adds_addTagAndVararg x hx _ _ (by decide) (fmtD_plain _)

theorem adds_xmlArg {c : FsEventsH} {env : Env} {d : Bool} {vec : List CStr}
    {buf : List Nat} {pos argtype arglen : Nat} {sp sp1 : Bool} {x y : XmlStrBuilder_t}
    {o : List CStr} (hx : scanEnd none x.os_m = none)
    (h : xmlArg c env d vec buf pos argtype arglen sp x = Except.ok (sp1, y, o)) :
    x.Adds y (argToks c argtype) := by
  unfold xmlArg at h
  by_cases t1 : argtype = c.FSE_ARG_VNODE
  · rw [if_pos t1] at h
    have e : argToks c argtype = [Tok.opening (bytes "vnode"), Tok.closing (bytes "vnode")] := by
      unfold argToks argTag argInner elemToks
      rw [if_pos t1, if_pos t1]
      rfl
    rw [e]
    exact adds_xmlPathArg hx (by decide) h
  rw [if_neg t1] at h
  by_cases t2 : argtype = c.FSE_ARG_STRING
  · rw [if_pos t2] at h
    have e : argToks c argtype =
        [Tok.opening (bytes "string"), Tok.closing (bytes "string")] := by
      unfold argToks argTag argInner elemToks
      rw [if_neg t1, if_pos t2, if_neg t1, if_pos t2]
      rfl
    rw [e]
    exact adds_xmlPathArg hx (by decide) h
  rw [if_neg t2] at h
  by_cases t3 : argtype = c.FSE_ARG_PATH
  · rw [if_pos t3] at h
    have e : argToks c argtype = [Tok.opening (bytes "path"), Tok.closing (bytes "path")] := by
      unfold argToks argTag argInner elemToks
      rw [if_neg t1, if_neg t2, if_pos t3, if_neg t1, if_neg t2, if_pos t3]
      rfl
    rw [e]
    exact adds_xmlPathArg hx (by decide) h
  rw [if_neg t3] at h
  cases ho : xmlOtherArg c env buf pos argtype arglen x with
  | error f => simp [ho] at h
  | ok x1 =>
    simp only [ho] at h
    injection h with h
    injection h with _ h
    injection h with h _
    rw [← h]
    exact adds_xmlOtherArg hx t1 t2 t3 ho

theorem adds_clean {x y : XmlStrBuilder_t} {ts : List Tok} (h : x.Adds y ts) :
    scanEnd none y.os_m = none := h.2.2.1

theorem adds_done (x : XmlStrBuilder_t) (hx : scanEnd none x.os_m = none)
    (n : Nat) :
    x.Adds (x.addTagAndVararg (bytes "done") (bytes "0x" ++ fmtX n))
      (elemToks (bytes "done") []) :=
  adds_addTagAndVararg x hx _ _ (by decide) (fmtX_plain n)

theorem adds_xmlArgs (c : FsEventsH) (env : Env) (d : Bool) (vec : List CStr)
    (buf : List Nat) :
    ∀ (fuel pos : Nat) (sp : Bool) (x : XmlStrBuilder_t) (out : List CStr) (pos1 : Nat)
      (sp1 : Bool) (y : XmlStrBuilder_t) (out1 : List CStr),
      scanEnd none x.os_m = none →
      xmlArgs c env d vec buf fuel pos sp x out = Except.ok (pos1, sp1, y, out1) →
      ∃ types : List Nat,
        x.Adds y (types.flatMap (argToks c) ++ elemToks (bytes "done") [])
  | 0, _, _, _, _, _, _, _, _, _, h => by simp [xmlArgs] at h
  | fuel + 1, pos, sp, x, out, pos1, sp1, y, out1, hx, h => by
    unfold xmlArgs at h
    cases h1 : readU16 buf pos with
    | none => simp [h1] at h
    | some argtype =>
      simp only [h1] at h
      by_cases hd : argtype = c.FSE_ARG_DONE
      · rw [if_pos hd] at h
        injection h with h
        injection h with _ h
        injection h with _ h
        injection h with h _
        rw [← h]
        exact ⟨[], by simpa using adds_done x hx argtype⟩
      · rw [if_neg hd] at h
        cases h2 : readU16 buf (pos + 2) with
        | none => simp [h2] at h
        | some arglen =>
          simp only [h2] at h
          cases h3 : xmlArg c env d vec buf (pos + 2 + 2) argtype arglen sp x with
          | error f => simp [h3] at h
          | ok r =>
            obtain ⟨sp2, x1, o1⟩ := r
            simp only [h3] at h
            have a1 := adds_xmlArg hx h3
            obtain ⟨types, a2⟩ := adds_xmlArgs c env d vec buf fuel _ _ _ _ _ _ _ _
              (adds_clean a1) h
            refine ⟨argtype :: types, ?_⟩
            have := adds_trans a1 a2
            simpa [List.flatMap_cons, List.append_assoc] using this

theorem adds_renderArgs (c : FsEventsH) (env : Env) :
    ∀ (args : List Arg) (x y : XmlStrBuilder_t), scanEnd none x.os_m = none →
      renderArgs c env args x = Except.ok y →
      x.Adds y (args.flatMap (fun a => argToks c a.argtype))
  | [], x, y, hx, h => by
    simp only [renderArgs] at h
    injection h with h
    rw [← h]
    exact adds_refl x hx
  | a :: rest, x, y, hx, h => by
    unfold renderArgs at h
    cases h1 : renderArg c env x a with
    | error f => simp [h1] at h
    | ok x1 =>
      simp only [h1] at h
      have a1 : x.Adds x1 (argToks c a.argtype) := by
        unfold renderArg at h1
        cases h2 : xmlArg c env false [] a.payload 0 a.argtype a.payload.length false x with
        | error f => simp [h2] at h1
        | ok r =>
          obtain ⟨sp2, x2, o2⟩ := r
          simp only [h2] at h1
          injection h1 with h1
          rw [← h1]
          exact adds_xmlArg hx h2
      have a2 := adds_renderArgs c env rest x1 y (adds_clean a1) h
      have := adds_trans a1 a2
      simpa [List.flatMap_cons] using this

/-- The tags of the head of a fragment. -/
theorem xmlHead_scan {c : FsEventsH} {env : Env} {n k p : Int} {xml x : XmlStrBuilder_t}
    (h : xmlHead c env n k p xml = Except.ok x) :
    x.tags_m = [xmlRootTag c k] ∧ x.indent_m = 1 ∧ scanEnd none x.os_m = none ∧
    scanTags none x.os_m = Tok.opening (xmlRootTag c k) ::
      (elemToks (bytes "eventNumber") [] ++ elemToks (bytes "process") [bytes "id", bytes "name"]) := by
  unfold xmlHead at h
  simp only [xmlSafe_eq] at h
  injection h with h
  rw [← h]
  have hc : scanEnd none (xml.clear).os_m = none := rfl
  obtain ⟨p1, p2, p3, p4⟩ := pushTag_scan xml.clear hc (xmlRootTag c k) (goodTag_xmlRootTag c k)
  have a1 := adds_addTagAndVararg (xml.clear.pushTag (xmlRootTag c k)) p3 (bytes "eventNumber")
    (fmtD n) (by decide) (fmtD_plain _)
  obtain ⟨q1, q2, q3, q4⟩ := pushTag_scan _ (adds_clean a1) (bytes "process") (by decide)
  have b1 := adds_addTagAndVararg _ q3 (bytes "id") (fmtD p) (by decide) (fmtD_plain _)
  have b2 := adds_addTagAndValue _ (adds_clean b1) (bytes "name")
    ((env.getProcessName p).flatMap escapeByte) (by decide) (escape_plain _)
  have a2 := adds_nested _ (adds_clean a1) (bytes "process") (by decide) _ _ (adds_trans b1 b2)
  have a3 := adds_trans a1 a2
  refine ⟨a3.1.trans p1, ?_, a3.2.2.1, ?_⟩
  · rw [a3.2.1, p2]; rfl
  · rw [a3.2.2.2, p4]
    simp [elemToks]
    rfl

theorem openAfter_append :
    ∀ (ts us : List Tok) (st : List CStr),
      openAfter (ts ++ us) st = (openAfter ts st).bind (fun st1 => openAfter us st1)
  | [], us, st => by simp [openAfter]
  | Tok.opening n :: ts, us, st => by
    simp only [List.cons_append, openAfter]
    exact openAfter_append ts us (n :: st)
  | Tok.closing n :: ts, us, [] => by simp [openAfter]
  | Tok.closing n :: ts, us, top :: st => by
    simp only [List.cons_append, openAfter]
    split
    · exact openAfter_append ts us st
    · rfl

theorem openAfter_pairs :
    ∀ (inner : List CStr) (rest : List Tok) (st : List CStr),
      openAfter (inner.flatMap (fun t => [Tok.opening t, Tok.closing t]) ++ rest) st =
        openAfter rest st
  | [], rest, st => by simp
  | a :: inner, rest, st => by
    simp only [List.flatMap_cons, List.cons_append, List.nil_append, List.append_assoc,
      openAfter, if_true]
    exact openAfter_pairs inner rest st

theorem openAfter_elem (t : CStr) (inner : List CStr) (rest : List Tok) (st : List CStr) :
    openAfter (elemToks t inner ++ rest) st = openAfter rest st := by
  have e : elemToks t inner ++ rest =
      Tok.opening t :: (inner.flatMap (fun t => [Tok.opening t, Tok.closing t]) ++
        Tok.closing t :: rest) := by
    simp [elemToks]
  rw [e, openAfter, openAfter_pairs, openAfter, if_pos rfl]

theorem openAfter_args (c : FsEventsH) :
    ∀ (types : List Nat) (rest : List Tok) (st : List CStr),
      openAfter (types.flatMap (argToks c) ++ rest) st = openAfter rest st
  | [], rest, st => by simp
  | a :: types, rest, st => by
    rw [List.flatMap_cons, List.append_assoc, argToks, openAfter_elem]
    exact openAfter_args c types rest st

theorem childrenAt_pairs :
    ∀ (inner : List CStr) (rest : List Tok),
      childrenAt 2 (inner.flatMap (fun t => [Tok.opening t, Tok.closing t]) ++ rest) =
        childrenAt 2 rest
  | [], rest => by simp
  | a :: inner, rest => by
    simp only [List.flatMap_cons, List.cons_append, List.nil_append, List.append_assoc,
      childrenAt]
    simpa using childrenAt_pairs inner rest

theorem childrenAt_elem (t : CStr) (inner : List CStr) (rest : List Tok) :
    childrenAt 1 (elemToks t inner ++ rest) = t :: childrenAt 1 rest := by
  have e : elemToks t inner ++ rest =
      Tok.opening t :: (inner.flatMap (fun t => [Tok.opening t, Tok.closing t]) ++
        Tok.closing t :: rest) := by
    simp [elemToks]
  rw [e, childrenAt, childrenAt_pairs, childrenAt, if_pos rfl]
  rfl

theorem childrenAt_args (c : FsEventsH) :
    ∀ (types : List Nat) (rest : List Tok),
      childrenAt 1 (types.flatMap (argToks c) ++ rest) =
        types.map (argTag c) ++ childrenAt 1 rest
  | [], rest => by simp
  | a :: types, rest => by
    rw [List.flatMap_cons, List.append_assoc, argToks, childrenAt_elem,
      childrenAt_args c types rest]
    rfl

/-- The builder at the end of an event: once the root element is closed, no element is
open and the output is well nested; the children of the root are the event number, the
process, one element per argument and the end marker. -/
theorem finish_scan (c : FsEventsH) (x : XmlStrBuilder_t) (root : CStr) (types : List Nat)
    (h1 : x.tags_m = [root]) (h2 : x.indent_m = 1) (hx : scanEnd none x.os_m = none)
    (hroot : goodTag root = true)
    (hs : scanTags none x.os_m = Tok.opening root ::
      (elemToks (bytes "eventNumber") [] ++ elemToks (bytes "process") [bytes "id", bytes "name"])
        ++ (types.flatMap (argToks c) ++ elemToks (bytes "done") [])) :
    x.popTag.tags_m = [] ∧ x.popTag.indent_m = 0 ∧ WellNested x.popTag.os_m ∧
    rootChildren x.popTag.os_m =
      [bytes "eventNumber", bytes "process"] ++ types.map (argTag c) ++ [bytes "done"] ∧
    scanTags none x.popTag.os_m = Tok.opening root ::
      (elemToks (bytes "eventNumber") [] ++ elemToks (bytes "process") [bytes "id", bytes "name"])
        ++ (types.flatMap (argToks c) ++ elemToks (bytes "done") []) ++ [Tok.closing root] := by
  obtain ⟨q1, q2, q3, q4, -⟩ := popTag_scan x hx [] root (by simpa using h1) hroot
  have hall : scanTags none x.popTag.os_m = Tok.opening root ::
      (elemToks (bytes "eventNumber") [] ++ (elemToks (bytes "process") [bytes "id", bytes "name"]
        ++ (types.flatMap (argToks c) ++ (elemToks (bytes "done") [] ++ [Tok.closing root])))) := by
    rw [q4, hs]
    simp only [List.cons_append, List.append_assoc]
  refine ⟨q1, by rw [q2, h2]; rfl, ⟨q3, ?_⟩, ?_, ?_⟩
  · rw [hall, openAfter, openAfter_elem, openAfter_elem, openAfter_args, openAfter_elem,
      openAfter, if_pos rfl]
    rfl
  · unfold rootChildren
    rw [hall, childrenAt, childrenAt_elem, childrenAt_elem, childrenAt_args, childrenAt_elem]
    simp [childrenAt]
  · rw [hall]
    simp only [List.cons_append, List.append_assoc]

/-- One round of the event loop of `processEventAsXml`, on any buffer: if the head and the
argument loop complete, the closing `popTag` leaves no element open and a well-nested
output. -/
theorem event_scan {c : FsEventsH} {env : Env} {d : Bool} {vec : List CStr} {buf : List Nat}
    {n k p : Int} {xml x1 x2 : XmlStrBuilder_t} {fuel pos pos1 : Nat} {sp sp1 : Bool}
    {out out1 : List CStr}
    (hh : xmlHead c env n k p xml = Except.ok x1)
    (ha : xmlArgs c env d vec buf fuel pos sp x1 out = Except.ok (pos1, sp1, x2, out1)) :
    x2.popTag.tags_m = [] ∧ x2.popTag.indent_m = 0 ∧ WellNested x2.popTag.os_m ∧
    ∃ types : List Nat, rootChildren x2.popTag.os_m =
      [bytes "eventNumber", bytes "process"] ++ types.map (argTag c) ++ [bytes "done"] := by
  obtain ⟨h1, h2, h3, h4⟩ := xmlHead_scan hh
  obtain ⟨types, a1, a2, a3, a4⟩ := adds_xmlArgs c env d vec buf fuel pos sp x1 out pos1 sp1 x2
    out1 h3 ha
  obtain ⟨r1, r2, r3, r4, -⟩ := finish_scan c x2 (xmlRootTag c k) types (a1.trans h1)
    (a2.trans h2) a3 (goodTag_xmlRootTag c k) (by rw [a4, h4])
  exact ⟨r1, r2, r3, types, r4⟩

theorem xmlArg_quiet {c : FsEventsH} {env : Env} {vec : List CStr} {buf : List Nat}
    {pos argtype arglen : Nat} {sp sp1 : Bool} {x y : XmlStrBuilder_t} {o : List CStr}
    (h : xmlArg c env false vec buf pos argtype arglen sp x = Except.ok (sp1, y, o)) :
    o = [] := by
  have hp : ∀ tag : CStr, xmlPathArg false vec buf pos tag sp x = Except.ok (sp1, y, o) →
      o = [] := by
    intro tag hp
    unfold xmlPathArg at hp
    cases hc : cstrAt buf pos with
    | none => simp [hc] at hp
    | some path =>
      simp only [hc, xmlSafe_eq] at hp
      injection hp with hp
      injection hp with _ hp
      injection hp with _ hp
      rw [← hp]
      cases sp
      · exact isMonitoredPath_snd_quiet vec path
      · rfl
  unfold xmlArg at h
  split at h
  · exact hp _ h
  split at h
  · exact hp _ h
  split at h
  · exact hp _ h
  cases ho : xmlOtherArg c env buf pos argtype arglen x with
  | error f => simp [ho] at h
  | ok x1 =>
    simp only [ho] at h
    injection h with h
    injection h with _ h
    injection h with _ h
    exact h.symm

theorem xmlArgs_quiet (c : FsEventsH) (env : Env) (vec : List CStr) (buf : List Nat) :
    ∀ (fuel pos : Nat) (sp : Bool) (x : XmlStrBuilder_t) (out : List CStr) (pos1 : Nat)
      (sp1 : Bool) (y : XmlStrBuilder_t) (out1 : List CStr),
      xmlArgs c env false vec buf fuel pos sp x out = Except.ok (pos1, sp1, y, out1) →
      out1 = out
  | 0, _, _, _, _, _, _, _, _, h => by simp [xmlArgs] at h
  | fuel + 1, pos, sp, x, out, pos1, sp1, y, out1, h => by
    unfold xmlArgs at h
    cases h1 : readU16 buf pos with
    | none => simp [h1] at h
    | some argtype =>
      simp only [h1] at h
      by_cases hd : argtype = c.FSE_ARG_DONE
      · rw [if_pos hd] at h
        injection h with h
        injection h with _ h
        injection h with _ h
        injection h with _ h
        exact h.symm
      · rw [if_neg hd] at h
        cases h2 : readU16 buf (pos + 2) with
        | none => simp [h2] at h
        | some arglen =>
          simp only [h2] at h
          cases h3 : xmlArg c env false vec buf (pos + 2 + 2) argtype arglen sp x with
          | error f => simp [h3] at h
          | ok r =>
            obtain ⟨sp2, x1, o1⟩ := r
            simp only [h3] at h
            have := xmlArgs_quiet c env vec buf fuel _ _ _ _ _ _ _ _ h
            rw [this, xmlArg_quiet h3, List.append_nil]

theorem xmlLoop_nested (c : FsEventsH) (env : Env) (vec : List CStr) (buf : List Nat) :
    ∀ (fuel pos : Nat) (counter : Int) (xml : XmlStrBuilder_t) (out : List CStr)
      (counter1 : Int) (out1 : List CStr), (∀ f ∈ out, WellNested f) →
      xmlLoop c env false vec buf fuel pos counter xml out = Except.ok (counter1, out1) →
      ∀ f ∈ out1, WellNested f
  | 0, _, _, _, _, _, _, _, h => by simp [xmlLoop] at h
  | fuel + 1, pos, counter, xml, out, counter1, out1, hout, h => by
    unfold xmlLoop at h
    split at h
    · cases h1 : readI32 buf pos with
      | none => simp [h1] at h
      | some eventType =>
        simp only [h1] at h
        cases h2 : readI32 buf (pos + 4) with
        | none => simp [h2] at h
        | some pid =>
          simp only [h2] at h
          cases h3 : xmlHead c env (counter + 1) eventType pid xml with
          | error f => simp [h3] at h
          | ok x1 =>
            simp only [h3] at h
            cases h4 : xmlArgs c env false vec buf (buf.length + 1) (pos + 4 + 4) false x1 out with
            | error f => simp [h4] at h
            | ok r =>
              obtain ⟨pos1, sp, x2, o1⟩ := r
              simp only [h4] at h
              have hq := xmlArgs_quiet c env vec buf _ _ _ _ _ _ _ _ _ h4
              have he := (event_scan h3 h4).2.2.1
              refine xmlLoop_nested c env vec buf fuel _ _ _ _ _ _ ?_ h
              intro f hf
              rcases List.mem_append.1 hf with hf | hf
              · exact hout f (hq ▸ hf)
              · split at hf
                · simp only [List.mem_singleton] at hf
                  rw [hf]
                  exact he
                · simp at hf
    · injection h with h
      injection h with _ h
      rw [← h]
      exact hout

theorem processEventAsXml_nested (c : FsEventsH) (env : Env) (st st1 : State)
    (buf : List Nat) (out : List CStr)
    (h : processEventAsXml c env false st buf = Except.ok (st1, out)) :
    ∀ f ∈ out, WellNested f := by
  unfold processEventAsXml at h
  cases h1 : xmlLoop c env false st.monPathVec_s buf (buf.length + 1) 0 st.eventCounter_s
      XmlStrBuilder_t.new [] with
  | error f => simp [h1] at h
  | ok r =>
    obtain ⟨counter, o⟩ := r
    simp only [h1] at h
    injection h with h
    injection h with _ h
    rw [← h]
    exact xmlLoop_nested c env st.monPathVec_s buf _ _ _ _ _ _ _ (by simp) h1

/-- The tags of the fragment of an event. -/
theorem xmlFragment_scan {c : FsEventsH} {env : Env} {n : Int} {e : RawEvent} {frag : CStr}
    (h : xmlFragment c env n e = Except.ok frag) :
    WellNested frag ∧
    rootChildren frag = [bytes "eventNumber", bytes "process"] ++
      e.args.map (fun a => argTag c a.argtype) ++ [bytes "done"] ∧
    scanTags none frag = Tok.opening (xmlRootTag c e.kind) ::
      (elemToks (bytes "eventNumber") [] ++ elemToks (bytes "process") [bytes "id", bytes "name"])
        ++ (e.args.flatMap (fun a => argToks c a.argtype) ++ elemToks (bytes "done") [])
        ++ [Tok.closing (xmlRootTag c e.kind)] := by
  unfold xmlFragment at h
  cases h1 : xmlHead c env n e.kind e.pid XmlStrBuilder_t.new with
  | error f => simp [h1] at h
  | ok x1 =>
    simp only [h1] at h
    cases h2 : renderArgs c env e.args x1 with
    | error f => simp [h2] at h
    | ok x2 =>
      simp only [h2] at h
      injection h with h
      obtain ⟨g1, g2, g3, g4⟩ := xmlHead_scan h1
      have a1 := adds_renderArgs c env e.args x1 x2 g3 h2
      have a2 := adds_done x2 (adds_clean a1) c.FSE_ARG_DONE
      have a3 := adds_trans a1 a2
      have hm : e.args.flatMap (fun a => argToks c a.argtype) =
          (e.args.map Arg.argtype).flatMap (argToks c) := by
        induction e.args with
        | nil => rfl
        | cons a t ih => simp [List.flatMap_cons, ih]
      obtain ⟨r1, r2, r3, r4, r5⟩ := finish_scan c _ (xmlRootTag c e.kind)
        (e.args.map Arg.argtype) (a3.1.trans g1) (a3.2.1.trans g2) a3.2.2.1
        (goodTag_xmlRootTag c e.kind) (by rw [a3.2.2.2, g4, hm])
      rw [← h]
      refine ⟨r3, ?_, ?_⟩
      · rw [XmlStrBuilder_t.str, r4, List.map_map]
        rfl
      · rw [XmlStrBuilder_t.str, r5, hm]

/-! ## The indentation of the builder is the depth of its stack -/

theorem call_indent (x : XmlStrBuilder_t) (op : XmlOp)
    (h : x.indent_m = (x.tags_m.length : Int)) :
    (x.call op).indent_m = ((x.call op).tags_m.length : Int) := by
  cases op with
  | pushTag tag =>
    simp only [XmlStrBuilder_t.call, XmlStrBuilder_t.pushTag, XmlStrBuilder_t.indent,
      List.length_append, List.length_singleton, Nat.cast_add, Nat.cast_one, h]
  | popTag =>
    simp only [XmlStrBuilder_t.call, XmlStrBuilder_t.popTag]
    cases hl : x.tags_m.getLast? with
    | none => exact h
    | some back =>
      have hne : x.tags_m ≠ [] := by
        intro e
        rw [e] at hl
        simp at hl
      have hpos : 0 < x.tags_m.length := List.length_pos.2 hne
      simp only [XmlStrBuilder_t.indent, List.length_dropLast, h]
      omega
  | addTagAndValue tag str => exact h
  | addTagAndVararg tag formatted => exact h
  | clear => rfl

theorem calls_indent :
    ∀ (ops : List XmlOp) (x : XmlStrBuilder_t), x.indent_m = (x.tags_m.length : Int) →
      (x.calls ops).indent_m = ((x.calls ops).tags_m.length : Int)
  | [], _, h => h
  | op :: ops, x, h => calls_indent ops (x.call op) (call_indent x op h)

theorem pushTag_text (x : XmlStrBuilder_t) (ts : List CStr) (t : CStr) (h1 : x.tags_m = ts)
    (h2 : x.indent_m = (ts.length : Int)) :
    x.pushTag t = ⟨x.os_m ++ indentLoop ts.length [] ++ bytes "<" ++ t ++ bytes ">" ++ bytes "\n",
      ts ++ [t], (ts.length : Int) + 1⟩ := by
  simp only [XmlStrBuilder_t.pushTag, XmlStrBuilder_t.indent, h1, h2, Int.toNat_ofNat,
    indentLoop_eq ts.length x.os_m]

theorem popTag_text (y : XmlStrBuilder_t) (ts : List CStr) (t : CStr)
    (h1 : y.tags_m = ts ++ [t]) (h2 : y.indent_m = (ts.length : Int) + 1) :
    y.popTag = ⟨y.os_m ++ indentLoop ts.length [] ++ bytes "</" ++ t ++ bytes ">" ++ bytes "\n",
      ts, (ts.length : Int)⟩ := by
  have hl : (ts ++ [t]).getLast? = some t := by simp
  have e : (ts.length : Int) + 1 - 1 = (ts.length : Int) := by omega
  simp only [XmlStrBuilder_t.popTag, XmlStrBuilder_t.indent, h1, h2, e, Int.toNat_ofNat,
    indentLoop_eq ts.length y.os_m, List.dropLast_concat, hl]

theorem popTag_empty (x : XmlStrBuilder_t) (h : x.tags_m = []) : x.popTag = x := by
  simp only [XmlStrBuilder_t.popTag, h, List.getLast?_nil]

/-! ## A record that claims more payload than remains -/

theorem readU16_none_of_lt {buf : List Nat} {pos : Nat} (h : buf.length < pos + 2) :
    readU16 buf pos = none := by
  cases hr : readU16 buf pos with
  | none => rfl
  | some v =>
    have := readU16_some_le hr
    omega

theorem terseArgs_overlong (c : FsEventsH) (vec : List CStr) (buf : List Nat)
    (t len : Nat) (tail : List Nat) (ht : t < 65536) (hlen : len < 65536)
    (htd : t ≠ c.FSE_ARG_DONE) (htail : tail.length < len) :
    ∀ (pre : List Arg) (fuel pos : Nat) (events : List Event_t) (idx : Nat) (out : List CStr),
      (∀ a ∈ pre, a.WellFormed c) →
      buf.drop pos = encodeArgs pre ++ (u16le t ++ (u16le len ++ tail)) →
      pre.length + 2 ≤ fuel →
      terseArgs c false vec buf fuel pos events idx out = Except.error Fault.readPastEnd := by
  intro pre
  induction pre with
  | nil =>
    intro fuel pos events idx out _ hbuf hf
    obtain ⟨f, rfl⟩ : ∃ f, fuel = f + 2 := ⟨fuel - 2, by simp at hf; omega⟩
    have hb : buf.drop pos = u16le t ++ (u16le len ++ tail) := by simpa [encodeArgs] using hbuf
    have r1 : readU16 buf pos = some t := readU16_of_drop ht hb
    have hb2 := drop_add_of_eq hb
    rw [u16le_length] at hb2
    have r2 : readU16 buf (pos + 2) = some len := readU16_of_drop hlen hb2
    have hl : buf.length < pos + 2 + 2 + len + 2 := by
      have := congrArg List.length hb
      simp only [List.length_drop, List.length_append, u16le_length] at this
      omega
    have r3 : readU16 buf (pos + 2 + 2 + len) = none := readU16_none_of_lt hl
    have hnext : ∀ (ev : List Event_t) (i : Nat) (o : List CStr),
        terseArgs c false vec buf (f + 1) (pos + 2 + 2 + len) ev i o =
          Except.error Fault.readPastEnd := by
      intro ev i o
      simp only [terseArgs, r3]
    simp only [terseArgs, r1, r2, if_neg htd]
    split
    · split
      · rfl
      · exact hnext _ _ _
    · exact hnext _ _ _
  | cons a args ih =>
    intro fuel pos events idx out hwf hbuf hf
    obtain ⟨f, rfl⟩ : ∃ f, fuel = f + 1 := ⟨fuel - 1, by simp at hf; omega⟩
    have ha : a.WellFormed c := hwf a (List.mem_cons_self _ _)
    have hrest : ∀ b ∈ args, b.WellFormed c := fun b hb => hwf b (List.mem_cons_of_mem _ hb)
    have hb2 : buf.drop pos =
        encodeArg a ++ (encodeArgs args ++ (u16le t ++ (u16le len ++ tail))) := by
      rw [hbuf, encodeArgs_cons]; simp
    obtain ⟨r1, r2, r3, r4⟩ := arg_frame c ha hb2
    have hih := fun ev i o => ih f (pos + 2 + 2 + a.payload.length) ev i o hrest r4
      (by simp at hf; omega)
    simp only [terseArgs, r1, r2, if_neg ha.2.1]
    split
    · rename_i hp
      obtain ⟨c1, c2⟩ := cstrOf_append_of_mem a.payload
        (encodeArgs args ++ (u16le t ++ (u16le len ++ tail))) (ha.2.2.2 hp.1)
      obtain ⟨path, hpath⟩ := Option.isSome_iff_exists.1 c2
      have hcs : cstrAt buf (pos + 2 + 2) = some path := by rw [cstrAt, r3, c1, hpath]
      simp only [hcs]
      exact hih _ _ _
    · exact hih _ _ _

theorem xmlArgs_overlong (c : FsEventsH) (env : Env) (vec : List CStr) (buf : List Nat)
    (t len : Nat) (tail : List Nat) (ht : t < 65536) (hlen : len < 65536)
    (htd : t ≠ c.FSE_ARG_DONE) (htail : tail.length < len) :
    ∀ (pre : List Arg) (fuel pos : Nat) (sp : Bool) (xml : XmlStrBuilder_t) (out : List CStr),
      (∀ a ∈ pre, a.WellFormed c) → (∀ a ∈ pre, a.WidthOk c) →
      buf.drop pos = encodeArgs pre ++ (u16le t ++ (u16le len ++ tail)) →
      pre.length + 2 ≤ fuel →
      xmlArgs c env false vec buf fuel pos sp xml out = Except.error Fault.readPastEnd := by
  intro pre
  induction pre with
  | nil =>
    intro fuel pos sp xml out _ _ hbuf hf
    obtain ⟨f, rfl⟩ : ∃ f, fuel = f + 2 := ⟨fuel - 2, by simp at hf; omega⟩
    have hb : buf.drop pos = u16le t ++ (u16le len ++ tail) := by simpa [encodeArgs] using hbuf
    have r1 : readU16 buf pos = some t := readU16_of_drop ht hb
    have hb2 := drop_add_of_eq hb
    rw [u16le_length] at hb2
    have r2 : readU16 buf (pos + 2) = some len := readU16_of_drop hlen hb2
    have hl : buf.length < pos + 2 + 2 + len + 2 := by
      have := congrArg List.length hb
      simp only [List.length_drop, List.length_append, u16le_length] at this
      omega
    have r3 : readU16 buf (pos + 2 + 2 + len) = none := readU16_none_of_lt hl
    simp only [xmlArgs, r1, r2, if_neg htd]
    cases hx : xmlArg c env false vec buf (pos + 2 + 2) t len sp xml with
    | error e =>
      cases e with
      | readPastEnd => rfl
      | roundsExhausted => exact absurd hx (xmlArg_rounds c env false vec buf _ _ _ _ _)
    | ok r =>
      obtain ⟨sp1, x1, o1⟩ := r
      simp only [xmlArgs, r3]
  | cons a args ih =>
    intro fuel pos sp xml out hwf hwd hbuf hf
    obtain ⟨f, rfl⟩ : ∃ f, fuel = f + 1 := ⟨fuel - 1, by simp at hf; omega⟩
    have ha : a.WellFormed c := hwf a (List.mem_cons_self _ _)
    have hb2 : buf.drop pos =
        encodeArg a ++ (encodeArgs args ++ (u16le t ++ (u16le len ++ tail))) := by
      rw [hbuf, encodeArgs_cons]; simp
    obtain ⟨r1, r2, r3, r4⟩ := arg_frame c ha hb2
    obtain ⟨x1, -, hx2⟩ := xmlArg_of_payload c env vec a ha (hwd a (List.mem_cons_self _ _))
      r3 sp xml
    have hrun := ih f (pos + 2 + 2 + a.payload.length) (sp || a.watched c vec) x1 out
      (fun b hb => hwf b (List.mem_cons_of_mem _ hb))
      (fun b hb => hwd b (List.mem_cons_of_mem _ hb)) r4 (by simp at hf; omega)
    simp only [xmlArgs, r1, r2, if_neg ha.2.1, hx2, List.append_nil, hrun]

theorem terseLoop_post (c : FsEventsH) (hD : c.FSE_ARG_DONE < 65536) (env : Env)
    (vec : List CStr) (buf post : List Nat) :
    ∀ (es : List RawEvent) (fuel pos : Nat) (n : Int) (out : List CStr),
      (∀ e ∈ es, e.WellFormed c) → buf.drop pos = encodeEvents c es ++ post →
      terseLoop c env false vec buf (fuel + es.length) pos n out =
        terseLoop c env false vec buf fuel (pos + (encodeEvents c es).length) (n + es.length)
          (out ++ terseLinesAll c env vec es)
  | [], fuel, pos, n, out, _, _ => by simp [encodeEvents, terseLinesAll]
  | e :: es, fuel, pos, n, out, hwf, hbuf => by
    rw [encodeEvents_cons, List.append_assoc] at hbuf
    have e1 : fuel + (e :: es).length = (fuel + es.length) + 1 := by
      simp only [List.length_cons]; omega
    rw [e1, terseLoop_step c hD env vec buf (encodeEvents c es ++ post) e
      (hwf e (List.mem_cons_self _ _)) _ pos n out hbuf,
      terseLoop_post c hD env vec buf post es fuel _ (n + 1) _
        (fun x hx => hwf x (List.mem_cons_of_mem _ hx)) (drop_add_of_eq hbuf)]
    simp only [terseLinesAll, List.flatMap_cons, List.append_assoc, List.length_cons,
      Nat.cast_add, Nat.cast_one, encodeEvents_cons, List.length_append]
    congr 1
    · omega
    · omega

theorem xmlLoop_post (c : FsEventsH) (hD : c.FSE_ARG_DONE < 65536) (env : Env)
    (vec : List CStr) (buf post : List Nat) :
    ∀ (es : List RawEvent) (fuel pos : Nat) (n : Int) (xml : XmlStrBuilder_t) (out : List CStr),
      (∀ e ∈ es, e.WellFormed c) → (∀ e ∈ es, e.WidthsOk c) →
      buf.drop pos = encodeEvents c es ++ post →
      ∃ xml1 out1,
        xmlLoop c env false vec buf (fuel + es.length) pos n xml out =
          xmlLoop c env false vec buf fuel (pos + (encodeEvents c es).length) (n + es.length)
            xml1 out1
  | [], fuel, pos, n, xml, out, _, _, _ => ⟨xml, out, by simp [encodeEvents]⟩
  | e :: es, fuel, pos, n, xml, out, hwf, hwd, hbuf => by
    rw [encodeEvents_cons, List.append_assoc] at hbuf
    have e1 : fuel + (e :: es).length = (fuel + es.length) + 1 := by
      simp only [List.length_cons]; omega
    obtain ⟨frag, x1, -, hstep⟩ := xmlLoop_step c hD env vec buf (encodeEvents c es ++ post) e
      (hwf e (List.mem_cons_self _ _)) (hwd e (List.mem_cons_self _ _)) (fuel + es.length)
      pos n xml out hbuf
    obtain ⟨x2, o2, hrest⟩ := xmlLoop_post c hD env vec buf post es fuel _ (n + 1) x1 _
      (fun x hx => hwf x (List.mem_cons_of_mem _ hx))
      (fun x hx => hwd x (List.mem_cons_of_mem _ hx)) (drop_add_of_eq hbuf)
    refine ⟨x2, o2, ?_⟩
    rw [e1, hstep, hrest]
    simp only [List.length_cons, Nat.cast_add, Nat.cast_one, encodeEvents_cons,
      List.length_append]
    congr 1
    · omega
    · omega

theorem overlong_frame {buf : List Nat} {pos : Nat} {k p : Int} {pre : List Arg}
    {t len : Nat} {tail : List Nat}
    (hk : -2147483648 ≤ k ∧ k < 2147483648) (hp : -2147483648 ≤ p ∧ p < 2147483648)
    (h : buf.drop pos = encodeOverlong k p pre t len tail) :
    pos < buf.length ∧ pre.length + 2 ≤ buf.length + 1 ∧
      readI32 buf pos = some k ∧ readI32 buf (pos + 4) = some p ∧
      buf.drop (pos + 4 + 4) = encodeArgs pre ++ (u16le t ++ (u16le len ++ tail)) := by
  have h1 : buf.drop pos =
      i32le k ++ (i32le p ++ (encodeArgs pre ++ (u16le t ++ (u16le len ++ tail)))) := by
    rw [h, encodeOverlong]
    simp only [List.append_assoc]
  have h2 := drop_add_of_eq h1
  rw [i32le_length] at h2
  have h3 := drop_add_of_eq h2
  rw [i32le_length] at h3
  have hl := congrArg List.length h1
  simp only [List.length_drop, List.length_append, i32le_length, u16le_length] at hl
  have := length_le_encodeArgs pre
  exact ⟨by omega, by omega, readI32_of_drop hk.1 hk.2 h1, readI32_of_drop hp.1 hp.2 h2, h3⟩

theorem terseLoop_overlong (c : FsEventsH) (env : Env) (vec : List CStr) (buf : List Nat)
    (k p : Int) (pre : List Arg) (t len : Nat) (tail : List Nat)
    (hk : -2147483648 ≤ k ∧ k < 2147483648) (hp : -2147483648 ≤ p ∧ p < 2147483648)
    (hpre : ∀ a ∈ pre, a.WellFormed c) (ht : t < 65536) (hlen : len < 65536)
    (htd : t ≠ c.FSE_ARG_DONE) (htail : tail.length < len) (fuel pos : Nat) (n : Int)
    (out : List CStr) (hbuf : buf.drop pos = encodeOverlong k p pre t len tail) :
    terseLoop c env false vec buf (fuel + 1) pos n out = Except.error Fault.readPastEnd := by
  obtain ⟨h1, h2, h3, h4, h5⟩ := overlong_frame hk hp hbuf
  have ha := terseArgs_overlong c vec buf t len tail ht hlen htd htail pre (buf.length + 1)
    (pos + 4 + 4) (terseSwitch c k) 0 out hpre h5 h2
  simp only [terseLoop, h1, if_true, h3, h4, ha]

theorem xmlLoop_overlong (c : FsEventsH) (env : Env) (vec : List CStr) (buf : List Nat)
    (k p : Int) (pre : List Arg) (t len : Nat) (tail : List Nat)
    (hk : -2147483648 ≤ k ∧ k < 2147483648) (hp : -2147483648 ≤ p ∧ p < 2147483648)
    (hpre : ∀ a ∈ pre, a.WellFormed c) (hwd : ∀ a ∈ pre, a.WidthOk c) (ht : t < 65536)
    (hlen : len < 65536) (htd : t ≠ c.FSE_ARG_DONE) (htail : tail.length < len)
    (fuel pos : Nat) (n : Int) (xml : XmlStrBuilder_t) (out : List CStr)
    (hbuf : buf.drop pos = encodeOverlong k p pre t len tail) :
    xmlLoop c env false vec buf (fuel + 1) pos n xml out = Except.error Fault.readPastEnd := by
  obtain ⟨h1, h2, h3, h4, h5⟩ := overlong_frame hk hp hbuf
  obtain ⟨x, -, hx⟩ := xmlHead_eq c env (n + 1) k p xml
  have ha := xmlArgs_overlong c env vec buf t len tail ht hlen htd htail pre (buf.length + 1)
    (pos + 4 + 4) false x out hpre hwd h5 h2
  simp only [xmlLoop, h1, if_true, h3, h4, hx, ha]

/-- Both passes on a buffer of well-formed events followed by a record that claims more
payload than remains, debug printing off: the read that follows the overlong argument, if
not an earlier one, lies past the end of the buffer. -/
theorem processEvent_overlong (c : FsEventsH) (hD : c.FSE_ARG_DONE < 65536) (env : Env)
    (st : State) (es : List RawEvent) (k p : Int) (pre : List Arg) (t len : Nat)
    (tail : List Nat) (hes : ∀ e ∈ es, e.WellFormed c)
    (hk : -2147483648 ≤ k ∧ k < 2147483648) (hp : -2147483648 ≤ p ∧ p < 2147483648)
    (hpre : ∀ a ∈ pre, a.WellFormed c) (ht : t < 65536) (hlen : len < 65536)
    (htd : t ≠ c.FSE_ARG_DONE) (htail : tail.length < len) :
    processEventTerse c env false st (encodeEvents c es ++ encodeOverlong k p pre t len tail) =
      Except.error Fault.readPastEnd ∧
    ((∀ e ∈ es, e.WidthsOk c) → (∀ a ∈ pre, a.WidthOk c) →
      processEventAsXml c env false st
          (encodeEvents c es ++ encodeOverlong k p pre t len tail) =
        Except.error Fault.readPastEnd) := by
  have hle := length_le_encodeEvents c es
  have hfuel : ∃ f, (encodeEvents c es ++ encodeOverlong k p pre t len tail).length + 1 =
      (f + 1) + es.length := by
    refine ⟨(encodeEvents c es ++ encodeOverlong k p pre t len tail).length - es.length, ?_⟩
    simp only [List.length_append]
    omega
  obtain ⟨f, hf⟩ := hfuel
  have hdrop : (encodeEvents c es ++ encodeOverlong k p pre t len tail).drop
      (0 + (encodeEvents c es).length) = encodeOverlong k p pre t len tail := by
    rw [Nat.zero_add, List.drop_left]
  constructor
  · unfold processEventTerse
    rw [hf, terseLoop_post c hD env st.monPathVec_s _ (encodeOverlong k p pre t len tail) es
      (f + 1) 0 st.eventCounter_s [] hes (by simp),
      terseLoop_overlong c env st.monPathVec_s _ k p pre t len tail hk hp hpre ht hlen htd
        htail f _ _ _ hdrop]
  · intro hwe hwp
    unfold processEventAsXml
    obtain ⟨x1, o1, hstep⟩ := xmlLoop_post c hD env st.monPathVec_s
      (encodeEvents c es ++ encodeOverlong k p pre t len tail)
      (encodeOverlong k p pre t len tail) es (f + 1) 0 st.eventCounter_s XmlStrBuilder_t.new []
      hes hwe (by simp)
    rw [hf, hstep,
      xmlLoop_overlong c env st.monPathVec_s _ k p pre t len tail hk hp hpre hwp ht hlen htd
        htail f _ _ x1 o1 hdrop]

/-! ## Examples of complete passes -/

set_option maxRecDepth 20000 in
/-- A delete event for the watched `/tmp/x` by process 42, in XML mode: the fragment. -/
theorem xml_example :
    processEventAsXml darwin exampleEnv false exampleState
        (encodeEvent darwin ⟨1, 42, [stringArg "/tmp/x", ⟨4, [7, 0, 0, 0]⟩]⟩) =
      Except.ok (exampleState.counted,
        [bytes ("<delete>\n  <eventNumber>1</eventNumber>\n  <process>\n    <id>42</id>\n" ++
          "    <name>mv</name>\n  </process>\n  <string>/tmp/x</string>\n" ++
          "  <int32>7</int32>\n  <done>0xb33f</done>\n</delete>\n")]) := by
  decide

/-- The same event for `/tmp/y`, which is not watched: nothing is printed. -/
theorem xml_example_unwatched :
    processEventAsXml darwin exampleEnv false exampleState
        (encodeEvent darwin ⟨1, 42, [stringArg "/tmp/y", ⟨4, [7, 0, 0, 0]⟩]⟩) =
      Except.ok (exampleState.counted, []) := by
  decide

/-- With debug printing on, `isMonitoredPath` writes its trace before the terse line. -/
theorem terse_example_debug :
    processEventTerse darwin exampleEnv true exampleState
        (encodeEvent darwin ⟨0, 42, [stringArg "/tmp/x"]⟩) =
      Except.ok (exampleState.counted,
        [bytes "DBG: isMonitoredPath( /tmp/x )\n", bytes "DBG:   Matched exact: /tmp/x\n",
         bytes "ADD:/tmp/x - pid 42 (mv)\n"]) := by
  decide

/-! ## Claims -/

/-- C1. Prefix-match law: for every snapshot list `L`, every candidate `C` and either
setting of the debug flag, `isMonitoredPath(C)` returns true if and only if some `P` in
`L` has `C = P`, or is a proper prefix of `C` with the byte of `C` at index `|P|` equal to
the slash; and with `L = ["/a/b"]` the candidate `"/a/bc"` is not matched. -/
theorem C1_prefix_match_law :
    (∀ (isDebug_s : Bool) (L : List CStr) (C : CStr),
      (isMonitoredPath isDebug_s L C).1 = true ↔
        ∃ P ∈ L, C = P ∨ (P <+: C ∧ P ≠ C ∧ C[P.length]? = some slash)) ∧
    (isMonitoredPath false [bytes "/a/b"] (bytes "/a/bc")).1 = false := by
  refine ⟨fun d L C => isMonitoredPath_true_iff d L C, ?_⟩
  decide

/-- C2. Add law: for every watch state, either setting of the debug flag and every path
string `P` (a C string: no NUL byte; possibly empty or ending in slashes), whatever follows
the line in its array, `processInputCmd` on the line `"add:"` followed by `P` returns, and
`isMonitoredPath(P)` is then true. -/
theorem C2_add_law (isDebug_s : Bool) (st : State) (P : CStr) (rest : List Nat)
    (hP : 0 ∉ P) :
    ∃ st1 out,
      processInputCmd isDebug_s st (bytes "add:" ++ P ++ 0 :: rest) = CmdResult.returned st1 out ∧
      (isMonitoredPath isDebug_s st1.monPathVec_s P).1 = true := by
  refine ⟨_, _, by rw [processInputCmd_add isDebug_s st P rest hP, regenerate], ?_⟩
  rw [isMonitoredPath_true_iff]
  refine ⟨P.rdropWhile (fun b => b == slash), ?_, ?_⟩
  · exact (mem_setInsert _ _ _).2 (Or.inl rfl)
  · rcases stripped_spec P with h | h
    · exact Or.inl h.symm
    · exact Or.inr h

/-- The add law at the empty initial state for the path `/tmp/x/`, which ends in a slash. -/
theorem C2_add_law_witness :
    0 ∉ bytes "/tmp/x/" ∧
    ∃ st1 out,
      processInputCmd false State.init (bytes "add:" ++ bytes "/tmp/x/" ++ 0 :: []) =
        CmdResult.returned st1 out ∧
      (isMonitoredPath false st1.monPathVec_s (bytes "/tmp/x/")).1 = true :=
  ⟨by decide, C2_add_law false State.init (bytes "/tmp/x/") [] (by decide)⟩

/-- C3 as stated fails: from the initial state, after `add:/a`, then `add:/a/b` and
`del:/a/b`, the path `/a/b` is still reported as monitored, through the entry `/a`. -/
theorem C3_remove_law_counterexample :
    processInputCmd false State.init (bytes "add:/a" ++ [0]) =
      CmdResult.returned ⟨[bytes "/a"], [bytes "/a"], 0⟩ [] ∧
    processInputCmd false ⟨[bytes "/a"], [bytes "/a"], 0⟩ (bytes "add:/a/b" ++ [0]) =
      CmdResult.returned ⟨[bytes "/a", bytes "/a/b"], [bytes "/a", bytes "/a/b"], 0⟩ [] ∧
    processInputCmd false ⟨[bytes "/a", bytes "/a/b"], [bytes "/a", bytes "/a/b"], 0⟩
        (bytes "del:/a/b" ++ [0]) =
      CmdResult.returned ⟨[bytes "/a"], [bytes "/a"], 0⟩ [] ∧
    (isMonitoredPath false [bytes "/a"] (bytes "/a/b")).1 = true := by
  decide

/-- C3, amended. Remove law: for every watch state and every path string `P`, the lines
`"add:"` `P` and then `"del:"` `P` both return; afterwards `P` without its trailing slashes
is not in the watched set, the snapshot is the watched set, and `isMonitoredPath(P)` is
true exactly when a member `R` of the original watched set other than the stripped `P`
equals `P` or is a proper prefix of `P` followed by a slash; it is false otherwise. -/
theorem C3_remove_law (isDebug_s : Bool) (st : State) (P : CStr) (rest1 rest2 : List Nat)
    (hP : 0 ∉ P) :
    ∃ st1 out1 st2 out2,
      processInputCmd isDebug_s st (bytes "add:" ++ P ++ 0 :: rest1) =
        CmdResult.returned st1 out1 ∧
      processInputCmd isDebug_s st1 (bytes "del:" ++ P ++ 0 :: rest2) =
        CmdResult.returned st2 out2 ∧
      P.rdropWhile (fun b => b == slash) ∉ st2.monPathSet_s ∧
      st2.monPathVec_s = st2.monPathSet_s ∧
      ((isMonitoredPath isDebug_s st2.monPathVec_s P).1 = true ↔
        ∃ R ∈ st.monPathSet_s, R ≠ P.rdropWhile (fun b => b == slash) ∧
          (P = R ∨ (R <+: P ∧ R ≠ P ∧ P[R.length]? = some slash))) := by
  refine ⟨_, _, _, _, by rw [processInputCmd_add isDebug_s st P rest1 hP, regenerate],
    by rw [processInputCmd_del isDebug_s _ P rest2 hP, regenerate], ?_, rfl, ?_⟩
  · simp [mem_setErase]
  · rw [isMonitoredPath_true_iff]
    simp only [mem_setErase, mem_setInsert]
    constructor
    · rintro ⟨R, ⟨hR | hR, hne⟩, h⟩
      · exact absurd hR hne
      · exact ⟨R, hR, hne, h⟩
    · rintro ⟨R, hR, hne, h⟩
      exact ⟨R, ⟨Or.inr hR, hne⟩, h⟩

/-- The amended remove law at the state that watches `/a`, for the path `/a/b`. -/
theorem C3_remove_law_witness :
    0 ∉ bytes "/a/b" ∧
    ∃ st1 out1 st2 out2,
      processInputCmd false ⟨[bytes "/a"], [bytes "/a"], 0⟩ (bytes "add:" ++ bytes "/a/b" ++ 0 :: []) =
        CmdResult.returned st1 out1 ∧
      processInputCmd false st1 (bytes "del:" ++ bytes "/a/b" ++ 0 :: []) =
        CmdResult.returned st2 out2 ∧
      (bytes "/a/b").rdropWhile (fun b => b == slash) ∉ st2.monPathSet_s ∧
      st2.monPathVec_s = st2.monPathSet_s ∧
      ((isMonitoredPath false st2.monPathVec_s (bytes "/a/b")).1 = true ↔
        ∃ R ∈ [bytes "/a"], R ≠ (bytes "/a/b").rdropWhile (fun b => b == slash) ∧
          (bytes "/a/b" = R ∨ (R <+: bytes "/a/b" ∧ R ≠ bytes "/a/b" ∧
            (bytes "/a/b")[R.length]? = some slash))) :=
  ⟨by decide, C3_remove_law false ⟨[bytes "/a"], [bytes "/a"], 0⟩ (bytes "/a/b") [] []
    (by decide)⟩

/-- C4. Clear law: for every watch state, `processInputCmd` on the line `"clr"` returns
with the watched set and the snapshot vector both empty, and `isMonitoredPath(X)` is then
false for every string `X`. -/
theorem C4_clear_law (isDebug_s : Bool) (st : State) (rest : List Nat) :
    ∃ st1 out,
      processInputCmd isDebug_s st (bytes "clr" ++ 0 :: rest) = CmdResult.returned st1 out ∧
      st1.monPathSet_s = [] ∧ st1.monPathVec_s = [] ∧
      ∀ X : CStr, (isMonitoredPath isDebug_s st1.monPathVec_s X).1 = false := by
  refine ⟨_, _, by rw [processInputCmd_clr isDebug_s st rest, regenerate], rfl, rfl, ?_⟩
  intro X
  simp [isMonitoredPath_fst]

/-- C5. Rename expansion in terse mode, debug printing off: for every well-formed rename
event with pid `p` whose first two path-bearing arguments are, in arrival order, `old` then
`new`, `processEventTerse` on the buffer that holds the event completes and prints exactly
the line `DEL:<old> - pid <p> (<name>)` if `old` is watched, followed by the line
`ADD:<new> - pid <p> (<name>)` if `new` is watched, and nothing else. -/
theorem C5_rename_terse (c : FsEventsH) (hc : c.Valid) (env : Env) (st : State) (e : RawEvent)
    (he : e.WellFormed c) (hk : e.kind = c.FSE_RENAME) (old new : CStr) (more : List CStr)
    (hp : e.paths c = old :: new :: more) :
    processEventTerse c env false st (encodeEvent c e) =
      Except.ok (st.counted,
        lineIfWatched st.monPathVec_s (bytes "DEL:") old e.pid (env.getProcessName e.pid) ++
        lineIfWatched st.monPathVec_s (bytes "ADD:") new e.pid (env.getProcessName e.pid)) := by
  rw [processEventTerse_event c hc.2.2 env st e he, terseLines, hp, hk,
    (terseSwitch_table c hc).2.2.2.2.2.2.2.1, lines_two_slots, terseLine_del, terseLine_add]
  rfl

/-- The rename law where `/tmp/x` is watched, for a rename of `/tmp/y` to `/tmp/x` by
process 42: only the `ADD` line is printed. -/
theorem C5_rename_terse_witness :
    darwin.Valid ∧ RawEvent.WellFormed darwin ⟨3, 42, [stringArg "/tmp/y", stringArg "/tmp/x"]⟩ ∧
    processEventTerse darwin exampleEnv false exampleState
        (encodeEvent darwin ⟨3, 42, [stringArg "/tmp/y", stringArg "/tmp/x"]⟩) =
      Except.ok (exampleState.counted, [bytes "ADD:/tmp/x - pid 42 (mv)\n"]) :=
  ⟨by decide, by decide,
    (C5_rename_terse darwin (by decide) exampleEnv exampleState
      ⟨3, 42, [stringArg "/tmp/y", stringArg "/tmp/x"]⟩ (by decide) rfl
      (bytes "/tmp/y") (bytes "/tmp/x") [] (by decide)).trans (by decide)⟩

/-- C6. Exchange expansion in terse mode, debug printing off: for every well-formed
exchange event whose first two path-bearing arguments are, in arrival order, `a` then `b`,
`processEventTerse` completes and prints one `CHG` line for `a` if `a` is watched, then one
`CHG` line for `b` if `b` is watched, and no other line. -/
theorem C6_exchange_terse (c : FsEventsH) (hc : c.Valid) (env : Env) (st : State) (e : RawEvent)
    (he : e.WellFormed c) (hk : e.kind = c.FSE_EXCHANGE) (a b : CStr) (more : List CStr)
    (hp : e.paths c = a :: b :: more) :
    processEventTerse c env false st (encodeEvent c e) =
      Except.ok (st.counted,
        lineIfWatched st.monPathVec_s (bytes "CHG:") a e.pid (env.getProcessName e.pid) ++
        lineIfWatched st.monPathVec_s (bytes "CHG:") b e.pid (env.getProcessName e.pid)) := by
  rw [processEventTerse_event c hc.2.2 env st e he, terseLines, hp, hk,
    (terseSwitch_table c hc).2.2.2.2.2.2.1, lines_two_slots, terseLine_chg, terseLine_chg]
  rfl

/-- The exchange law where `/tmp/x` is watched, for an exchange of `/tmp/x/a` and `/tmp/x/b`
by process 7: two `CHG` lines, in argument order. -/
theorem C6_exchange_terse_witness :
    darwin.Valid ∧ RawEvent.WellFormed darwin ⟨5, 7, [stringArg "/tmp/x/a", stringArg "/tmp/x/b"]⟩ ∧
    processEventTerse darwin exampleEnv false exampleState
        (encodeEvent darwin ⟨5, 7, [stringArg "/tmp/x/a", stringArg "/tmp/x/b"]⟩) =
      Except.ok (exampleState.counted,
        [bytes "CHG:/tmp/x/a - pid 7 (mv)\n", bytes "CHG:/tmp/x/b - pid 7 (mv)\n"]) :=
  ⟨by decide, by decide,
    (C6_exchange_terse darwin (by decide) exampleEnv exampleState
      ⟨5, 7, [stringArg "/tmp/x/a", stringArg "/tmp/x/b"]⟩ (by decide) rfl
      (bytes "/tmp/x/a") (bytes "/tmp/x/b") [] (by decide)).trans (by decide)⟩

/-- C7. Sub-event table for the remaining kinds, debug printing off: for every well-formed
event and watch set, `processEventTerse` completes and prints (i) for create-file and
create-dir, (ii) for delete, (iii) for stat-changed, finder-info-changed and chown at most
one line, tagged `ADD`, `DEL`, `CHG` respectively, for the first path-bearing argument
only and only if that argument is watched; and (iv) for content-modified, invalid and
every kind code that is no label of the header, no line at all. -/
theorem C7_terse_table (c : FsEventsH) (hc : c.Valid) (env : Env) (st : State) (e : RawEvent)
    (he : e.WellFormed c) :
    ((e.kind = c.FSE_CREATE_FILE ∨ e.kind = c.FSE_CREATE_DIR) →
      processEventTerse c env false st (encodeEvent c e) =
        Except.ok (st.counted, firstLineIfWatched st.monPathVec_s (bytes "ADD:") (e.paths c)
          e.pid (env.getProcessName e.pid))) ∧
    (e.kind = c.FSE_DELETE →
      processEventTerse c env false st (encodeEvent c e) =
        Except.ok (st.counted, firstLineIfWatched st.monPathVec_s (bytes "DEL:") (e.paths c)
          e.pid (env.getProcessName e.pid))) ∧
    ((e.kind = c.FSE_STAT_CHANGED ∨ e.kind = c.FSE_FINDER_INFO_CHANGED ∨ e.kind = c.FSE_CHOWN) →
      processEventTerse c env false st (encodeEvent c e) =
        Except.ok (st.counted, firstLineIfWatched st.monPathVec_s (bytes "CHG:") (e.paths c)
          e.pid (env.getProcessName e.pid))) ∧
    ((e.kind = c.FSE_CONTENT_MODIFIED ∨ e.kind = c.FSE_INVALID ∨ e.kind ∉ c.eventLabels) →
      processEventTerse c env false st (encodeEvent c e) = Except.ok (st.counted, [])) := by
  have key := processEventTerse_event c hc.2.2 env st e he
  obtain ⟨t1, t2, t3, t4, t5, t6, -, -, t9, t10⟩ := terseSwitch_table c hc
  have first : ∀ (t0 : EventType_t) (tag : CStr),
      terseSwitch c e.kind = [Event_t.ofType t0, Event_t.ofType EventType_t.NONE] →
      (∀ x, terseLine e.pid (env.getProcessName e.pid)
          ⟨t0, some x, (isMonitoredPath false st.monPathVec_s x).1⟩ =
        lineIfWatched st.monPathVec_s tag x e.pid (env.getProcessName e.pid)) →
      processEventTerse c env false st (encodeEvent c e) =
        Except.ok (st.counted, firstLineIfWatched st.monPathVec_s tag (e.paths c)
          e.pid (env.getProcessName e.pid)) := by
    intro t0 tag hsw hline
    rw [key, terseLines, hsw, lines_first_slot]
    cases e.paths c with
    | nil => rfl
    | cons x rest => simp only [hline]; rfl
  have nothing : terseSwitch c e.kind =
        [Event_t.ofType EventType_t.NONE, Event_t.ofType EventType_t.NONE] →
      processEventTerse c env false st (encodeEvent c e) = Except.ok (st.counted, []) := by
    intro hsw
    rw [key, terseLines, hsw, lines_first_slot]
    cases e.paths c with
    | nil => rfl
    | cons x rest => simp only [terseLine_none]; rfl
  refine ⟨?_, ?_, ?_, ?_⟩
  · rintro (h | h)
    · exact first _ _ (h ▸ t1) (terseLine_add _ _ _)
    · exact first _ _ (h ▸ t2) (terseLine_add _ _ _)
  · intro h
    exact first _ _ (h ▸ t3) (terseLine_del _ _ _)
  · rintro (h | h | h)
    · exact first _ _ (h ▸ t4) (terseLine_chg _ _ _)
    · exact first _ _ (h ▸ t5) (terseLine_chg _ _ _)
    · exact first _ _ (h ▸ t6) (terseLine_chg _ _ _)
  · rintro (h | h | h)
    · exact nothing (h ▸ t9)
    · exact nothing (h ▸ t10)
    · apply nothing
      apply terseSwitch_default
      simp only [FsEventsH.eventLabels, List.mem_cons, List.mem_singleton, not_or,
        List.not_mem_nil, not_false_eq_true, and_true] at h
      tauto

/-- The table where `/tmp/x` is watched, for a create-file event by process 42 whose first
path is `/tmp/y` and whose second is `/tmp/x`: the watched second path yields no line. -/
theorem C7_terse_table_witness :
    darwin.Valid ∧ RawEvent.WellFormed darwin ⟨0, 42, [stringArg "/tmp/y", stringArg "/tmp/x"]⟩ ∧
    processEventTerse darwin exampleEnv false exampleState
        (encodeEvent darwin ⟨0, 42, [stringArg "/tmp/y", stringArg "/tmp/x"]⟩) =
      Except.ok (exampleState.counted, []) :=
  ⟨by decide, by decide,
    ((C7_terse_table darwin (by decide) exampleEnv exampleState
      ⟨0, 42, [stringArg "/tmp/y", stringArg "/tmp/x"]⟩ (by decide)).1 (Or.inl rfl)).trans
      (by decide)⟩

/-- C8. Terse filtering and line format, debug printing off: for every pid and resolved
process name, a well-formed create-file event whose sole path-bearing argument is `x`
makes `processEventTerse` print exactly the one line `ADD:` `x` ` - pid ` the pid in
decimal ` (` the name `)` and a newline when `x` is watched, and nothing when it is not. -/
theorem C8_terse_line (c : FsEventsH) (hc : c.Valid) (env : Env) (st : State) (e : RawEvent)
    (he : e.WellFormed c) (hk : e.kind = c.FSE_CREATE_FILE) (x : CStr) (hp : e.paths c = [x]) :
    processEventTerse c env false st (encodeEvent c e) =
      Except.ok (st.counted,
        if (isMonitoredPath false st.monPathVec_s x).1 = true then
          [bytes "ADD:" ++ x ++ bytes " - pid " ++ fmtD e.pid ++ bytes " (" ++
            env.getProcessName e.pid ++ bytes ")\n"]
        else []) := by
  rw [processEventTerse_event c hc.2.2 env st e he, terseLines, hp, hk,
    (terseSwitch_table c hc).1, lines_one_path, terseLine_add]
  rfl

/-- The line law where `/tmp/x` is watched, for create-file events by process 42: the path
`/tmp/x` yields its `ADD` line, the path `/tmp/y` yields nothing. -/
theorem C8_terse_line_witness :
    darwin.Valid ∧ RawEvent.WellFormed darwin ⟨0, 42, [stringArg "/tmp/x"]⟩ ∧
    RawEvent.WellFormed darwin ⟨0, 42, [stringArg "/tmp/y"]⟩ ∧
    processEventTerse darwin exampleEnv false exampleState
        (encodeEvent darwin ⟨0, 42, [stringArg "/tmp/x"]⟩) =
      Except.ok (exampleState.counted, [bytes "ADD:/tmp/x - pid 42 (mv)\n"]) ∧
    processEventTerse darwin exampleEnv false exampleState
        (encodeEvent darwin ⟨0, 42, [stringArg "/tmp/y"]⟩) =
      Except.ok (exampleState.counted, []) :=
  ⟨by decide, by decide, by decide,
    (C8_terse_line darwin (by decide) exampleEnv exampleState ⟨0, 42, [stringArg "/tmp/x"]⟩
      (by decide) rfl (bytes "/tmp/x") (by decide)).trans (by decide),
    (C8_terse_line darwin (by decide) exampleEnv exampleState ⟨0, 42, [stringArg "/tmp/y"]⟩
      (by decide) rfl (bytes "/tmp/y") (by decide)).trans (by decide)⟩

/-- C9. XML event-level gating, debug printing off: for every well-formed event whose
numeric arguments carry the bytes read of them, and every watch set, `processEventAsXml`
on the buffer that holds the event completes and prints the fragment of the event if at
least one of its path-bearing arguments, at any position, is watched according to
`isMonitoredPath`, and prints nothing otherwise.  The fragment is the one that the event and
its number alone determine, and it is whole: it starts with the opening tag of the root
element and ends with the closing tag of the same name. -/
theorem C9_xml_gating (c : FsEventsH) (hc : c.Valid) (env : Env) (st : State) (e : RawEvent)
    (he : e.WellFormed c) (hw : e.WidthsOk c) :
    ∃ frag : CStr,
      xmlFragment c env (st.eventCounter_s + 1) e = Except.ok frag ∧
      (bytes "<" ++ xmlRootTag c e.kind ++ bytes ">" ++ bytes "\n") <+: frag ∧
      (bytes "</" ++ xmlRootTag c e.kind ++ bytes ">" ++ bytes "\n") <:+ frag ∧
      processEventAsXml c env false st (encodeEvent c e) =
        Except.ok (st.counted,
          if anyWatched st.monPathVec_s (e.paths c) = true then [frag] else []) := by
  obtain ⟨frag, h1, h2⟩ := processEventAsXml_event c hc.2.2 env st e he hw
  exact ⟨frag, h1, (xmlFragment_whole h1).1, (xmlFragment_whole h1).2, h2⟩

/-- The gating law where `/tmp/x` is watched, for a create-file event whose third path
argument alone lies below `/tmp/x`. -/
theorem C9_xml_gating_witness :
    darwin.Valid ∧
    RawEvent.WellFormed darwin ⟨0, 42, [stringArg "/a", stringArg "/b", stringArg "/tmp/x/f"]⟩ ∧
    RawEvent.WidthsOk darwin ⟨0, 42, [stringArg "/a", stringArg "/b", stringArg "/tmp/x/f"]⟩ ∧
    ∃ frag : CStr,
      xmlFragment darwin exampleEnv (exampleState.eventCounter_s + 1)
        ⟨0, 42, [stringArg "/a", stringArg "/b", stringArg "/tmp/x/f"]⟩ = Except.ok frag ∧
      (bytes "<" ++ xmlRootTag darwin 0 ++ bytes ">" ++ bytes "\n") <+: frag ∧
      (bytes "</" ++ xmlRootTag darwin 0 ++ bytes ">" ++ bytes "\n") <:+ frag ∧
      processEventAsXml darwin exampleEnv false exampleState
          (encodeEvent darwin ⟨0, 42, [stringArg "/a", stringArg "/b", stringArg "/tmp/x/f"]⟩) =
        Except.ok (exampleState.counted,
          if anyWatched exampleState.monPathVec_s
              (RawEvent.paths darwin ⟨0, 42, [stringArg "/a", stringArg "/b", stringArg "/tmp/x/f"]⟩)
              = true then [frag] else []) :=
  ⟨by decide, by decide, by decide,
    C9_xml_gating darwin (by decide) exampleEnv exampleState
      ⟨0, 42, [stringArg "/a", stringArg "/b", stringArg "/tmp/x/f"]⟩ (by decide) (by decide)⟩

/-- C10. XML escaping: for every string `s`, `strMakeXmlSafe(s)` returns the concatenation,
byte by byte, of the images of the bytes of `s` under the map that sends the ampersand to
`&amp;`, `<` to `&lt;`, `>` to `&gt;` and any other byte to itself; so `&lt;` renders as
`&amp;lt;`, and the ampersands that escaping `<` and `>` introduces are not escaped again. -/
theorem C10_xml_escaping :
    (∀ s : CStr, strMakeXmlSafe s = some (s.flatMap escapeByte)) ∧
    strMakeXmlSafe (bytes "&lt;") = some (bytes "&amp;lt;") ∧
    strMakeXmlSafe (bytes "<&>") = some (bytes "&lt;&amp;&gt;") := by
  refine ⟨strMakeXmlSafe_eq, ?_, ?_⟩ <;> decide

/-- C11. Sequence counter, debug printing off: for every value `c` of `eventCounter_s` and
every buffer that is the concatenation of `N` well-formed event records, with `c` and `c + N`
values of the 64-bit counter, one call of `processEventTerse`, and likewise one call of
`processEventAsXml` (numeric payloads of the width read), completes and leaves
`eventCounter_s` equal to `c + N`; in XML mode the events are given the numbers `c + 1`, ...,
`c + N` in arrival order, whether or not they are printed, and the fragment of each starts
with the opening tag of the root and the `eventNumber` element with its number in decimal,
written before the texts of its arguments. -/
theorem C11_sequence_counter (c : FsEventsH) (hc : c.Valid) (env : Env) (st : State)
    (es : List RawEvent) (hwf : ∀ e ∈ es, e.WellFormed c)
    (hlo : -9223372036854775808 ≤ st.eventCounter_s)
    (hhi : st.eventCounter_s + es.length < 9223372036854775808) :
    processEventTerse c env false st (encodeEvents c es) =
      Except.ok (st.countedBy es.length, terseLinesAll c env st.monPathVec_s es) ∧
    (st.countedBy es.length).eventCounter_s = st.eventCounter_s + es.length ∧
    ((∀ e ∈ es, e.WidthsOk c) →
      processEventAsXml c env false st (encodeEvents c es) =
        Except.ok (st.countedBy es.length,
          (numbered st.eventCounter_s es).flatMap (printIfWatched c env st.monPathVec_s)) ∧
      processEventAsXmlTrace c env false st (encodeEvents c es) =
        Except.ok (st.countedBy es.length,
          (numbered st.eventCounter_s es).flatMap (printIfWatched c env st.monPathVec_s),
          numbered st.eventCounter_s es, (encodeEvents c es).length) ∧
      (∀ (i : Nat) (e : RawEvent), es[i]? = some e →
        (numbered st.eventCounter_s es)[i]? = some (st.eventCounter_s + i + 1, e)) ∧
      (∀ (m : Int) (e : RawEvent), (m, e) ∈ numbered st.eventCounter_s es →
        fragmentOf c env m e =
          headText c env m e ++ e.args.flatMap (argText c env) ++ tailText c e ∧
        (bytes "<" ++ xmlRootTag c e.kind ++ bytes ">" ++ bytes "\n"
          ++ bytes "  " ++ bytes "<" ++ bytes "eventNumber" ++ bytes ">" ++ fmtD m
          ++ bytes "</" ++ bytes "eventNumber" ++ bytes ">" ++ bytes "\n") <+:
          fragmentOf c env m e)) := by
  refine ⟨processEventTerse_events c hc.2.2 env st es hwf, rfl, ?_⟩
  intro hwd
  refine ⟨?_, ?_, numbered_getElem? es _, ?_⟩
  · rw [processEventAsXml_events c hc.2.2 env st es hwf hwd, xmlOut_eq_flatMap]
  · rw [processEventAsXmlTrace_events c hc.2.2 env st es hwf hwd, xmlOut_eq_flatMap]
  · intro m e hm
    have he := mem_numbered es _ m e hm
    have hr := numbered_range es _ m e hm
    have hf := fragmentOf_eq (xmlFragment_text c env m e (hwf e he) (hwd e he))
    refine ⟨hf, ?_⟩
    rw [hf]
    exact (headText_number c env m e (by linarith [hr.1]) (by linarith [hr.2])).trans
      ((List.prefix_append _ _).trans (List.prefix_append _ _))

set_option maxRecDepth 20000 in
/-- The counter law with the counter at 5 and `/tmp/x` watched, for a buffer that holds a
create-file event for `/tmp/y` and a delete event for `/tmp/x`: both modes leave the counter
at 7, and XML mode prints the second event only, numbered 7. -/
theorem C11_sequence_counter_witness :
    darwin.Valid ∧
    (∀ e ∈ [(⟨0, 42, [stringArg "/tmp/y"]⟩ : RawEvent), ⟨1, 42, [stringArg "/tmp/x"]⟩],
      e.WellFormed darwin) ∧
    (∀ e ∈ [(⟨0, 42, [stringArg "/tmp/y"]⟩ : RawEvent), ⟨1, 42, [stringArg "/tmp/x"]⟩],
      e.WidthsOk darwin) ∧
    (-9223372036854775808 : Int) ≤ 5 ∧ (5 : Int) + (2 : Nat) < 9223372036854775808 ∧
    processEventTerse darwin exampleEnv false ⟨[bytes "/tmp/x"], [bytes "/tmp/x"], 5⟩
        (encodeEvents darwin [⟨0, 42, [stringArg "/tmp/y"]⟩, ⟨1, 42, [stringArg "/tmp/x"]⟩]) =
      Except.ok (⟨[bytes "/tmp/x"], [bytes "/tmp/x"], 7⟩, [bytes "DEL:/tmp/x - pid 42 (mv)\n"]) ∧
    processEventAsXml darwin exampleEnv false ⟨[bytes "/tmp/x"], [bytes "/tmp/x"], 5⟩
        (encodeEvents darwin [⟨0, 42, [stringArg "/tmp/y"]⟩, ⟨1, 42, [stringArg "/tmp/x"]⟩]) =
      Except.ok (⟨[bytes "/tmp/x"], [bytes "/tmp/x"], 7⟩,
        [bytes ("<delete>\n  <eventNumber>7</eventNumber>\n  <process>\n    <id>42</id>\n" ++
          "    <name>mv</name>\n  </process>\n  <string>/tmp/x</string>\n" ++
          "  <done>0xb33f</done>\n</delete>\n")]) :=
  ⟨by decide, by decide, by decide, by decide, by decide,
    (C11_sequence_counter darwin (by decide) exampleEnv
      ⟨[bytes "/tmp/x"], [bytes "/tmp/x"], 5⟩
      [⟨0, 42, [stringArg "/tmp/y"]⟩, ⟨1, 42, [stringArg "/tmp/x"]⟩] (by decide) (by decide)
      (by decide)).1.trans (by decide),
    ((C11_sequence_counter darwin (by decide) exampleEnv
      ⟨[bytes "/tmp/x"], [bytes "/tmp/x"], 5⟩
      [⟨0, 42, [stringArg "/tmp/y"]⟩, ⟨1, 42, [stringArg "/tmp/x"]⟩] (by decide) (by decide)
      (by decide)).2.2 (by decide)).1.trans (by decide)⟩

/-- C12, amended. Decode round-trip and framing, with one more condition on the events (a
numeric payload is at least as wide as the value read from it: 4 bytes for int32, uid,
device, mode and gid, 8 bytes for int64 and inode): for every list of well-formed events, on the buffer
that concatenates their encodings the decode loop of `processEventAsXml` meets exactly those
events in arrival order, each with its kind, its pid and its arguments (type, and payload of
the declared length) in order, stops with its cursor at the end of the buffer, and every
fragment is the head for the kind, number and pid, the texts of the arguments computed from
their own payloads, and the tail. -/
theorem C12_decode_round_trip (c : FsEventsH) (hc : c.Valid) (env : Env) (st : State)
    (es : List RawEvent) (hwf : ∀ e ∈ es, e.WellFormed c) (hwd : ∀ e ∈ es, e.WidthsOk c) :
    processEventAsXmlTrace c env false st (encodeEvents c es) =
      Except.ok (st.countedBy es.length, xmlOut c env st.monPathVec_s st.eventCounter_s es,
        numbered st.eventCounter_s es, (encodeEvents c es).length) ∧
    (numbered st.eventCounter_s es).map Prod.snd = es ∧
    processEventAsXml c env false st (encodeEvents c es) =
      untrace (processEventAsXmlTrace c env false st (encodeEvents c es)) ∧
    (∀ (n : Int) (e : RawEvent), e ∈ es →
      xmlFragment c env n e =
        Except.ok (headText c env n e ++ e.args.flatMap (argText c env) ++ tailText c e)) :=
  ⟨processEventAsXmlTrace_events c hc.2.2 env st es hwf hwd, numbered_map_snd es _,
    processEventAsXmlTrace_erase c env false st _,
    fun n e he => xmlFragment_text c env n e (hwf e he) (hwd e he)⟩

set_option maxRecDepth 20000 in
/-- The round trip on a buffer of two events, a create-file event with a string and an int32
of four bytes and a delete event: the loop meets the two events, numbered 1 and 2, and stops
at offset 50, the length of the buffer. -/
theorem C12_decode_round_trip_witness :
    darwin.Valid ∧
    (∀ e ∈ [(⟨0, 1, [stringArg "/tmp/x", ⟨4, [7, 0, 0, 0]⟩]⟩ : RawEvent),
      ⟨1, 1, [stringArg "/tmp/x"]⟩], e.WellFormed darwin) ∧
    (∀ e ∈ [(⟨0, 1, [stringArg "/tmp/x", ⟨4, [7, 0, 0, 0]⟩]⟩ : RawEvent),
      ⟨1, 1, [stringArg "/tmp/x"]⟩], e.WidthsOk darwin) ∧
    processEventAsXmlTrace darwin exampleEnv false exampleState
        (encodeEvents darwin [⟨0, 1, [stringArg "/tmp/x", ⟨4, [7, 0, 0, 0]⟩]⟩,
          ⟨1, 1, [stringArg "/tmp/x"]⟩]) =
      Except.ok (exampleState.countedBy 2,
        [bytes ("<create-file>\n  <eventNumber>1</eventNumber>\n  <process>\n" ++
          "    <id>1</id>\n    <name>mv</name>\n  </process>\n  <string>/tmp/x</string>\n" ++
          "  <int32>7</int32>\n  <done>0xb33f</done>\n</create-file>\n"),
         bytes ("<delete>\n  <eventNumber>2</eventNumber>\n  <process>\n" ++
          "    <id>1</id>\n    <name>mv</name>\n  </process>\n  <string>/tmp/x</string>\n" ++
          "  <done>0xb33f</done>\n</delete>\n")],
        [(1, ⟨0, 1, [stringArg "/tmp/x", ⟨4, [7, 0, 0, 0]⟩]⟩), (2, ⟨1, 1, [stringArg "/tmp/x"]⟩)],
        50) :=
  ⟨by decide, by decide, by decide,
    (C12_decode_round_trip darwin (by decide) exampleEnv exampleState
      [⟨0, 1, [stringArg "/tmp/x", ⟨4, [7, 0, 0, 0]⟩]⟩, ⟨1, 1, [stringArg "/tmp/x"]⟩]
      (by decide) (by decide)).1.trans (by decide)⟩

set_option maxRecDepth 20000 in
/-- C12 as stated fails: an int32 argument with an empty payload meets the conditions
of the round trip (type other than the sentinel, payload shorter than 2^16, no path), yet
the loop reads four bytes at offset 12 of the buffer of 14 bytes and runs off its end
instead of meeting the event. With a payload of one byte followed by further bytes, the
loop completes but the value it renders, 28524295, is made of the payload byte 7, the two
bytes of the sentinel and the first byte of the next event. -/
theorem C12_decode_round_trip_counterexample :
    RawEvent.WellFormed darwin ⟨0, 1, [⟨4, []⟩]⟩ ∧
    encodeEvents darwin [⟨0, 1, [⟨4, []⟩]⟩] = [0, 0, 0, 0, 1, 0, 0, 0, 4, 0, 0, 0, 63, 179] ∧
    processEventAsXml darwin exampleEnv false exampleState
        (encodeEvents darwin [⟨0, 1, [⟨4, []⟩]⟩]) = Except.error Fault.readPastEnd ∧
    (∀ e ∈ [(⟨0, 1, [stringArg "/tmp/x", ⟨4, [7]⟩]⟩ : RawEvent), ⟨1, 1, [stringArg "/tmp/x"]⟩],
      e.WellFormed darwin) ∧
    processEventAsXml darwin exampleEnv false exampleState
        (encodeEvents darwin [⟨0, 1, [stringArg "/tmp/x", ⟨4, [7]⟩]⟩,
          ⟨1, 1, [stringArg "/tmp/x"]⟩]) =
      Except.ok (exampleState.countedBy 2,
        [bytes ("<create-file>\n  <eventNumber>1</eventNumber>\n  <process>\n" ++
          "    <id>1</id>\n    <name>mv</name>\n  </process>\n  <string>/tmp/x</string>\n" ++
          "  <int32>28524295</int32>\n  <done>0xb33f</done>\n</create-file>\n"),
         bytes ("<delete>\n  <eventNumber>2</eventNumber>\n  <process>\n" ++
          "    <id>1</id>\n    <name>mv</name>\n  </process>\n  <string>/tmp/x</string>\n" ++
          "  <done>0xb33f</done>\n</delete>\n")]) := by
  refine ⟨by decide, by decide, by decide, by decide, by decide⟩

/-- C13, amended. Decoder bound, as the code has it: the decode loops check no offset
against the size, so on every buffer each of `processEventTerse` and `processEventAsXml`
either completes or reads a byte past the end of the buffer, and there is no decode error;
on a buffer that concatenates well-formed event records (numeric payloads of the width
read, for XML mode) both complete, reading only inside the buffer; and on a buffer in
which, behind well-formed records, a record claims more payload than remains (behind
well-formed arguments, an argument that declares `arglen` bytes where fewer are left of the
buffer) both read past its end, debug printing off and, for XML mode, the numeric payloads
before that argument of the width read. -/
theorem C13_decoder_bound (c : FsEventsH) (hc : c.Valid) (env : Env) (d : Bool) (st : State)
    (buf : List Nat) :
    ((∃ r, processEventTerse c env d st buf = Except.ok r) ∨
      processEventTerse c env d st buf = Except.error Fault.readPastEnd) ∧
    ((∃ r, processEventAsXml c env d st buf = Except.ok r) ∨
      processEventAsXml c env d st buf = Except.error Fault.readPastEnd) ∧
    (∀ es : List RawEvent, (∀ e ∈ es, e.WellFormed c) →
      processEventTerse c env false st (encodeEvents c es) =
        Except.ok (st.countedBy es.length, terseLinesAll c env st.monPathVec_s es)) ∧
    (∀ es : List RawEvent, (∀ e ∈ es, e.WellFormed c) → (∀ e ∈ es, e.WidthsOk c) →
      processEventAsXml c env false st (encodeEvents c es) =
        Except.ok (st.countedBy es.length,
          xmlOut c env st.monPathVec_s st.eventCounter_s es)) ∧
    (∀ (es : List RawEvent) (kind pid : Int) (pre : List Arg) (argtype arglen : Nat)
      (tail : List Nat), (∀ e ∈ es, e.WellFormed c) →
      (-2147483648 ≤ kind ∧ kind < 2147483648) → (-2147483648 ≤ pid ∧ pid < 2147483648) →
      (∀ a ∈ pre, a.WellFormed c) → argtype < 65536 → arglen < 65536 →
      argtype ≠ c.FSE_ARG_DONE → tail.length < arglen →
      processEventTerse c env false st
          (encodeEvents c es ++ encodeOverlong kind pid pre argtype arglen tail) =
        Except.error Fault.readPastEnd ∧
      ((∀ e ∈ es, e.WidthsOk c) → (∀ a ∈ pre, a.WidthOk c) →
        processEventAsXml c env false st
            (encodeEvents c es ++ encodeOverlong kind pid pre argtype arglen tail) =
          Except.error Fault.readPastEnd)) := by
  refine ⟨?_, ?_, fun es hwf => processEventTerse_events c hc.2.2 env st es hwf,
    fun es hwf hwd => processEventAsXml_events c hc.2.2 env st es hwf hwd,
    fun es kind pid pre argtype arglen tail hes hk hp hpre ht hlen htd htail =>
      processEvent_overlong c hc.2.2 env st es kind pid pre argtype arglen tail hes hk hp hpre
        ht hlen htd htail⟩
  · have h := processEventTerse_rounds c env d st buf
    cases hr : processEventTerse c env d st buf with
    | ok r => exact Or.inl ⟨r, rfl⟩
    | error f =>
      cases f with
      | readPastEnd => exact Or.inr rfl
      | roundsExhausted => exact absurd hr h
  · have h := processEventAsXml_rounds c env d st buf
    cases hr : processEventAsXml c env d st buf with
    | ok r => exact Or.inl ⟨r, rfl⟩
    | error f =>
      cases f with
      | readPastEnd => exact Or.inr rfl
      | roundsExhausted => exact absurd hr h

set_option maxRecDepth 20000 in
/-- The bound at the constants of Darwin: on the buffer of one create-file event for the
watched `/tmp/x` the terse pass completes and prints the ADD line; on that buffer followed
by a record whose raw argument declares 100 bytes where 3 are left, the terse pass reads
past the end of the 47 bytes. -/
theorem C13_decoder_bound_witness :
    darwin.Valid ∧
    processEventTerse darwin exampleEnv false exampleState
        (encodeEvents darwin [⟨0, 42, [stringArg "/tmp/x"]⟩]) =
      Except.ok (exampleState.countedBy 1, [bytes "ADD:/tmp/x - pid 42 (mv)\n"]) ∧
    (∀ e ∈ [(⟨0, 42, [stringArg "/tmp/x"]⟩ : RawEvent)], e.WellFormed darwin) ∧
    (∀ a ∈ [stringArg "/tmp/y"], a.WellFormed darwin) ∧
    (6 : Nat) ≠ darwin.FSE_ARG_DONE ∧ [1, 2, 3].length < 100 ∧
    (encodeEvents darwin [⟨0, 42, [stringArg "/tmp/x"]⟩] ++
      encodeOverlong 1 42 [stringArg "/tmp/y"] 6 100 [1, 2, 3]).length = 47 ∧
    processEventTerse darwin exampleEnv false exampleState
        (encodeEvents darwin [⟨0, 42, [stringArg "/tmp/x"]⟩] ++
          encodeOverlong 1 42 [stringArg "/tmp/y"] 6 100 [1, 2, 3]) =
      Except.error Fault.readPastEnd :=
  ⟨by decide,
    ((C13_decoder_bound darwin (by decide) exampleEnv false exampleState []).2.2.1
      [⟨0, 42, [stringArg "/tmp/x"]⟩] (by decide)).trans (by decide),
    by decide, by decide, by decide, by decide, by decide,
    ((C13_decoder_bound darwin (by decide) exampleEnv false exampleState []).2.2.2.2
      [⟨0, 42, [stringArg "/tmp/x"]⟩] 1 42 [stringArg "/tmp/y"] 6 100 [1, 2, 3] (by decide)
      (by decide) (by decide) (by decide) (by decide) (by decide) (by decide) (by decide)).1⟩

set_option maxRecDepth 20000 in
/-- C13 as stated fails: on each of four buffers both decode loops read past the end of the
buffer, and neither reports a decode error: the buffer that holds a kind and nothing else,
the buffer that holds a kind and a pid and nothing else, the buffer that ends with the
header of a raw argument declaring 100 bytes and 3 bytes of payload, and the buffer that
ends with the header of a string argument declaring 3 bytes and 3 bytes without NUL. -/
theorem C13_decoder_bound_counterexample :
    processEventTerse darwin exampleEnv false exampleState [0, 0, 0, 0] =
      Except.error Fault.readPastEnd ∧
    processEventAsXml darwin exampleEnv false exampleState [0, 0, 0, 0] =
      Except.error Fault.readPastEnd ∧
    processEventTerse darwin exampleEnv false exampleState [0, 0, 0, 0, 1, 0, 0, 0] =
      Except.error Fault.readPastEnd ∧
    processEventAsXml darwin exampleEnv false exampleState [0, 0, 0, 0, 1, 0, 0, 0] =
      Except.error Fault.readPastEnd ∧
    processEventTerse darwin exampleEnv false exampleState
        [0, 0, 0, 0, 1, 0, 0, 0, 6, 0, 100, 0, 1, 2, 3] = Except.error Fault.readPastEnd ∧
    processEventAsXml darwin exampleEnv false exampleState
        [0, 0, 0, 0, 1, 0, 0, 0, 6, 0, 100, 0, 1, 2, 3] = Except.error Fault.readPastEnd ∧
    processEventTerse darwin exampleEnv false exampleState
        [0, 0, 0, 0, 1, 0, 0, 0, 2, 0, 3, 0, 47, 116, 109] = Except.error Fault.readPastEnd ∧
    processEventAsXml darwin exampleEnv false exampleState
        [0, 0, 0, 0, 1, 0, 0, 0, 2, 0, 3, 0, 47, 116, 109] = Except.error Fault.readPastEnd := by
  refine ⟨by decide, by decide, by decide, by decide, by decide, by decide, by decide,
    by decide⟩

/-- C14. Unknown arguments are skipped, debug printing off: let `u` be an argument whose type
is none of the eleven labels of the argument switch, inside a well-formed event
`(k, p, pre ++ u :: post)` that stands between the well-formed events `es1` and `es2` (numeric
payloads of the width read). `processEventAsXml` writes for `u` the single element
`<unknown-arg>LEN</unknown-arg>` with its declared length, meets every argument and event
of the buffer and stops at its end, and prints exactly what it prints for the buffer
without `u`, but for that element between the texts of `pre` and of `post`;
`processEventTerse` returns the state and the lines it returns for the buffer without `u`. -/
theorem C14_unknown_arg_skipped (c : FsEventsH) (hc : c.Valid) (env : Env) (st : State)
    (es1 es2 : List RawEvent) (k p : Int) (pre post : List Arg) (u : Arg)
    (hu : u.argtype ∉ c.argLabels)
    (hwf : ∀ e ∈ es1 ++ (⟨k, p, pre ++ u :: post⟩ : RawEvent) :: es2, e.WellFormed c)
    (hwd : ∀ e ∈ es1 ++ (⟨k, p, pre ++ u :: post⟩ : RawEvent) :: es2, e.WidthsOk c) :
    argText c env u = unknownArgText u.payload.length ∧
    processEventAsXmlTrace c env false st
        (encodeEvents c (es1 ++ ⟨k, p, pre ++ u :: post⟩ :: es2)) =
      Except.ok (st.countedBy (es1.length + 1 + es2.length),
        xmlOut c env st.monPathVec_s st.eventCounter_s es1 ++
          (if anyWatched st.monPathVec_s (RawEvent.paths c ⟨k, p, pre ++ post⟩) = true then
            [headText c env (st.eventCounter_s + es1.length + 1) ⟨k, p, pre ++ post⟩ ++
              pre.flatMap (argText c env) ++ unknownArgText u.payload.length ++
              post.flatMap (argText c env) ++ tailText c ⟨k, p, pre ++ post⟩]
          else []) ++
          xmlOut c env st.monPathVec_s (st.eventCounter_s + es1.length + 1) es2,
        numbered st.eventCounter_s (es1 ++ ⟨k, p, pre ++ u :: post⟩ :: es2),
        (encodeEvents c (es1 ++ ⟨k, p, pre ++ u :: post⟩ :: es2)).length) ∧
    processEventAsXml c env false st (encodeEvents c (es1 ++ ⟨k, p, pre ++ post⟩ :: es2)) =
      Except.ok (st.countedBy (es1.length + 1 + es2.length),
        xmlOut c env st.monPathVec_s st.eventCounter_s es1 ++
          (if anyWatched st.monPathVec_s (RawEvent.paths c ⟨k, p, pre ++ post⟩) = true then
            [headText c env (st.eventCounter_s + es1.length + 1) ⟨k, p, pre ++ post⟩ ++
              pre.flatMap (argText c env) ++
              post.flatMap (argText c env) ++ tailText c ⟨k, p, pre ++ post⟩]
          else []) ++
          xmlOut c env st.monPathVec_s (st.eventCounter_s + es1.length + 1) es2) ∧
    processEventTerse c env false st
        (encodeEvents c (es1 ++ ⟨k, p, pre ++ u :: post⟩ :: es2)) =
      Except.ok (st.countedBy (es1.length + 1 + es2.length),
        terseLinesAll c env st.monPathVec_s (es1 ++ ⟨k, p, pre ++ post⟩ :: es2)) ∧
    processEventTerse c env false st (encodeEvents c (es1 ++ ⟨k, p, pre ++ post⟩ :: es2)) =
      Except.ok (st.countedBy (es1.length + 1 + es2.length),
        terseLinesAll c env st.monPathVec_s (es1 ++ ⟨k, p, pre ++ post⟩ :: es2)) := by
  have hmem : (⟨k, p, pre ++ u :: post⟩ : RawEvent) ∈
      es1 ++ (⟨k, p, pre ++ u :: post⟩ : RawEvent) :: es2 := by simp
  have hwfu := hwf _ hmem
  have hwdu := hwd _ hmem
  have hsub : ∀ a ∈ pre ++ post, a ∈ pre ++ u :: post := by
    intro a ha
    simp only [List.mem_append, List.mem_cons] at ha ⊢
    tauto
  have hwf0e : RawEvent.WellFormed c ⟨k, p, pre ++ post⟩ :=
    ⟨hwfu.1, hwfu.2.1, fun a ha => hwfu.2.2 a (hsub a ha)⟩
  have hwd0e : RawEvent.WidthsOk c ⟨k, p, pre ++ post⟩ := fun a ha => hwdu a (hsub a ha)
  have hwf0 : ∀ e ∈ es1 ++ (⟨k, p, pre ++ post⟩ : RawEvent) :: es2, e.WellFormed c := by
    intro e he
    simp only [List.mem_append, List.mem_cons] at he
    rcases he with he | rfl | he
    · exact hwf e (by simp [he])
    · exact hwf0e
    · exact hwf e (by simp [he])
  have hwd0 : ∀ e ∈ es1 ++ (⟨k, p, pre ++ post⟩ : RawEvent) :: es2, e.WidthsOk c := by
    intro e he
    simp only [List.mem_append, List.mem_cons] at he
    rcases he with he | rfl | he
    · exact hwd e (by simp [he])
    · exact hwd0e
    · exact hwd e (by simp [he])
  have hlu : u.payload.length < 65536 := (hwfu.2.2 u (by simp)).2.2.1
  have hup := isPathArg_unknown c u hu
  have htext := argText_unknown c env u hu hlu
  have hlen1 : (es1 ++ (⟨k, p, pre ++ u :: post⟩ : RawEvent) :: es2).length =
      es1.length + 1 + es2.length := by
    simp only [List.length_append, List.length_cons]; omega
  have hlen0 : (es1 ++ (⟨k, p, pre ++ post⟩ : RawEvent) :: es2).length =
      es1.length + 1 + es2.length := by
    simp only [List.length_append, List.length_cons]; omega
  have hfu : ∀ n : Int, fragmentOf c env n ⟨k, p, pre ++ u :: post⟩ =
      headText c env n ⟨k, p, pre ++ post⟩ ++
        pre.flatMap (argText c env) ++ unknownArgText u.payload.length ++
        post.flatMap (argText c env) ++ tailText c ⟨k, p, pre ++ post⟩ := by
    intro n
    rw [fragmentOf_eq (xmlFragment_text c env n _ hwfu hwdu)]
    simp only [List.flatMap_append, List.flatMap_cons, htext, headText, tailText,
      List.append_assoc]
  have hf0 : ∀ n : Int, fragmentOf c env n ⟨k, p, pre ++ post⟩ =
      headText c env n ⟨k, p, pre ++ post⟩ ++
        pre.flatMap (argText c env) ++
        post.flatMap (argText c env) ++ tailText c ⟨k, p, pre ++ post⟩ := by
    intro n
    rw [fragmentOf_eq (xmlFragment_text c env n _ hwf0e hwd0e)]
    simp only [List.flatMap_append, List.append_assoc]
  refine ⟨htext, ?_, ?_, ?_, ?_⟩
  · rw [processEventAsXmlTrace_events c hc.2.2 env st _ hwf hwd, hlen1, xmlOut_append]
    simp only [xmlOut, paths_insert c k p pre post u hup, hfu, List.append_assoc]
  · rw [processEventAsXml_events c hc.2.2 env st _ hwf0 hwd0, hlen0, xmlOut_append]
    simp only [xmlOut, hf0, List.append_assoc]
  · rw [processEventTerse_events c hc.2.2 env st _ hwf, hlen1]
    simp only [terseLinesAll, List.flatMap_append, List.flatMap_cons,
      terseLines_insert c env st.monPathVec_s k p pre post u hup]
  · rw [processEventTerse_events c hc.2.2 env st _ hwf0, hlen0]

set_option maxRecDepth 20000 in
/-- An argument of type 99 with three payload bytes between a string and an int32 of a
create-file event for the watched `/tmp/x`, followed by a delete event: XML mode prints
`<unknown-arg>3</unknown-arg>` between the two, then the int32 and the next event as they
are, and terse mode prints the ADD and DEL lines. -/
theorem C14_unknown_arg_skipped_witness :
    darwin.Valid ∧ (99 : Nat) ∉ darwin.argLabels ∧
    (∀ e ∈ [] ++ (⟨0, 1, [stringArg "/tmp/x"] ++ ⟨99, [1, 2, 3]⟩ :: [⟨4, [7, 0, 0, 0]⟩]⟩ : RawEvent)
      :: [⟨1, 1, [stringArg "/tmp/x"]⟩], e.WellFormed darwin) ∧
    (∀ e ∈ [] ++ (⟨0, 1, [stringArg "/tmp/x"] ++ ⟨99, [1, 2, 3]⟩ :: [⟨4, [7, 0, 0, 0]⟩]⟩ : RawEvent)
      :: [⟨1, 1, [stringArg "/tmp/x"]⟩], e.WidthsOk darwin) ∧
    processEventAsXmlTrace darwin exampleEnv false exampleState
        (encodeEvents darwin ([] ++
          ⟨0, 1, [stringArg "/tmp/x"] ++ ⟨99, [1, 2, 3]⟩ :: [⟨4, [7, 0, 0, 0]⟩]⟩ ::
            [⟨1, 1, [stringArg "/tmp/x"]⟩])) =
      Except.ok (exampleState.countedBy 2,
        [bytes ("<create-file>\n  <eventNumber>1</eventNumber>\n  <process>\n" ++
          "    <id>1</id>\n    <name>mv</name>\n  </process>\n  <string>/tmp/x</string>\n" ++
          "  <unknown-arg>3</unknown-arg>\n" ++
          "  <int32>7</int32>\n  <done>0xb33f</done>\n</create-file>\n"),
         bytes ("<delete>\n  <eventNumber>2</eventNumber>\n  <process>\n" ++
          "    <id>1</id>\n    <name>mv</name>\n  </process>\n  <string>/tmp/x</string>\n" ++
          "  <done>0xb33f</done>\n</delete>\n")],
        [(1, ⟨0, 1, [stringArg "/tmp/x", ⟨99, [1, 2, 3]⟩, ⟨4, [7, 0, 0, 0]⟩]⟩),
          (2, ⟨1, 1, [stringArg "/tmp/x"]⟩)],
        57) ∧
    processEventTerse darwin exampleEnv false exampleState
        (encodeEvents darwin ([] ++
          ⟨0, 1, [stringArg "/tmp/x"] ++ ⟨99, [1, 2, 3]⟩ :: [⟨4, [7, 0, 0, 0]⟩]⟩ ::
            [⟨1, 1, [stringArg "/tmp/x"]⟩])) =
      Except.ok (exampleState.countedBy 2,
        [bytes "ADD:/tmp/x - pid 1 (mv)\n", bytes "DEL:/tmp/x - pid 1 (mv)\n"]) :=
  ⟨by decide, by decide, by decide, by decide,
    (C14_unknown_arg_skipped darwin (by decide) exampleEnv exampleState []
      [⟨1, 1, [stringArg "/tmp/x"]⟩] 0 1 [stringArg "/tmp/x"] [⟨4, [7, 0, 0, 0]⟩] ⟨99, [1, 2, 3]⟩
      (by decide) (by decide) (by decide)).2.1.trans (by decide),
    (C14_unknown_arg_skipped darwin (by decide) exampleEnv exampleState []
      [⟨1, 1, [stringArg "/tmp/x"]⟩] 0 1 [stringArg "/tmp/x"] [⟨4, [7, 0, 0, 0]⟩] ⟨99, [1, 2, 3]⟩
      (by decide) (by decide) (by decide)).2.2.2.1.trans (by decide)⟩

/-- C15. Unrecognized command is a no-op: in every state reached from the initial state by
calls of `processInputCmd`, a line (a NUL-terminated array) whose string does not begin
with `add:` or `del:` and is neither `clr` nor `die` makes `processInputCmd` return with the
watched set, the snapshot vector and the counter unchanged. -/
theorem C15_unrecognized_noop (isDebug_s : Bool) (lines : List (List Nat)) (st : State)
    (hreach : processInputCmds isDebug_s State.init lines = some st)
    (line : List Nat) (cmd : CStr) (hcmd : cstrAt line 0 = some cmd)
    (h1 : cmd.take 4 ≠ bytes "add:") (h2 : cmd.take 4 ≠ bytes "del:")
    (h3 : cmd ≠ bytes "clr") (h4 : cmd ≠ bytes "die") :
    ∃ out, processInputCmd isDebug_s st line = CmdResult.returned st out := by
  have hinv : st.monPathVec_s = st.monPathSet_s :=
    processInputCmds_invariant isDebug_s (fun s => s.monPathVec_s = s.monPathSet_s)
      (fun _ _ _ _ _ hr => (processInputCmd_returned hr).1) lines State.init st rfl hreach
  obtain ⟨out, h⟩ := processInputCmd_other isDebug_s st line cmd hcmd h1 h2 h3 h4
  refine ⟨out, ?_⟩
  rw [h]
  congr 1
  cases st
  simp only at hinv
  simp [hinv]

/-- The no-op law in the state reached by `add:/a`, for the lines `clr ` (with a blank),
`die now`, `ADD:/x` and the empty line. -/
theorem C15_unrecognized_noop_witness :
    processInputCmds false State.init [bytes "add:/a" ++ [0]] =
      some ⟨[bytes "/a"], [bytes "/a"], 0⟩ ∧
    (∃ out, processInputCmd false ⟨[bytes "/a"], [bytes "/a"], 0⟩ (bytes "clr " ++ [0]) =
      CmdResult.returned ⟨[bytes "/a"], [bytes "/a"], 0⟩ out) ∧
    (∃ out, processInputCmd false ⟨[bytes "/a"], [bytes "/a"], 0⟩ (bytes "die now" ++ [0]) =
      CmdResult.returned ⟨[bytes "/a"], [bytes "/a"], 0⟩ out) ∧
    (∃ out, processInputCmd false ⟨[bytes "/a"], [bytes "/a"], 0⟩ (bytes "ADD:/x" ++ [0]) =
      CmdResult.returned ⟨[bytes "/a"], [bytes "/a"], 0⟩ out) ∧
    (∃ out, processInputCmd false ⟨[bytes "/a"], [bytes "/a"], 0⟩ [0] =
      CmdResult.returned ⟨[bytes "/a"], [bytes "/a"], 0⟩ out) :=
  ⟨by decide,
    C15_unrecognized_noop false [bytes "add:/a" ++ [0]] _ (by decide) (bytes "clr " ++ [0])
      (bytes "clr ") (by decide) (by decide) (by decide) (by decide) (by decide),
    C15_unrecognized_noop false [bytes "add:/a" ++ [0]] _ (by decide) (bytes "die now" ++ [0])
      (bytes "die now") (by decide) (by decide) (by decide) (by decide) (by decide),
    C15_unrecognized_noop false [bytes "add:/a" ++ [0]] _ (by decide) (bytes "ADD:/x" ++ [0])
      (bytes "ADD:/x") (by decide) (by decide) (by decide) (by decide) (by decide),
    C15_unrecognized_noop false [bytes "add:/a" ++ [0]] _ (by decide) [0]
      [] (by decide) (by decide) (by decide) (by decide) (by decide)⟩

/-- C16. Snapshot invariant: in every state reached from the initial state by calls of
`processInputCmd`, after a further call that returns (whatever its line), the snapshot
vector `monPathVec_s` is the sequence of the members of the watched set `monPathSet_s` in
the set's order, which is strictly ascending in the string order, so that no member occurs
twice. -/
theorem C16_snapshot_invariant (isDebug_s : Bool) (lines : List (List Nat)) (st : State)
    (hreach : processInputCmds isDebug_s State.init lines = some st)
    (line : List Nat) (st1 : State) (out : List CStr)
    (hret : processInputCmd isDebug_s st line = CmdResult.returned st1 out) :
    st1.monPathVec_s = st1.monPathSet_s ∧ StrictAsc st1.monPathVec_s ∧
      st1.monPathVec_s.Nodup ∧ (∀ x : CStr, x ∈ st1.monPathVec_s ↔ x ∈ st1.monPathSet_s) := by
  have hstep : ∀ (s s1 : State) (l : List Nat) (o : List CStr), StrictAsc s.monPathSet_s →
      processInputCmd isDebug_s s l = CmdResult.returned s1 o → StrictAsc s1.monPathSet_s := by
    intro s s1 l o hs hr
    obtain ⟨-, -, h | h | ⟨P, h | h⟩⟩ := processInputCmd_returned hr
    · rw [h]; exact hs
    · rw [h]; exact List.Pairwise.nil
    · rw [h]; exact strictAsc_setInsert _ _ hs
    · rw [h]; exact strictAsc_setErase _ _ hs
  have hst : StrictAsc st.monPathSet_s :=
    processInputCmds_invariant isDebug_s (fun s => StrictAsc s.monPathSet_s) hstep lines
      State.init st List.Pairwise.nil hreach
  have h1 := hstep st st1 line out hst hret
  have hv := (processInputCmd_returned hret).1
  refine ⟨hv, hv ▸ h1, strictAsc_nodup _ (hv ▸ h1), fun x => by rw [hv]⟩

/-- The snapshot invariant after `add:/b`, `add:/a`, `add:/b/` and then `del:/c`. -/
theorem C16_snapshot_invariant_witness :
    processInputCmds false State.init
        [bytes "add:/b" ++ [0], bytes "add:/a" ++ [0], bytes "add:/b/" ++ [0]] =
      some ⟨[bytes "/a", bytes "/b"], [bytes "/a", bytes "/b"], 0⟩ ∧
    processInputCmd false ⟨[bytes "/a", bytes "/b"], [bytes "/a", bytes "/b"], 0⟩
        (bytes "del:/c" ++ [0]) =
      CmdResult.returned ⟨[bytes "/a", bytes "/b"], [bytes "/a", bytes "/b"], 0⟩ [] ∧
    ([bytes "/a", bytes "/b"] = [bytes "/a", bytes "/b"] ∧ StrictAsc [bytes "/a", bytes "/b"] ∧
      [bytes "/a", bytes "/b"].Nodup ∧
      (∀ x : CStr, x ∈ [bytes "/a", bytes "/b"] ↔ x ∈ [bytes "/a", bytes "/b"])) :=
  ⟨by decide, by decide,
    C16_snapshot_invariant false
      [bytes "add:/b" ++ [0], bytes "add:/a" ++ [0], bytes "add:/b/" ++ [0]]
      ⟨[bytes "/a", bytes "/b"], [bytes "/a", bytes "/b"], 0⟩ (by decide)
      (bytes "del:/c" ++ [0]) ⟨[bytes "/a", bytes "/b"], [bytes "/a", bytes "/b"], 0⟩ []
      (by decide)⟩

/-- C17. Normalization invariant: in every state reached from the initial state by calls of
`processInputCmd` on any arrays (control lines, and the `add:` lines that `main` builds from
the startup paths), no member of the watched set or of the snapshot ends with the slash;
and the line `"add:"` `P` inserts `P` without its trailing slashes, which differs from `P`
by those slashes only. -/
theorem C17_normalization (isDebug_s : Bool) :
    (∀ (lines : List (List Nat)) (st : State),
      processInputCmds isDebug_s State.init lines = some st →
        (∀ m ∈ st.monPathSet_s, NoTrailingSlash m) ∧
        (∀ m ∈ st.monPathVec_s, NoTrailingSlash m)) ∧
    (∀ (st : State) (P : CStr) (rest : List Nat), 0 ∉ P →
      (∃ out, processInputCmd isDebug_s st (bytes "add:" ++ P ++ 0 :: rest) =
        CmdResult.returned ⟨setInsert (stripSlashes P) st.monPathSet_s,
          setInsert (stripSlashes P) st.monPathSet_s, st.eventCounter_s⟩ out) ∧
      (∀ x : CStr, x ∈ setInsert (stripSlashes P) st.monPathSet_s ↔
        x = stripSlashes P ∨ x ∈ st.monPathSet_s) ∧
      NoTrailingSlash (stripSlashes P) ∧
      ∃ k, P = stripSlashes P ++ List.replicate k slash) := by
  constructor
  · intro lines st hreach
    have hstep : ∀ (s s1 : State) (l : List Nat) (o : List CStr),
        (∀ m ∈ s.monPathSet_s, NoTrailingSlash m) →
        processInputCmd isDebug_s s l = CmdResult.returned s1 o →
        (∀ m ∈ s1.monPathSet_s, NoTrailingSlash m) := by
      intro s s1 l o hs hr m hm
      obtain ⟨-, -, h | h | ⟨P, h | h⟩⟩ := processInputCmd_returned hr
      · rw [h] at hm; exact hs m hm
      · rw [h] at hm; simp at hm
      · rw [h] at hm
        rcases (mem_setInsert _ _ _).1 hm with rfl | hm
        · exact noTrailingSlash_stripSlashes P
        · exact hs m hm
      · rw [h] at hm
        exact hs m ((mem_setErase _ _ _).1 hm).1
    have hset := processInputCmds_invariant isDebug_s
      (fun s => ∀ m ∈ s.monPathSet_s, NoTrailingSlash m) hstep lines State.init st
      (by intro m hm; simp [State.init] at hm) hreach
    have hvec : st.monPathVec_s = st.monPathSet_s :=
      processInputCmds_invariant isDebug_s (fun s => s.monPathVec_s = s.monPathSet_s)
        (fun _ _ _ _ _ hr => (processInputCmd_returned hr).1) lines State.init st rfl hreach
    exact ⟨hset, hvec ▸ hset⟩
  · intro st P rest hP
    refine ⟨⟨_, by rw [processInputCmd_add isDebug_s st P rest hP, regenerate]; rfl⟩,
      fun x => mem_setInsert _ _ _, noTrailingSlash_stripSlashes P,
      rdropWhile_append_replicate slash P⟩

/-- The normalization at the initial state: `add:/A//b/../` inserts `/A//b/..`, keeping the
case, the inner double slash and the dots. -/
theorem C17_normalization_witness :
    0 ∉ bytes "/A//b/../" ∧
    processInputCmds false State.init [bytes "add:/A//b/../" ++ [0]] =
      some ⟨[bytes "/A//b/.."], [bytes "/A//b/.."], 0⟩ ∧
    ((∀ m ∈ [bytes "/A//b/.."], NoTrailingSlash m) ∧
      (∀ m ∈ [bytes "/A//b/.."], NoTrailingSlash m)) ∧
    stripSlashes (bytes "/A//b/../") = bytes "/A//b/.." ∧
    NoTrailingSlash (stripSlashes (bytes "/A//b/../")) :=
  ⟨by decide, by decide,
    (C17_normalization false).1 [bytes "add:/A//b/../" ++ [0]]
      ⟨[bytes "/A//b/.."], [bytes "/A//b/.."], 0⟩ (by decide),
    by decide,
    ((C17_normalization false).2 State.init (bytes "/A//b/../") [] (by decide)).2.2.1⟩

/-- C18. XML root tag per kind: `processEventAsXml` names the root element create-file,
delete, stat-changed, rename, content-modified, exchange, finder-info-changed, create-dir
or chown for the nine kind codes of the header, nine pairwise distinct names, and invalid for
the invalid code and for every kind code that is no label of the header; and the fragment of
a well-formed event, printed when a path of the event is watched, starts with the opening
tag of that name and ends with the closing tag of the same name. -/
theorem C18_xml_root_tag (c : FsEventsH) (hc : c.Valid) :
    (xmlRootTag c c.FSE_CREATE_FILE = bytes "create-file" ∧
      xmlRootTag c c.FSE_DELETE = bytes "delete" ∧
      xmlRootTag c c.FSE_STAT_CHANGED = bytes "stat-changed" ∧
      xmlRootTag c c.FSE_RENAME = bytes "rename" ∧
      xmlRootTag c c.FSE_CONTENT_MODIFIED = bytes "content-modified" ∧
      xmlRootTag c c.FSE_EXCHANGE = bytes "exchange" ∧
      xmlRootTag c c.FSE_FINDER_INFO_CHANGED = bytes "finder-info-changed" ∧
      xmlRootTag c c.FSE_CREATE_DIR = bytes "create-dir" ∧
      xmlRootTag c c.FSE_CHOWN = bytes "chown" ∧
      xmlRootTag c c.FSE_INVALID = bytes "invalid") ∧
    [bytes "create-file", bytes "delete", bytes "stat-changed", bytes "rename",
      bytes "content-modified", bytes "exchange", bytes "finder-info-changed",
      bytes "create-dir", bytes "chown"].Nodup ∧
    (∀ k : Int, k ∉ c.eventLabels → xmlRootTag c k = bytes "invalid") ∧
    (∀ (env : Env) (st : State) (e : RawEvent), e.WellFormed c → e.WidthsOk c →
      anyWatched st.monPathVec_s (e.paths c) = true →
      ∃ frag : CStr,
        processEventAsXml c env false st (encodeEvent c e) = Except.ok (st.counted, [frag]) ∧
        (bytes "<" ++ xmlRootTag c e.kind ++ bytes ">" ++ bytes "\n") <+: frag ∧
        (bytes "</" ++ xmlRootTag c e.kind ++ bytes ">" ++ bytes "\n") <:+ frag) := by
  refine ⟨xmlRootTag_table c hc, by decide, xmlRootTag_other c, ?_⟩
  intro env st e he hw hany
  obtain ⟨frag, h1, h2⟩ := processEventAsXml_event c hc.2.2 env st e he hw
  rw [if_pos hany] at h2
  exact ⟨frag, h2, (xmlFragment_whole h1).1, (xmlFragment_whole h1).2⟩

/-- The root tags for the Darwin values of the header, and the fragment of a watched event
of the unknown kind 77, whose root element is `invalid`. -/
theorem C18_xml_root_tag_witness :
    darwin.Valid ∧
    (xmlRootTag darwin 0 = bytes "create-file" ∧ xmlRootTag darwin 1 = bytes "delete" ∧
      xmlRootTag darwin 2 = bytes "stat-changed" ∧ xmlRootTag darwin 3 = bytes "rename" ∧
      xmlRootTag darwin 4 = bytes "content-modified" ∧ xmlRootTag darwin 5 = bytes "exchange" ∧
      xmlRootTag darwin 6 = bytes "finder-info-changed" ∧
      xmlRootTag darwin 7 = bytes "create-dir" ∧ xmlRootTag darwin 8 = bytes "chown" ∧
      xmlRootTag darwin (-1) = bytes "invalid") ∧
    xmlRootTag darwin 77 = bytes "invalid" ∧
    ∃ frag : CStr,
      processEventAsXml darwin exampleEnv false exampleState
          (encodeEvent darwin ⟨77, 42, [stringArg "/tmp/x"]⟩) =
        Except.ok (exampleState.counted, [frag]) ∧
      (bytes "<" ++ xmlRootTag darwin 77 ++ bytes ">" ++ bytes "\n") <+: frag ∧
      (bytes "</" ++ xmlRootTag darwin 77 ++ bytes ">" ++ bytes "\n") <:+ frag :=
  ⟨by decide, (C18_xml_root_tag darwin (by decide)).1,
    (C18_xml_root_tag darwin (by decide)).2.2.1 77 (by decide),
    (C18_xml_root_tag darwin (by decide)).2.2.2 exampleEnv exampleState
      ⟨77, 42, [stringArg "/tmp/x"]⟩ (by decide) (by decide) (by decide)⟩

/-- C20. XML filtering is coarser than terse filtering, debug printing off: for every
well-formed event and every watch set, if `processEventTerse` prints at least one line for
the event then `processEventAsXml` prints the fragment of the event; and the converse
fails: a content-modified event by process 42 with the watched path `/tmp/x` has its
fragment printed in XML mode and no terse line. -/
theorem C20_xml_coarser_than_terse :
    (∀ (c : FsEventsH) (env : Env) (st : State) (e : RawEvent), c.Valid → e.WellFormed c →
      e.WidthsOk c →
      ∃ lines : List CStr,
        processEventTerse c env false st (encodeEvent c e) = Except.ok (st.counted, lines) ∧
        (lines ≠ [] →
          ∃ frag : CStr,
            xmlFragment c env (st.eventCounter_s + 1) e = Except.ok frag ∧
            processEventAsXml c env false st (encodeEvent c e) =
              Except.ok (st.counted, [frag]))) ∧
    ((∃ frag : CStr,
        processEventAsXml darwin exampleEnv false exampleState
            (encodeEvent darwin ⟨4, 42, [stringArg "/tmp/x"]⟩) =
          Except.ok (exampleState.counted, [frag])) ∧
      processEventTerse darwin exampleEnv false exampleState
          (encodeEvent darwin ⟨4, 42, [stringArg "/tmp/x"]⟩) =
        Except.ok (exampleState.counted, [])) := by
  constructor
  · intro c env st e hc he hw
    refine ⟨_, processEventTerse_event c hc.2.2 env st e he, ?_⟩
    intro hne
    obtain ⟨frag, h1, h2⟩ := processEventAsXml_event c hc.2.2 env st e he hw
    rw [if_pos (terseLines_ne_nil c env _ e hne)] at h2
    exact ⟨frag, h1, h2⟩
  · constructor
    · obtain ⟨frag, -, h2⟩ := processEventAsXml_event darwin (by decide) exampleEnv
        exampleState ⟨4, 42, [stringArg "/tmp/x"]⟩ (by decide) (by decide)
      rw [if_pos (by decide)] at h2
      exact ⟨frag, h2⟩
    · decide

/-- The comparison where `/tmp/x` is watched, for the rename of `/tmp/y` to `/tmp/x` by
process 42: the terse `ADD` line is printed, and so is the fragment. -/
theorem C20_xml_coarser_than_terse_witness :
    darwin.Valid ∧ RawEvent.WellFormed darwin ⟨3, 42, [stringArg "/tmp/y", stringArg "/tmp/x"]⟩ ∧
    RawEvent.WidthsOk darwin ⟨3, 42, [stringArg "/tmp/y", stringArg "/tmp/x"]⟩ ∧
    ∃ lines : List CStr,
      processEventTerse darwin exampleEnv false exampleState
          (encodeEvent darwin ⟨3, 42, [stringArg "/tmp/y", stringArg "/tmp/x"]⟩) =
        Except.ok (exampleState.counted, lines) ∧
      (lines ≠ [] →
        ∃ frag : CStr,
          xmlFragment darwin exampleEnv (exampleState.eventCounter_s + 1)
            ⟨3, 42, [stringArg "/tmp/y", stringArg "/tmp/x"]⟩ = Except.ok frag ∧
          processEventAsXml darwin exampleEnv false exampleState
              (encodeEvent darwin ⟨3, 42, [stringArg "/tmp/y", stringArg "/tmp/x"]⟩) =
            Except.ok (exampleState.counted, [frag])) :=
  ⟨by decide, by decide, by decide,
    C20_xml_coarser_than_terse.1 darwin exampleEnv exampleState
      ⟨3, 42, [stringArg "/tmp/y", stringArg "/tmp/x"]⟩ (by decide) (by decide) (by decide)⟩

/-- C21 as stated fails: after the elements of the arguments the argument loop writes one
more child of the root, the `done` element that holds the end marker.  The fragment of an
event without arguments has the children `eventNumber`, `process` and `done`, one child
behind `process` and not none; that of an event with one string argument has two. -/
theorem C21_xml_children_counterexample :
    RawEvent.WellFormed darwin ⟨1, 42, []⟩ ∧ RawEvent.WidthsOk darwin ⟨1, 42, []⟩ ∧
    xmlFragment darwin exampleEnv 1 ⟨1, 42, []⟩ =
      Except.ok (bytes ("<delete>\n  <eventNumber>1</eventNumber>\n  <process>\n" ++
        "    <id>42</id>\n    <name>mv</name>\n  </process>\n" ++
        "  <done>0xb33f</done>\n</delete>\n")) ∧
    rootChildren (fragmentOf darwin exampleEnv 1 ⟨1, 42, []⟩) =
      [bytes "eventNumber", bytes "process", bytes "done"] ∧
    ((rootChildren (fragmentOf darwin exampleEnv 1 ⟨1, 42, []⟩)).drop 2).length ≠
      (⟨1, 42, []⟩ : RawEvent).args.length ∧
    rootChildren (fragmentOf darwin exampleEnv 1 ⟨1, 42, [stringArg "/tmp/x"]⟩) =
      [bytes "eventNumber", bytes "process", bytes "string", bytes "done"] ∧
    ((rootChildren (fragmentOf darwin exampleEnv 1 ⟨1, 42, [stringArg "/tmp/x"]⟩)).drop 2).length ≠
      (⟨1, 42, [stringArg "/tmp/x"]⟩ : RawEvent).args.length := by
  refine ⟨by decide, by decide, by decide, by decide, by decide, by decide, by decide⟩

/-- C21, amended. XML fragment children: for every well-formed event with `n` arguments
(numeric payloads of the width read) the fragment built by `processEventAsXml` is the head
(the opening tag of the root, the `eventNumber` element, the `process` element with the
numeric id and the escaped name), the texts of the arguments in arrival order and the tail;
it is well nested, and the children of its root are `eventNumber`, `process`, one element per
argument in arrival order, named after the argument's type, and last the `done` element:
`n + 1` children follow the `process` element. -/
theorem C21_xml_children (c : FsEventsH) (hc : c.Valid) (env : Env) (st : State)
    (e : RawEvent) (he : e.WellFormed c) (hw : e.WidthsOk c) :
    ∃ frag : CStr,
      xmlFragment c env (st.eventCounter_s + 1) e = Except.ok frag ∧
      processEventAsXml c env false st (encodeEvent c e) =
        Except.ok (st.counted,
          if anyWatched st.monPathVec_s (e.paths c) = true then [frag] else []) ∧
      frag = headText c env (st.eventCounter_s + 1) e ++ e.args.flatMap (argText c env) ++
        tailText c e ∧
      WellNested frag ∧
      rootChildren frag = [bytes "eventNumber", bytes "process"] ++
        e.args.map (fun a => argTag c a.argtype) ++ [bytes "done"] ∧
      ((rootChildren frag).drop 2).length = e.args.length + 1 ∧
      scanTags none frag = Tok.opening (xmlRootTag c e.kind) ::
        (elemToks (bytes "eventNumber") [] ++
          elemToks (bytes "process") [bytes "id", bytes "name"])
        ++ (e.args.flatMap (fun a => argToks c a.argtype) ++ elemToks (bytes "done") [])
        ++ [Tok.closing (xmlRootTag c e.kind)] := by
  obtain ⟨frag, h1, h2⟩ := processEventAsXml_event c hc.2.2 env st e he hw
  have h3 := xmlFragment_text c env (st.eventCounter_s + 1) e he hw
  obtain ⟨s1, s2, s3⟩ := xmlFragment_scan h1
  refine ⟨frag, h1, h2, ?_, s1, s2, ?_, s3⟩
  · rw [h1] at h3
    injection h3
  · rw [s2]
    simp

set_option maxRecDepth 20000 in
/-- The children of the fragment of a chown event with a string, a uid and a mode: five
children follow `process`, the three arguments and `done`. -/
theorem C21_xml_children_witness :
    darwin.Valid ∧
    RawEvent.WellFormed darwin
      ⟨8, 42, [stringArg "/tmp/x", ⟨8, [0, 0, 0, 0]⟩, ⟨10, [0xa4, 0x81, 0, 0]⟩]⟩ ∧
    RawEvent.WidthsOk darwin
      ⟨8, 42, [stringArg "/tmp/x", ⟨8, [0, 0, 0, 0]⟩, ⟨10, [0xa4, 0x81, 0, 0]⟩]⟩ ∧
    (∃ frag : CStr,
      xmlFragment darwin exampleEnv (exampleState.eventCounter_s + 1)
        ⟨8, 42, [stringArg "/tmp/x", ⟨8, [0, 0, 0, 0]⟩, ⟨10, [0xa4, 0x81, 0, 0]⟩]⟩ =
          Except.ok frag ∧
      rootChildren frag = [bytes "eventNumber", bytes "process", bytes "string", bytes "uid",
        bytes "mode", bytes "done"]) :=
  ⟨by decide, by decide, by decide,
    (C21_xml_children darwin (by decide) exampleEnv exampleState
      ⟨8, 42, [stringArg "/tmp/x", ⟨8, [0, 0, 0, 0]⟩, ⟨10, [0xa4, 0x81, 0, 0]⟩]⟩
      (by decide) (by decide)).elim
      (fun frag h => ⟨frag, h.1, h.2.2.2.2.1.trans (by decide)⟩)⟩

/-- C22. Device decomposition: for every 32-bit device value `d`, the `device` case of the
argument switch reports `major = (d >> 24) & 0xff` and `minor = d & 0xffffff` in decimal;
`major` is at most 255 and is the quotient of `d`, as an unsigned number, by `2^24` (the high
byte, also when the top bit of `d` is set), `minor` is below `2^24` and is the remainder, and
`major * 2^24 + minor = d`. -/
theorem C22_device_decomposition (c : FsEventsH) (hc : c.Valid) (env : Env) (d : Nat)
    (hd : d < 4294967296) :
    (d >>> 24) &&& 0xff ≤ 255 ∧ d &&& 0xffffff < 16777216 ∧
    ((d >>> 24) &&& 0xff) * 16777216 + (d &&& 0xffffff) = d ∧
    (d >>> 24) &&& 0xff = d / 16777216 ∧ d &&& 0xffffff = d % 16777216 ∧
    (∀ (buf : List Nat) (pos arglen : Nat) (xml : XmlStrBuilder_t), readU32 buf pos = some d →
      xmlOtherArg c env buf pos c.FSE_ARG_DEV arglen xml =
        Except.ok (((((xml.pushTag (bytes "device")).addTagAndVararg (bytes "value")
          (bytes "0x" ++ fmtX08 d)).addTagAndVararg (bytes "major")
          (fmtD ((d >>> 24) &&& 0xff : Nat))).addTagAndVararg (bytes "minor")
          (fmtD (d &&& 0xffffff : Nat))).popTag)) := by
  have h1 := device_major d hd
  have h2 := device_minor d
  refine ⟨?_, ?_, ?_, h1, h2, ?_⟩
  · rw [h1]; omega
  · rw [h2]; omega
  · rw [h1, h2]; omega
  · intro buf pos arglen xml hr
    rw [xmlOtherArg_dev c hc env buf pos arglen xml, hr]

set_option maxRecDepth 20000 in
/-- The device `0x8e000003`, whose top bit is set: the element written directly inside the
root element reports the major number 142 and the minor number 3. -/
theorem C22_device_decomposition_witness :
    darwin.Valid ∧ (0x8e000003 : Nat) < 4294967296 ∧
    ((0x8e000003 >>> 24) &&& 0xff = 142 ∧ 0x8e000003 &&& 0xffffff = 3 ∧
      142 * 16777216 + 3 = 0x8e000003) ∧
    xmlOtherArg darwin exampleEnv [3, 0, 0, 0x8e] 0 9 4 ⟨[], [], 1⟩ =
      Except.ok ⟨bytes ("  <device>\n    <value>0x8e000003</value>\n" ++
        "    <major>142</major>\n    <minor>3</minor>\n  </device>\n"), [], 1⟩ :=
  ⟨by decide, by decide, by decide,
    ((C22_device_decomposition darwin (by decide) exampleEnv 0x8e000003 (by decide)).2.2.2.2.2
      [3, 0, 0, 0x8e] 0 4 ⟨[], [], 1⟩ (by decide)).trans (by decide)⟩

/-- C23. Mode decomposition: for every mode `m`, `getModeString` writes a string of exactly
10 characters; for `i` from 1 to 9, character `i` is character `i` of `-rwxrwxrwx` when bit
`9 - i` of `m` is set and `-` otherwise; character 0 is `p`, `c`, `d`, `b`, `l`, `s` or `-`
exactly when `getVnodeTypeString(m)` is VFIFO, VCHR, VDIR, VBLK, VLNK, VSOCK or VREG
respectively; both depend on `m & S_IFMT` only, and a mode whose file-type bits are none of
the six special types is labelled VREG, with `-` for character 0. -/
theorem C23_mode_decomposition (m : Nat) :
    (getModeString m).length = 10 ∧
    (∀ i : Nat, 1 ≤ i → i ≤ 9 →
      (getModeString m)[i]? =
        if m.testBit (9 - i) = true then (bytes "-rwxrwxrwx")[i]? else some '-'.toNat) ∧
    (((getModeString m)[0]? = some 'p'.toNat ↔ getVnodeTypeString m = bytes "VFIFO") ∧
      ((getModeString m)[0]? = some 'c'.toNat ↔ getVnodeTypeString m = bytes "VCHR") ∧
      ((getModeString m)[0]? = some 'd'.toNat ↔ getVnodeTypeString m = bytes "VDIR") ∧
      ((getModeString m)[0]? = some 'b'.toNat ↔ getVnodeTypeString m = bytes "VBLK") ∧
      ((getModeString m)[0]? = some 'l'.toNat ↔ getVnodeTypeString m = bytes "VLNK") ∧
      ((getModeString m)[0]? = some 's'.toNat ↔ getVnodeTypeString m = bytes "VSOCK") ∧
      ((getModeString m)[0]? = some '-'.toNat ↔ getVnodeTypeString m = bytes "VREG")) ∧
    getVnodeTypeString m ∈ [bytes "VFIFO", bytes "VCHR", bytes "VDIR", bytes "VBLK",
      bytes "VLNK", bytes "VSOCK", bytes "VREG"] ∧
    ((getModeString m)[0]? = (getModeString (m &&& S_IFMT))[0]? ∧
      getVnodeTypeString m = getVnodeTypeString (m &&& S_IFMT)) ∧
    (m &&& S_IFMT ∉ [0x1000, 0x2000, 0x4000, 0x6000, 0xA000, 0xC000] →
      getVnodeTypeString m = bytes "VREG" ∧ (getModeString m)[0]? = some '-'.toNat) := by
  refine ⟨rfl, ?_, ?_, ?_, ?_, ?_⟩
  · intro i h1 h2
    have e8 : modeBit m 0x100 'r' = _ := modeBit_eq m 8 'r'
    have e7 : modeBit m 0x80 'w' = _ := modeBit_eq m 7 'w'
    have e6 : modeBit m 0x40 'x' = _ := modeBit_eq m 6 'x'
    have e5 : modeBit m 0x20 'r' = _ := modeBit_eq m 5 'r'
    have e4 : modeBit m 0x10 'w' = _ := modeBit_eq m 4 'w'
    have e3 : modeBit m 0x08 'x' = _ := modeBit_eq m 3 'x'
    have e2 : modeBit m 0x04 'r' = _ := modeBit_eq m 2 'r'
    have e1 : modeBit m 0x02 'w' = _ := modeBit_eq m 1 'w'
    have e0 : modeBit m 0x01 'x' = _ := modeBit_eq m 0 'x'
    interval_cases i
    · show some (modeBit m 0x100 'r') = _
      rw [e8]; split <;> rfl
    · show some (modeBit m 0x80 'w') = _
      rw [e7]; split <;> rfl
    · show some (modeBit m 0x40 'x') = _
      rw [e6]; split <;> rfl
    · show some (modeBit m 0x20 'r') = _
      rw [e5]; split <;> rfl
    · show some (modeBit m 0x10 'w') = _
      rw [e4]; split <;> rfl
    · show some (modeBit m 0x08 'x') = _
      rw [e3]; split <;> rfl
    · show some (modeBit m 0x04 'r') = _
      rw [e2]; split <;> rfl
    · show some (modeBit m 0x02 'w') = _
      rw [e1]; split <;> rfl
    · show some (modeBit m 0x01 'x') = _
      rw [e0]; split <;> rfl
  · have h := modeTypeChar_table m
    have e : (getModeString m)[0]? = some (modeTypeChar m) := rfl
    simp only [e, Option.some.injEq]
    exact h
  · unfold getVnodeTypeString
    repeat' split
    all_goals simp
  · constructor
    · show some (modeTypeChar m) = some (modeTypeChar (m &&& S_IFMT))
      unfold modeTypeChar
      rw [ifmt_idem]
    · unfold getVnodeTypeString
      rw [ifmt_idem]
  · intro h
    simp only [List.mem_cons, List.mem_singleton, not_or, List.not_mem_nil, not_false_eq_true,
      and_true] at h
    obtain ⟨h1, h2, h3, h4, h5, h6⟩ := h
    constructor
    · unfold getVnodeTypeString
      simp only [if_neg h1, if_neg h2, if_neg h3, if_neg h4, if_neg h5, if_neg h6]
    · show some (modeTypeChar m) = _
      unfold modeTypeChar
      simp only [if_neg h1, if_neg h2, if_neg h3, if_neg h4, if_neg h5, if_neg h6]

/-- The decomposition of the mode `0o40755` of a directory, `drwxr-xr-x` and VDIR, and of
the mode `0o100644` of a regular file, `-rw-r--r--` and VREG. -/
theorem C23_mode_decomposition_witness :
    (0o100644 &&& S_IFMT ∉ [0x1000, 0x2000, 0x4000, 0x6000, 0xA000, 0xC000]) ∧
    (getVnodeTypeString 0o100644 = bytes "VREG" ∧
      (getModeString 0o100644)[0]? = some '-'.toNat) ∧
    getModeString 0o100644 = bytes "-rw-r--r--" ∧
    getModeString 0o40755 = bytes "drwxr-xr-x" ∧ getVnodeTypeString 0o40755 = bytes "VDIR" :=
  ⟨by decide, (C23_mode_decomposition 0o100644).2.2.2.2.2 (by decide), by decide, by decide,
    by decide⟩

/-- C24. Subtree closure: for every snapshot list and every candidate `C`, if
`isMonitoredPath(C)` is true then `isMonitoredPath(C ++ "/" ++ s)` is true for every string
`s`, with debug printing on or off. -/
theorem C24_subtree_closure (isDebug_s : Bool) (monPathVec_s : List CStr) (C s : CStr)
    (h : (isMonitoredPath isDebug_s monPathVec_s C).1 = true) :
    (isMonitoredPath isDebug_s monPathVec_s (C ++ [slash] ++ s)).1 = true := by
  rw [isMonitoredPath_true_iff] at h ⊢
  obtain ⟨P, hP, hm⟩ := h
  refine ⟨P, hP, Or.inr ?_⟩
  rcases hm with rfl | ⟨hpre, -, hsl⟩
  · refine ⟨?_, ?_, ?_⟩
    · rw [List.append_assoc]; exact List.prefix_append _ _
    · intro he
      have := congrArg List.length he
      simp only [List.length_append, List.length_cons, List.length_nil] at this
      omega
    · rw [List.append_assoc, List.getElem?_append_right (le_refl _)]
      simp
  · have hlt : P.length < C.length := by
      by_contra hn
      rw [List.getElem?_eq_none (by omega)] at hsl
      exact absurd hsl (by simp)
    refine ⟨?_, ?_, ?_⟩
    · rw [List.append_assoc]; exact hpre.trans (List.prefix_append _ _)
    · intro he
      have := congrArg List.length he
      simp only [List.length_append, List.length_cons, List.length_nil] at this
      omega
    · rw [List.append_assoc, List.getElem?_append_left hlt]
      exact hsl

/-- Subtree closure where `/tmp/x` is watched: `/tmp/x/a` is matched, and so is
`/tmp/x/a/b.txt` below it. -/
theorem C24_subtree_closure_witness :
    (isMonitoredPath false [bytes "/tmp/x"] (bytes "/tmp/x/a")).1 = true ∧
    (isMonitoredPath false [bytes "/tmp/x"] (bytes "/tmp/x/a" ++ [slash] ++ bytes "b.txt")).1 =
      true :=
  ⟨by decide, C24_subtree_closure false [bytes "/tmp/x"] (bytes "/tmp/x/a") (bytes "b.txt")
    (by decide)⟩

/-- C25. Watching the root: for every watch state, the line `"add:"` followed by zero or
more slashes makes `processInputCmd` return with the empty string in the watched set and in
the snapshot; a later call that returns keeps it there unless it clears the set or erases
the empty string; and while the empty string is in the snapshot, `isMonitoredPath` is true
for the empty candidate and for every candidate that starts with a slash, and for a
candidate that starts with another character it is true exactly when a non-empty entry
matches it. -/
theorem C25_watching_root (isDebug_s : Bool) :
    (∀ (st : State) (k : Nat) (rest : List Nat),
      ∃ out, processInputCmd isDebug_s st (bytes "add:" ++ List.replicate k slash ++ 0 :: rest) =
          CmdResult.returned ⟨setInsert [] st.monPathSet_s, setInsert [] st.monPathSet_s,
            st.eventCounter_s⟩ out ∧
        ([] : CStr) ∈ setInsert [] st.monPathSet_s) ∧
    (∀ (st st1 : State) (line : List Nat) (out : List CStr), ([] : CStr) ∈ st.monPathSet_s →
      processInputCmd isDebug_s st line = CmdResult.returned st1 out →
      ([] : CStr) ∈ st1.monPathVec_s ∨ st1.monPathSet_s = [] ∨
        st1.monPathSet_s = setErase [] st.monPathSet_s) ∧
    (∀ vec : List CStr, ([] : CStr) ∈ vec →
      (isMonitoredPath isDebug_s vec []).1 = true ∧
      (∀ t : CStr, (isMonitoredPath isDebug_s vec (slash :: t)).1 = true) ∧
      (∀ (b : Nat) (t : CStr), b ≠ slash →
        ((isMonitoredPath isDebug_s vec (b :: t)).1 = true ↔
          ∃ P ∈ vec, P ≠ [] ∧
            (b :: t = P ∨
              (P <+: b :: t ∧ P ≠ b :: t ∧ (b :: t)[P.length]? = some slash))))) := by
  refine ⟨?_, ?_, fun vec hv => isMonitoredPath_root isDebug_s vec hv⟩
  · intro st k rest
    have h0 : (0 : Nat) ∉ List.replicate k slash := by
      intro h
      exact absurd (List.mem_replicate.1 h).2 (by decide)
    have h := processInputCmd_add isDebug_s st (List.replicate k slash) rest h0
    have hs := stripSlashes_replicate k
    unfold stripSlashes at hs
    rw [hs] at h
    exact ⟨_, h, (mem_setInsert _ _ _).2 (Or.inl rfl)⟩
  · intro st st1 line out hmem hret
    obtain ⟨hv, -, h | h | ⟨P, h | h⟩⟩ := processInputCmd_returned hret
    · left; rw [hv, h]; exact hmem
    · right; left; exact h
    · left; rw [hv, h]; exact (mem_setInsert _ _ _).2 (Or.inr hmem)
    · by_cases hP : stripSlashes P = []
      · right; right; rw [h, hP]
      · left; rw [hv, h]
        exact (mem_setErase _ _ _).2 ⟨hmem, fun he => hP he.symm⟩

/-- Watching the root from the state that watches `/tmp/x`: after `add:/` the empty string
is watched, `/etc/passwd` is matched, and `etc` is not. -/
theorem C25_watching_root_witness :
    (∃ out, processInputCmd false exampleState (bytes "add:" ++ List.replicate 1 slash ++ 0 :: []) =
        CmdResult.returned ⟨setInsert [] exampleState.monPathSet_s,
          setInsert [] exampleState.monPathSet_s, exampleState.eventCounter_s⟩ out ∧
      ([] : CStr) ∈ setInsert [] exampleState.monPathSet_s) ∧
    setInsert [] exampleState.monPathSet_s = [[], bytes "/tmp/x"] ∧
    (isMonitoredPath false [[], bytes "/tmp/x"] (bytes "/etc/passwd")).1 = true ∧
    (isMonitoredPath false [[], bytes "/tmp/x"] (bytes "etc")).1 = false :=
  ⟨(C25_watching_root false).1 exampleState 1 [], by decide, by decide, by decide⟩

/-- C26. `eraseTrailingChar` does not stay inside its string when the string is empty or
made of the character `c` only: once `len` is 0 the loop tests `s[len - 1]`, the byte before
the string.  For the line `"\n"` that `fgets` leaves in `buf`, and for a string of `k` times
`c` at the start of any array, that byte lies outside the array; for the string `"\n"` at
offset 2 of the array `"x\n\n"` the newline at index 1, before the string, is overwritten;
for the path of the line `add:` the colon at index 3 is read. -/
theorem C26_eraseTrailingChar_leaves_string :
    eraseTrailingChar (bytes "\n" ++ [0]) 0 '\n'.toNat = none ∧
    eraseTrailingChar [0] 0 '\n'.toNat = none ∧
    (∀ (c k : Nat) (rest : List Nat),
      eraseTrailingChar (List.replicate k (c + 1) ++ 0 :: rest) 0 (c + 1) = none) ∧
    eraseTrailingChar (bytes "x\n\n" ++ [0]) 2 '\n'.toNat = some (bytes "x" ++ [0, 0, 0]) ∧
    eraseTrailingChar (bytes "add:" ++ [0]) 4 slash = some (bytes "add:" ++ [0]) ∧
    eraseTrailingChar (bytes "/" ++ [0]) 0 slash = none :=
  ⟨by decide, by decide, eraseTrailingChar_all, by decide, by decide, by decide⟩

/-- C27. `strReplaceAll` against a reference: for every input and every `newSubStr`, with a
non-empty `oldSubStr` the first loop of `strReplaceAll` ends after one round more than the
`k` occurrences met by a left-to-right, non-overlapping scan of the input (`k` is at most
the length of the input), and the function returns the input with each of these
occurrences replaced, the text written never being scanned; the length of the result is
`|in| + k * (|newSubStr| - |oldSubStr|)`.  With an empty `oldSubStr` the first loop is still
running after any number of rounds. -/
theorem C27_strReplaceAll_reference (inp oldSubStr newSubStr : CStr) :
    (oldSubStr ≠ [] →
      (scanPositions oldSubStr 0 inp 0).length ≤ inp.length ∧
      (∀ fuel : Nat, (scanPositions oldSubStr 0 inp 0).length < fuel →
        strReplaceAll fuel inp oldSubStr newSubStr =
          some (strReplaceAllRef oldSubStr newSubStr 0 inp)) ∧
      (strReplaceAllRef oldSubStr newSubStr 0 inp).length +
          (scanPositions oldSubStr 0 inp 0).length * oldSubStr.length =
        inp.length + (scanPositions oldSubStr 0 inp 0).length * newSubStr.length) ∧
    (∀ fuel : Nat, strReplaceAll fuel inp [] newSubStr = none) := by
  refine ⟨fun hold => ⟨scanPositions_length_le oldSubStr inp 0 0,
    fun fuel hf => strReplaceAll_ref inp oldSubStr newSubStr hold fuel hf, ?_⟩,
    fun fuel => strReplaceAll_empty fuel inp newSubStr⟩
  have := strReplaceAllRef_length oldSubStr newSubStr hold inp 0 0 (Nat.zero_le _)
  omega

/-- The reference on `a&b&&` with `&` replaced by `&amp;`, which contains `&`: three
occurrences, none of them inside the text written; and on `aaa` with `aa` replaced by `b`:
one occurrence, the second `aa` overlapping the first. -/
theorem C27_strReplaceAll_reference_witness :
    bytes "&" ≠ [] ∧
    scanPositions (bytes "&") 0 (bytes "a&b&&") 0 = [1, 3, 4] ∧
    strReplaceAll 4 (bytes "a&b&&") (bytes "&") (bytes "&amp;") =
      some (strReplaceAllRef (bytes "&") (bytes "&amp;") 0 (bytes "a&b&&")) ∧
    strReplaceAllRef (bytes "&") (bytes "&amp;") 0 (bytes "a&b&&") = bytes "a&amp;b&amp;&amp;" ∧
    strReplaceAll 2 (bytes "aaa") (bytes "aa") (bytes "b") = some (bytes "ba") ∧
    strReplaceAll 100 (bytes "aaa") [] (bytes "b") = none :=
  ⟨by decide, by decide,
    ((C27_strReplaceAll_reference (bytes "a&b&&") (bytes "&") (bytes "&amp;")).1
      (by decide)).2.1 4 (by decide),
    by decide, by decide, by decide⟩

/-- C28. Nesting invariant of `XmlStrBuilder_t`: after any sequence of calls of `pushTag`,
`popTag`, `addTagAndValue`, `addTagAndVararg` and `clear` on a constructed builder,
`indent_m` is the number of tags on the stack, hence not negative; on a stack `ts` of that
depth `pushTag(t)` writes the opening tag behind `|ts|` indentation steps and `popTag`, with
`t` on top of `ts`, writes the closing tag of `t` behind as many and returns to `ts`;
`popTag` on an empty stack changes nothing; and in `processEventAsXml`, on any buffer, the
`popTag` that ends an event leaves the stack empty and an output in which every closing tag
names the innermost open element and no element stays open, so that every fragment printed
is well nested. -/
theorem C28_nesting_invariant :
    (∀ ops : List XmlOp,
      (XmlStrBuilder_t.new.calls ops).indent_m =
        ((XmlStrBuilder_t.new.calls ops).tags_m.length : Int) ∧
      0 ≤ (XmlStrBuilder_t.new.calls ops).indent_m) ∧
    (∀ (x : XmlStrBuilder_t) (ts : List CStr) (t : CStr), x.tags_m = ts →
      x.indent_m = (ts.length : Int) →
      x.pushTag t =
        ⟨x.os_m ++ indentLoop ts.length [] ++ bytes "<" ++ t ++ bytes ">" ++ bytes "\n",
          ts ++ [t], (ts.length : Int) + 1⟩) ∧
    (∀ (y : XmlStrBuilder_t) (ts : List CStr) (t : CStr), y.tags_m = ts ++ [t] →
      y.indent_m = (ts.length : Int) + 1 →
      y.popTag =
        ⟨y.os_m ++ indentLoop ts.length [] ++ bytes "</" ++ t ++ bytes ">" ++ bytes "\n",
          ts, (ts.length : Int)⟩) ∧
    (∀ x : XmlStrBuilder_t, x.tags_m = [] → x.popTag = x) ∧
    (∀ (c : FsEventsH) (env : Env) (d : Bool) (vec : List CStr) (buf : List Nat) (n k p : Int)
      (xml x1 x2 : XmlStrBuilder_t) (fuel pos pos1 : Nat) (sp sp1 : Bool)
      (out out1 : List CStr),
      xmlHead c env n k p xml = Except.ok x1 →
      xmlArgs c env d vec buf fuel pos sp x1 out = Except.ok (pos1, sp1, x2, out1) →
      x2.popTag.tags_m = [] ∧ x2.popTag.indent_m = 0 ∧ WellNested x2.popTag.str) ∧
    (∀ (c : FsEventsH) (env : Env) (st st1 : State) (buf : List Nat) (out : List CStr),
      processEventAsXml c env false st buf = Except.ok (st1, out) →
      ∀ frag ∈ out, WellNested frag) := by
  refine ⟨?_, pushTag_text, popTag_text, popTag_empty, ?_, processEventAsXml_nested⟩
  · intro ops
    have h := calls_indent ops XmlStrBuilder_t.new rfl
    exact ⟨h, by rw [h]; exact Int.natCast_nonneg _⟩
  · intro c env d vec buf n k p xml x1 x2 fuel pos pos1 sp sp1 out out1 hh ha
    obtain ⟨r1, r2, r3, -⟩ := event_scan hh ha
    exact ⟨r1, r2, r3⟩

set_option maxRecDepth 20000 in
/-- The invariant on a pass over the buffer of a chown event for the watched `/tmp/x` with
a uid argument: the fragment printed nests `int` and `name` in `uid`, and `uid` in `chown`;
and a `popTag` too many leaves the builder as it is. -/
theorem C28_nesting_invariant_witness :
    processEventAsXml darwin exampleEnv false exampleState
        (encodeEvent darwin ⟨8, 42, [stringArg "/tmp/x", ⟨8, [0, 0, 0, 0]⟩]⟩) =
      Except.ok (exampleState.counted,
        [bytes ("<chown>\n  <eventNumber>1</eventNumber>\n  <process>\n    <id>42</id>\n" ++
          "    <name>mv</name>\n  </process>\n  <string>/tmp/x</string>\n  <uid>\n" ++
          "    <int>0</int>\n    <name>root</name>\n  </uid>\n  <done>0xb33f</done>\n" ++
          "</chown>\n")]) ∧
    (∀ frag ∈ [bytes ("<chown>\n  <eventNumber>1</eventNumber>\n  <process>\n    <id>42</id>\n" ++
          "    <name>mv</name>\n  </process>\n  <string>/tmp/x</string>\n  <uid>\n" ++
          "    <int>0</int>\n    <name>root</name>\n  </uid>\n  <done>0xb33f</done>\n" ++
          "</chown>\n")], WellNested frag) ∧
    XmlStrBuilder_t.new.calls [XmlOp.pushTag (bytes "a"), XmlOp.popTag, XmlOp.popTag] =
      ⟨bytes "<a>\n</a>\n", [], 0⟩ :=
  ⟨by decide,
    C28_nesting_invariant.2.2.2.2.2 darwin exampleEnv exampleState exampleState.counted
      (encodeEvent darwin ⟨8, 42, [stringArg "/tmp/x", ⟨8, [0, 0, 0, 0]⟩]⟩) _ (by decide),
    by decide⟩

end FileMon
